import Mathlib

/-!
# libnmf: the NMF container codec (`src/libnmf.c`, `src/libnmf.h`)

A shallow embedding of the tagged-chunk container reader and writer and of the
cluster reader and writer, and of `PesOptionalHeader::SetPtsBits` of
`src/webm2pes.cc`.

* 32-bit words held in C structures and buffers are natural numbers; every
  place where the C code computes in `uint32_t` reduces modulo `2 ^ 32`.
* A file is a list of bytes with a position; `fwrite` and `fread` transfer
  words in little-endian byte order.
* A pointer into a word buffer is the list of words from that position on
  (`List.drop`), and a buffer holds exactly the words that were stored in it.
* A loop counter `int i` that runs against a `uint32_t` bound faults when its
  increment overflows.
* The `malloc` call of `parse_nmf`, whose result the code stores without a
  test, is a parameter `alloc` of the parser: every theorem holds for every
  allocator, and says so when it needs the call to return a table. The other
  `malloc` calls are written through at once and are taken to succeed.
* A `std::int64_t` is an integer; `>>` on it is `Int.shiftRight` and `&` is
  `Int.land`, both of which work on the two's complement pattern.
* `exit(1)` is an error result that names the message printed before it.
  A memory access that C leaves undefined (a read of a word that was never
  stored, a write outside an allocated table) is the error `nmf_exit.fault`.
-/

namespace NMF

/-! ## Constants of `libnmf.h` -/

def NMF_INDICATOR : Nat := 0xFF
def NMF_HEADER : Nat := 0x01
def NMF_TRACK : Nat := 0x02
def NMF_INDEX : Nat := 0x03
def NMF_MAGIC_NUM : Nat := 0x46454D4E

/-! ## Structures of `libnmf.h` -/

/-- The `struct nmf_header`: two words, `duration` (the raw bits of the float) and `track_num`. -/
structure nmf_header where
  duration : Nat
  track_num : Nat
  deriving DecidableEq, Repr

/-- The `struct nmf_track_header`: `uint8_t index`, `uint8_t type`, `uint16_t reserved`,
`uint32_t codec`; eight bytes, two words. -/
structure nmf_track_header where
  index : Nat
  type : Nat
  reserved : Nat
  codec : Nat
  deriving DecidableEq, Repr

/-- The `struct nmf_track`: `payload` is the word array the pointer refers to (empty for `NULL`),
`length` the separate word count field. -/
structure nmf_track where
  header : nmf_track_header
  length : Nat
  payload : List Nat
  deriving DecidableEq, Repr

/-- The `struct nmf_index`. -/
structure nmf_index where
  fp : Nat
  scale : Nat
  count : Nat
  deriving DecidableEq, Repr

/-- The `struct nmf_container`. The field `tracks` is `none` for a `NULL` pointer and otherwise the
allocated table; a slot of the table is `none` until a track has been stored in it (memory
returned by `malloc` is not initialised). -/
structure nmf_container where
  header : nmf_header
  tracks : Option (List (Option nmf_track))
  index : nmf_index
  deriving DecidableEq, Repr

/-- The ways a call can end without returning: one constructor per `exit(1)` of `libnmf.c`, named
after the message printed before it, `fault` for an access that C leaves undefined (outside the
words stored in a buffer or outside an allocated table), and `fuel` for a loop that was cut off
by the iteration bound of the model (shown unreachable in `parse_nmf_fuel`). -/
inductive nmf_exit where
  | wrong_header_size
  | no_track_memory
  | wrong_index_size
  | not_tag
  | unknown_tag
  | null_content
  | wrong_file_size
  | unknown_file_type
  | fault
  | fuel
  deriving DecidableEq, Repr

deriving instance DecidableEq for Except

/-! ## Files -/

/-- One byte of a file. -/
abbrev Byte := Fin 256

/-- The C `FILE`: the bytes of the file and the current position. -/
structure FILE where
  data : List Byte
  pos : Nat
  deriving DecidableEq, Repr

/-- The four bytes of a 32-bit word in little-endian order. -/
def word_bytes (w : Nat) : List Byte :=
  [Fin.ofNat w, Fin.ofNat (w >>> 8), Fin.ofNat (w >>> 16), Fin.ofNat (w >>> 24)]

/-- The 32-bit word held by four bytes in little-endian order. -/
def bytes_word (b0 b1 b2 b3 : Byte) : Nat :=
  b0.val + (b1.val <<< 8) + (b2.val <<< 16) + (b3.val <<< 24)

/-- The bytes of a sequence of words. -/
def words_bytes (ws : List Nat) : List Byte :=
  ws.flatMap word_bytes

/-- The words found at the start of a byte sequence: at most `n`, complete words only. -/
def bytes_words : List Byte → Nat → List Nat
  | b0 :: b1 :: b2 :: b3 :: rest, n + 1 => bytes_word b0 b1 b2 b3 :: bytes_words rest n
  | _, _ => []

/-- The call `fwrite(ptr, 4, n, fd)` where `ws` are the `n` words at `ptr`: the bytes replace
those at the current position (extending the file), and the position moves past them. -/
def fwrite (fd : FILE) (ws : List Nat) : FILE :=
  let bs := words_bytes ws
  { data := fd.data.take fd.pos ++ List.replicate (fd.pos - fd.data.length) 0 ++ bs
      ++ fd.data.drop (fd.pos + bs.length),
    pos := fd.pos + bs.length }

/-- The call `fread(ptr, 4, n, fd)`: the complete words read (fewer than `n` at the end of the
file; the rest of the destination is left as it was) and the file after the call. -/
def fread (fd : FILE) (n : Nat) : List Nat × FILE :=
  (bytes_words (fd.data.drop fd.pos) n,
   { fd with pos := fd.pos + min (4 * n) (fd.data.length - fd.pos) })

/-- The call `fseeko(fd, off, SEEK_SET)`. -/
def fseeko_set (fd : FILE) (off : Nat) : FILE :=
  { fd with pos := off }

/-- The value of `ftello(fd)` after `fseeko(fd, 0, SEEK_END)`. -/
def file_size (fd : FILE) : Nat :=
  fd.data.length

/-! ## Record tags -/

/-- The tag word as `write_nmf` builds it: `tag = 0xFF; tag += kind << 8; tag += size << 16;`
in `uint32_t` arithmetic. -/
def make_tag (kind size : Nat) : Nat :=
  ((0xFF + (kind <<< 8) % 2 ^ 32) % 2 ^ 32 + (size <<< 16) % 2 ^ 32) % 2 ^ 32

/-- The marker byte of a tag: `tag & 0x000000FF`. -/
def tag_start (tag : Nat) : Nat :=
  tag &&& 0x000000FF

/-- The record kind of a tag: `(tag >> 8) & 0x000000FF`. -/
def tag_id (tag : Nat) : Nat :=
  (tag >>> 8) &&& 0x000000FF

/-- The record size of a tag: `tag >> 16` on a `uint32_t`. -/
def tag_size (tag : Nat) : Nat :=
  (tag % 2 ^ 32) >>> 16

/-- The decoding of a tag word in `parse_nmf`: the word is refused unless its low byte is the
marker, and otherwise gives the pair of kind and size. -/
def decode_tag (tag : Nat) : Option (Nat × Nat) :=
  if tag_start tag ≠ 0x000000FF then none else some (tag_id tag, tag_size tag)

/-! ## Parsing (`parse_header`, `parse_track`, `parse_index`, `parse_nmf`) -/

/-- The function `parse_header`: `buffer` is the word sequence the pointer refers to. -/
def parse_header (buffer : List Nat) (length : Nat) : Except nmf_exit nmf_header :=
  if length ≠ 2 then .error .wrong_header_size
  else
    match buffer with
    | duration :: track_num :: _ => .ok { duration := duration, track_num := track_num }
    | _ => .error .fault

/-- The two words of a `struct nmf_track_header` seen as the structure (`memcpy` into it). -/
def track_header_of_words (w0 w1 : Nat) : nmf_track_header :=
  { index := w0 &&& 0xFF, type := (w0 >>> 8) &&& 0xFF, reserved := (w0 >>> 16) &&& 0xFFFF,
    codec := w1 }

/-- The two words that a `struct nmf_track_header` occupies in memory. -/
def track_header_words (h : nmf_track_header) : List Nat :=
  [(h.index &&& 0xFF) + ((h.type &&& 0xFF) <<< 8) + ((h.reserved &&& 0xFFFF) <<< 16), h.codec]

/-- The function `parse_track`: `content` is the track table pointer of the container. The result
is the table after the call. The subtraction `length - 2` is done in `size_t`; when it wraps the
copy of that many words leaves every buffer. -/
def parse_track (buffer : List Nat) (length : Nat) (content : Option (List (Option nmf_track))) :
    Except nmf_exit (List (Option nmf_track)) :=
  match content with
  | none => .error .no_track_memory
  | some table =>
    match buffer with
    | w0 :: w1 :: rest =>
      let payload := track_header_of_words w0 w1
      if table.length ≤ payload.index then .error .fault
      else if length < 2 then .error .fault
      else
        let length := length - 2
        if length ≠ 0 then
          if rest.length < length then .error .fault
          else .ok (table.set payload.index
            (some { header := payload, length := length, payload := rest.take length }))
        else .ok (table.set payload.index (some { header := payload, length := 0, payload := [] }))
    | _ => .error .fault

/-- The function `parse_index`. -/
def parse_index (buffer : List Nat) (length : Nat) : Except nmf_exit nmf_index :=
  if length ≠ 3 then .error .wrong_index_size
  else
    match buffer with
    | fp :: scale :: count :: _ => .ok { fp := fp, scale := scale, count := count }
    | _ => .error .fault

/-- One execution of the body of the `while` loop of `parse_nmf`, entered with
`process < length`: the new cursor and the container after it. The cursor is a C `int`, so a
cursor of `2 ^ 31` or more indexes the buffer at a negative position; the increment `process++`
is taken not to overflow, which it does at the cursor `2 ^ 31 - 1` only. The result of the
`malloc` call after a header is stored without a test: `alloc process n` tells whether the call
made for the Header record at the cursor `process`, for a table of `n` tracks, returns a table
(of `n` slots, none of them initialised) or `NULL`. -/
def parse_iter (alloc : Nat → Nat → Bool) (buffer : List Nat) (process : Nat)
    (content : nmf_container) : Except nmf_exit (Nat × nmf_container) :=
  if 2 ^ 31 ≤ process then .error .fault
  else
    match buffer[process]? with
    | none => .error .fault
    | some tag =>
      if tag_start tag ≠ 0x000000FF then .error .not_tag
      else
        let id := tag_id tag
        let size := tag_size tag
        if id = NMF_HEADER then
          match parse_header (buffer.drop (process + 1)) size with
          | .error e => .error e
          | .ok h =>
            .ok (process + 1 + size,
              { content with
                header := h,
                tracks := if alloc process h.track_num then some (List.replicate h.track_num none)
                          else none })
        else if id = NMF_TRACK then
          match parse_track (buffer.drop (process + 1)) size content.tracks with
          | .error e => .error e
          | .ok t => .ok (process + 1 + size, { content with tracks := some t })
        else if id = NMF_INDEX then
          match parse_index (buffer.drop (process + 1)) size with
          | .error e => .error e
          | .ok x => .ok (process + 1 + size, { content with index := x })
        else .error .unknown_tag

/-- The `while (process < length)` loop of `parse_nmf`, with a bound on the number of
iterations. -/
def parse_loop (alloc : Nat → Nat → Bool) :
    Nat → List Nat → Nat → Nat → nmf_container → Except nmf_exit nmf_container
  | 0, _, length, process, content =>
    if process < length then .error .fuel else .ok content
  | fuel + 1, buffer, length, process, content =>
    if process < length then
      match parse_iter alloc buffer process content with
      | .error e => .error e
      | .ok (process, content) => parse_loop alloc fuel buffer length process content
    else .ok content

/-- The function `parse_nmf`. Every iteration moves the cursor forward by at least one word, so
`length` iterations are enough. -/
def parse_nmf (alloc : Nat → Nat → Bool) (buffer : List Nat) (length : Nat)
    (content : nmf_container) : Except nmf_exit nmf_container :=
  parse_loop alloc length buffer length 0 content

/-- The state of `parse_nmf` after at most `n` iterations of its loop: the cursor and the
container, or the way the call ended. -/
def parse_steps (alloc : Nat → Nat → Bool) :
    Nat → List Nat → Nat → Nat → nmf_container → Except nmf_exit (Nat × nmf_container)
  | 0, _, _, process, content => .ok (process, content)
  | n + 1, buffer, length, process, content =>
    if process < length then
      match parse_iter alloc buffer process content with
      | .error e => .error e
      | .ok (process, content) => parse_steps alloc n buffer length process content
    else .ok (process, content)

/-! ## Reading and writing a container (`read_nmf`, `write_nmf`) -/

/-- The function `read_nmf`; `container` is `none` for a `NULL` pointer. The result is the
returned file size and the container after the call. `malloc(4 * length)` computes its size in
`uint32_t`, so the buffer has room for `(4 * length) % 2 ^ 32 / 4` words. A variable that `fread`
did not fill has no defined value. `alloc` is the allocator of `parse_nmf`. -/
def read_nmf (alloc : Nat → Nat → Bool) (fd : FILE) (container : Option nmf_container) :
    Except nmf_exit (Nat × nmf_container) :=
  match container with
  | none => .error .null_content
  | some content =>
    let size := file_size fd
    if size < 3 then .error .wrong_file_size
    else
      match fread (fseeko_set fd 0) 1 with
      | ([magic_num], fd) =>
        if magic_num = NMF_MAGIC_NUM then
          match fread fd 1 with
          | ([length], fd) =>
            let payload := (fread fd length).1
            if (4 * length) % 2 ^ 32 / 4 < payload.length then .error .fault
            else
              match parse_nmf alloc payload length content with
              | .error e => .error e
              | .ok c => .ok (size, c)
          | _ => .error .fault
        else .error .unknown_file_type
      | _ => .error .fault

/-- The first loop of `write_nmf`: `length_of_track[i]` for the slots `i, i + 1, ..` (`n` of
them), each `2 + length` in `uint32_t`. The counter is an `int i` compared with the `uint32_t`
`track_num`: the `i++` after the pass at `i = 2 ^ 31 - 1` overflows. -/
def length_of_track (tracks : Option (List (Option nmf_track))) :
    Nat → Nat → Except nmf_exit (List Nat)
  | 0, _ => .ok []
  | n + 1, i =>
    match tracks with
    | none => .error .fault
    | some table =>
      match table[i]? with
      | some (some t) =>
        if 2 ^ 31 ≤ i + 1 then .error .fault
        else
          match length_of_track tracks n (i + 1) with
          | .error e => .error e
          | .ok ls => .ok ((2 + t.length) % 2 ^ 32 :: ls)
      | _ => .error .fault

/-- The second loop of `write_nmf`: `length_total += 1 + length_of_track[i]` in `uint32_t`. It
runs over the lengths that the first loop stored, so its `int i` stays below `2 ^ 31`. -/
def length_total (start : Nat) (length_of_track : List Nat) : Nat :=
  length_of_track.foldl (fun total l => (total + (1 + l) % 2 ^ 32) % 2 ^ 32) start

/-- The third loop of `write_nmf`: the tag, the header and the payload of the slots
`i, i + 1, ..`, whose lengths are `ls`. The counter is an `int i`, as in the first loop. -/
def write_tracks (tracks : Option (List (Option nmf_track))) :
    List Nat → Nat → FILE → Except nmf_exit FILE
  | [], _, fd => .ok fd
  | l :: ls, i, fd =>
    match tracks with
    | none => .error .fault
    | some table =>
      match table[i]? with
      | some (some t) =>
        if t.payload.length < t.length then .error .fault
        else
          let fd := fwrite fd [make_tag NMF_TRACK l]
          let fd := fwrite fd (track_header_words t.header)
          let fd := fwrite fd (t.payload.take t.length)
          if 2 ^ 31 ≤ i + 1 then .error .fault
          else write_tracks tracks ls (i + 1) fd
      | _ => .error .fault

/-- The function `write_nmf`: the file after the call and the value stored in `*pos_index`
(`ftell` converted to `uint32_t`). -/
def write_nmf (fd : FILE) (container : nmf_container) : Except nmf_exit (FILE × Nat) :=
  let fd := fwrite fd [NMF_MAGIC_NUM]
  let length_of_header := 2
  match length_of_track container.tracks container.header.track_num 0 with
  | .error e => .error e
  | .ok ls =>
    let length_of_index := 3
    let total := length_total (1 + length_of_header + 1 + length_of_index) ls
    let fd := fwrite fd [total]
    let fd := fwrite fd [make_tag NMF_HEADER length_of_header]
    let fd := fwrite fd [container.header.duration, container.header.track_num]
    match write_tracks container.tracks ls 0 fd with
    | .error e => .error e
    | .ok fd =>
      let fd := fwrite fd [make_tag NMF_INDEX length_of_index]
      let pos_index := fd.pos % 2 ^ 32
      let fd := fwrite fd [container.index.fp, container.index.scale, container.index.count]
      .ok (fd, pos_index)

/-! ## Clusters (`read_nmf_cluster`, `write_nmf_cluster`) -/

/-- The `struct nmf_cluster_header`. -/
structure nmf_cluster_header where
  stamp : Nat
  frame_num : Nat
  deriving DecidableEq, Repr

/-- The `struct nmf_frames`: `payload` is the word array the pointer refers to. -/
structure nmf_frames where
  tag : Nat
  payload : List Nat
  deriving DecidableEq, Repr

/-- The `struct nmf_cluster`: `frames` is the array the pointer refers to, as far as it has been
filled. -/
structure nmf_cluster where
  header : nmf_cluster_header
  frames : List nmf_frames
  deriving DecidableEq, Repr

/-- Whether `fread(ptr, 4, n, fd)` leaves an element partly read: fewer than `n` complete
elements are left in the file and the bytes left do not end on an element boundary. C gives that
element no defined value. -/
def fread_torn (fd : FILE) (n : Nat) : Bool :=
  decide ((fd.data.length - fd.pos) / 4 < n ∧ (fd.data.length - fd.pos) % 4 ≠ 0)

/-- The payload word length that `read_nmf_cluster` derives from a frame tag:
`content->frames[i].tag >> 16` on a `uint32_t`. -/
def frame_length_read (tag : Nat) : Nat :=
  (tag % 2 ^ 32) >>> 16

/-- The payload word length that `write_nmf_cluster` derives from a frame tag:
`((content->frames[i].tag >> 8) + 3) / 4` on a `uint32_t`. -/
def frame_length_write (tag : Nat) : Nat :=
  ((((tag % 2 ^ 32) >>> 8) + 3) % 2 ^ 32) / 4

/-- The loop of `read_nmf_cluster` over the frames `i, i + 1, ..` (`n` of them): the file after
it and the frames read. A tag that `fread` did not fill has no defined value; a payload holds the
words that were read. The counter is an `int i` compared with the `uint32_t` `frame_num`: the
`i++` after the pass at `i = 2 ^ 31 - 1` overflows. -/
def read_frames : Nat → Nat → FILE → Except nmf_exit (FILE × List nmf_frames)
  | 0, _, fd => .ok (fd, [])
  | n + 1, i, fd =>
    match fread fd 1 with
    | ([tag], fd) =>
      let length := frame_length_read tag
      match fread fd length with
      | (payload, fd) =>
        if 2 ^ 31 ≤ i + 1 then .error .fault
        else
          match read_frames n (i + 1) fd with
          | .error e => .error e
          | .ok (fd, frames) => .ok (fd, { tag := tag, payload := payload } :: frames)
    | _ => .error .fault

/-- The cluster header after `fread(&content->header, 4, 2, fd)` has stored the complete words
`words` it found: header words that `fread` does not reach keep the value `old` they had in the
caller's cluster. -/
def header_after_fread (words : List Nat) (old : nmf_cluster_header) : nmf_cluster_header :=
  match words with
  | [stamp, frame_num] => { stamp := stamp, frame_num := frame_num }
  | [stamp] => { stamp := stamp, frame_num := old.frame_num }
  | _ => old

/-- The function `read_nmf_cluster` of `libnmf.c` (its container argument is not used):
`content` is the cluster the caller passes in, and the result is the file and the cluster after
the call. The leading word is read into a local that is never used. -/
def read_nmf_cluster (fd : FILE) (content : nmf_cluster) : Except nmf_exit (FILE × nmf_cluster) :=
  match fread fd 1 with
  | (_, fd) =>
    if fread_torn fd 2 then .error .fault
    else
      match fread fd 2 with
      | (words, fd) =>
        let header := header_after_fread words content.header
        match read_frames header.frame_num 0 fd with
        | .error e => .error e
        | .ok (fd, frames) => .ok (fd, { header := header, frames := frames })

/-- The first loop of `write_nmf_cluster`: `length_of_frames[i]` for the frames `i, i + 1, ..`
(`n` of them). The counter is an `int i`, as in `read_nmf_cluster`. -/
def length_of_frames (frames : List nmf_frames) : Nat → Nat → Except nmf_exit (List Nat)
  | 0, _ => .ok []
  | n + 1, i =>
    match frames[i]? with
    | some f =>
      if 2 ^ 31 ≤ i + 1 then .error .fault
      else
        match length_of_frames frames n (i + 1) with
        | .error e => .error e
        | .ok ls => .ok (frame_length_write f.tag :: ls)
    | none => .error .fault

/-- The second loop of `write_nmf_cluster`:
`length_total = length_total + 1 + length_of_frames[i]` in `uint32_t`. It runs over the lengths
that the first loop stored, so its `int i` stays below `2 ^ 31`. -/
def cluster_length_total (start : Nat) (length_of_frames : List Nat) : Nat :=
  length_of_frames.foldl (fun total l => ((total + 1) % 2 ^ 32 + l) % 2 ^ 32) start

/-- The third loop of `write_nmf_cluster`: the tag and the payload of the frames `i, i + 1, ..`,
whose lengths are `ls`. The counter is an `int i`, as in the first loop. -/
def write_frames (frames : List nmf_frames) : List Nat → Nat → FILE → Except nmf_exit FILE
  | [], _, fd => .ok fd
  | l :: ls, i, fd =>
    match frames[i]? with
    | some f =>
      if f.payload.length < l then .error .fault
      else
        let fd := fwrite fd [f.tag]
        let fd := fwrite fd (f.payload.take l)
        if 2 ^ 31 ≤ i + 1 then .error .fault
        else write_frames frames ls (i + 1) fd
    | none => .error .fault

/-- The function `write_nmf_cluster`: the file after the call. -/
def write_nmf_cluster (fd : FILE) (content : nmf_cluster) : Except nmf_exit FILE :=
  let length_of_header := 2
  match length_of_frames content.frames content.header.frame_num 0 with
  | .error e => .error e
  | .ok ls =>
    let total := cluster_length_total length_of_header ls
    let fd := fwrite fd [total]
    let fd := fwrite fd [content.header.stamp, content.header.frame_num]
    write_frames content.frames ls 0 fd

/-! ## The PTS field of a PES header (`PesOptionalHeader::SetPtsBits`) -/

/-- The method `PesOptionalHeader::SetPtsBits` of `webm2pes.cc`: the eight bytes of the field
`pts.bits`, a `std::uint64_t`, after the call, in the order of their addresses. The field is set
to zero and the five bytes of `buffer` are copied over its first five bytes. `pts_90khz` is a
`std::int64_t`: `>>` on it is the arithmetic shift and `&` works on the two's complement
pattern; the three parts are stored in `std::uint32_t` variables and the bytes of `buffer` are
`std::uint8_t`. -/
def SetPtsBits (pts_90khz : Int) : List Nat :=
  let pts1 := (Int.land (pts_90khz >>> (30 : Nat)) 0x7 % 2 ^ 32).toNat
  let pts2 := (Int.land (pts_90khz >>> (15 : Nat)) 0x7FFF % 2 ^ 32).toNat
  let pts3 := (Int.land pts_90khz 0x7FFF % 2 ^ 32).toNat
  let buffer0 := 0
  let buffer1 := 0
  let buffer2 := 0
  let buffer3 := 0
  let buffer4 := 0
  let buffer0 := (buffer0 ||| (1 <<< 5)) % 256
  let buffer0 := (buffer0 ||| (pts1 <<< 1) % 2 ^ 32) % 256
  let buffer0 := (buffer0 ||| 1) % 256
  let buffer1 := (buffer1 ||| ((pts2 >>> 7) &&& 0xff)) % 256
  let buffer2 := (buffer2 ||| (pts2 <<< 1) % 2 ^ 32) % 256
  let buffer2 := (buffer2 ||| 1) % 256
  let buffer3 := (buffer3 ||| ((pts3 >>> 7) &&& 0xff)) % 256
  let buffer4 := (buffer4 ||| (pts3 <<< 1) % 2 ^ 32) % 256
  let buffer4 := (buffer4 ||| 1) % 256
  [buffer0, buffer1, buffer2, buffer3, buffer4, 0, 0, 0]

/-! ## Auxiliary definitions for the statements -/

/-- Every word of the sequence fits in 32 bits. -/
def all_u32 (ws : List Nat) : Prop := ∀ w ∈ ws, w < 2 ^ 32

/-- The words of the Track records that `write_nmf` emits for the tracks `ts`. -/
def tracks_words (ts : List nmf_track) : List Nat :=
  ts.flatMap fun t =>
    make_tag NMF_TRACK ((2 + t.length) % 2 ^ 32) :: (track_header_words t.header ++ t.payload.take t.length)

/-- The words that `write_nmf` emits for a container whose table holds the tracks `ts`. -/
def container_words (c : nmf_container) (ts : List nmf_track) : List Nat :=
  [NMF_MAGIC_NUM, length_total 7 (ts.map fun t => (2 + t.length) % 2 ^ 32),
    make_tag NMF_HEADER 2, c.header.duration, c.header.track_num]
  ++ tracks_words ts
  ++ [make_tag NMF_INDEX 3, c.index.fp, c.index.scale, c.index.count]

/-- A file positioned at its end. -/
def eof_file (d : List Byte) : FILE := { data := d, pos := d.length }

/-- The container holds the tracks `ts` in a table of `track_num` slots, every payload array
holding the words its `length` field counts. -/
def holds (c : nmf_container) (ts : List nmf_track) : Prop :=
  c.tracks = some (ts.map some) ∧ c.header.track_num = ts.length
    ∧ ∀ t ∈ ts, t.length ≤ t.payload.length

/-- The loop of `parse_nmf` resumed at the cursor `process`, with the iteration bound that is left
at that cursor. -/
def parse_from (alloc : Nat → Nat → Bool) (buffer : List Nat) (length process : Nat)
    (content : nmf_container) : Except nmf_exit nmf_container :=
  parse_loop alloc (length - process) buffer length process content

/-- The exits that the loop body of `parse_nmf` can take. -/
def parse_exit (e : nmf_exit) : Prop :=
  e = .fault ∨ e = .not_tag ∨ e = .unknown_tag ∨ e = .wrong_header_size ∨ e = .no_track_memory
    ∨ e = .wrong_index_size

/-- Every field of the track fits its C type and the payload array holds `length` words. -/
def track_fits (t : nmf_track) : Prop :=
  t.payload.length = t.length ∧ t.length < 2 ^ 32 ∧ all_u32 t.payload ∧ t.header.index < 256
    ∧ t.header.type < 256 ∧ t.header.reserved < 65536 ∧ t.header.codec < 2 ^ 32

/-- The table after the tracks `ts` have been stored, each in the slot its index names. -/
def store_tracks (table : List (Option nmf_track)) (ts : List nmf_track) : List (Option nmf_track) :=
  ts.foldl (fun tb t => tb.set t.header.index (some t)) table

/-- The words of a container after the magic and the word count: the buffer `parse_nmf` gets. -/
def records_words (c : nmf_container) (ts : List nmf_track) : List Nat :=
  [make_tag NMF_HEADER 2, c.header.duration, c.header.track_num]
  ++ (tracks_words ts
  ++ [make_tag NMF_INDEX 3, c.index.fp, c.index.scale, c.index.count])

/-- The tracks stored in the table of a container, in slot order. -/
def container_tracks (c : nmf_container) : List nmf_track :=
  (c.tracks.getD []).filterMap id

/-- A well-formed container: every field fits its C type, `track_num` is at most 255, the table
has `track_num` slots, all of them filled, and slot `i` holds a track whose header index is `i`
and whose payload array holds the `length` words it counts. -/
def well_formed (c : nmf_container) : Prop :=
  c.header.duration < 2 ^ 32 ∧ c.header.track_num ≤ 255 ∧ c.index.fp < 2 ^ 32
    ∧ c.index.scale < 2 ^ 32 ∧ c.index.count < 2 ^ 32
    ∧ c.tracks = some ((container_tracks c).map some)
    ∧ (container_tracks c).length = c.header.track_num
    ∧ (container_tracks c).map (fun t => t.header.index) = List.range (container_tracks c).length
    ∧ ∀ t ∈ container_tracks c, track_fits t

/-- Every track payload of the container fits the 16-bit size field of a Track tag together with
the two words of the track header: at most 65533 words. -/
def payloads_fit (c : nmf_container) : Prop :=
  ∀ t ∈ container_tracks c, t.length ≤ 65533

instance (ws : List Nat) : Decidable (all_u32 ws) := by
  unfold all_u32; infer_instance

instance (t : nmf_track) : Decidable (track_fits t) := by
  unfold track_fits; infer_instance

instance (c : nmf_container) : Decidable (well_formed c) := by
  unfold well_formed; infer_instance

instance (c : nmf_container) : Decidable (payloads_fit c) := by
  unfold payloads_fit; infer_instance

instance (c : nmf_container) (ts : List nmf_track) : Decidable (holds c ts) := by
  unfold holds; infer_instance

/-- The words of a written container that precede the payload of its Index record. -/
def index_lead (c : nmf_container) (ts : List nmf_track) : List Nat :=
  [NMF_MAGIC_NUM, length_total 7 (ts.map fun t => (2 + t.length) % 2 ^ 32),
    make_tag NMF_HEADER 2, c.header.duration, c.header.track_num]
  ++ tracks_words ts ++ [make_tag NMF_INDEX 3]

/-- The word count a written container declares: the 32-bit word right after the magic. -/
def declared_total (fd : FILE) : List Nat :=
  (fread (fseeko_set fd 4) 1).1

/-- Two files look the same from their positions on: same position, same size, same bytes from
the position to the end. -/
def same_tail (a b : FILE) : Prop :=
  a.pos = b.pos ∧ a.data.length = b.data.length ∧ a.data.drop a.pos = b.data.drop b.pos

/-- What a caller observes of a call of `read_nmf_cluster`: the position of the file after the
call and the cluster, or the way the call ended. -/
def observed (r : Except nmf_exit (FILE × nmf_cluster)) : Except nmf_exit (Nat × nmf_cluster) :=
  match r with
  | .error e => .error e
  | .ok (fd, c) => .ok (fd.pos, c)

/-- The records that `write_nmf` emits for a container whose table holds the tracks `ts`: for
each record its tag and the payload words written after it. -/
def written_records (c : nmf_container) (ts : List nmf_track) : List (Nat × List Nat) :=
  (make_tag NMF_HEADER 2, [c.header.duration, c.header.track_num])
  :: (ts.map fun t => (make_tag NMF_TRACK ((2 + t.length) % 2 ^ 32),
        track_header_words t.header ++ t.payload.take t.length))
  ++ [(make_tag NMF_INDEX 3, [c.index.fp, c.index.scale, c.index.count])]

/-- The words of a sequence of records: each tag followed by its payload words. -/
def records_flat (rs : List (Nat × List Nat)) : List Nat :=
  rs.flatMap fun r => r.1 :: r.2

/-- The value of the cursor `int process` of `parse_nmf` when the count of words passed so far
is `process`: sums are formed in 32 bits and a value of `2 ^ 31` or more is stored as the
negative number congruent to it. -/
def cursor_int (process : Nat) : Int :=
  if process % 2 ^ 32 < 2 ^ 31 then ((process % 2 ^ 32 : Nat) : Int)
  else ((process % 2 ^ 32 : Nat) : Int) - 2 ^ 32

/-- The offsets from the cursor of the buffer words that one execution of the loop body of
`parse_nmf` reads: offset 0 is `buffer[process]`, the others are the words that the `memcpy`
calls of the function called for the record copy from `&buffer[process + 1]`. A function that
exits before its `memcpy` reads nothing. In `parse_track` the payload count `length - 2` is a
`size_t`, taken as 64 bits wide. -/
def parse_iter_offsets (buffer : List Nat) (process : Nat) (content : nmf_container) : List Nat :=
  match buffer[process]? with
  | none => [0]
  | some tag =>
    if tag_start tag ≠ 0x000000FF then [0]
    else
      let id := tag_id tag
      let size := tag_size tag
      if id = NMF_HEADER then
        if size ≠ 2 then [0] else [0, 1, 2]
      else if id = NMF_TRACK then
        match content.tracks with
        | none => [0]
        | some _ =>
          0 :: 1 :: 2 :: (List.range ((size + 2 ^ 64 - 2) % 2 ^ 64)).map fun j => 3 + j
      else if id = NMF_INDEX then
        if size ≠ 3 then [0] else [0, 1, 2, 3]
      else [0]

/-- The positions in the buffer of the words that one execution of the loop body of `parse_nmf`
reads at the cursor `process`. -/
def parse_iter_reads (buffer : List Nat) (process : Nat) (content : nmf_container) : List Int :=
  (parse_iter_offsets buffer process content).map
    fun (j : Nat) => cursor_int process + (j : Int)

/-- The slots of the track table that one execution of the loop body of `parse_nmf` writes:
`content[payload.index]` in `parse_track`, for a Track record met with a table allocated. -/
def parse_iter_slots (buffer : List Nat) (process : Nat) (content : nmf_container) : List Nat :=
  match buffer[process]? with
  | none => []
  | some tag =>
    if tag_start tag ≠ 0x000000FF then []
    else if tag_id tag = NMF_TRACK then
      match content.tracks, buffer.drop (process + 1) with
      | some _, w0 :: w1 :: _ => [(track_header_of_words w0 w1).index]
      | _, _ => []
    else []

/-- A Track or Index record as the claim on well-framed buffers takes it: a tag with the marker
followed by exactly as many words as its size field says; a Track record has at least the two
words of the track header, with an index below `track_num`, an Index record has three words. -/
def framed_record (track_num : Nat) (r : List Nat) : Prop :=
  match r with
  | [] => False
  | tag :: payload =>
    tag_start tag = 0xFF ∧ tag_size tag = payload.length
      ∧ ((tag_id tag = NMF_TRACK ∧ 2 ≤ tag_size tag
            ∧ (track_header_of_words (payload.getD 0 0) (payload.getD 1 0)).index < track_num)
          ∨ (tag_id tag = NMF_INDEX ∧ tag_size tag = 3))

instance (track_num : Nat) (r : List Nat) : Decidable (framed_record track_num r) := by
  unfold framed_record; split <;> infer_instance

/-- A buffer whose records tile it: a Header record of size 2 that declares `track_num` tracks,
followed by the Track and Index records `rs`. -/
def framed_buffer (tag duration track_num : Nat) (rs : List (List Nat)) : List Nat :=
  [tag, duration, track_num] ++ rs.flatten

/-- The words of a sequence of frames as they lie in a cluster: each tag followed by its payload
words. -/
def frames_words (fs : List nmf_frames) : List Nat :=
  fs.flatMap fun f => f.tag :: f.payload

/-- A frame as `read_nmf_cluster` reads it back in full: the tag is a 32-bit word and the
payload holds exactly the 32-bit words that the reader derives from the tag. -/
def frame_complete (f : nmf_frames) : Prop :=
  f.tag < 2 ^ 32 ∧ all_u32 f.payload ∧ f.payload.length = frame_length_read f.tag

instance (f : nmf_frames) : Decidable (frame_complete f) := by
  unfold frame_complete; infer_instance

/-! ## Containers used as examples -/

/-- A video track whose payload has 65536 words, the first of them `w`. -/
def oversized_track (w : Nat) (pl : List Nat) : nmf_track :=
  { header := { index := 0, type := 1, reserved := 0, codec := 0x47504A4D },
    length := 65536, payload := w :: pl }

/-- A container with one track, whose payload has 65536 words. -/
def oversized (h : nmf_header) (x : nmf_index) (w : Nat) (pl : List Nat) : nmf_container :=
  { header := { duration := h.duration, track_num := 1 },
    tracks := some [some (oversized_track w pl)],
    index := x }

/-- A container as a caller hands it to `read_nmf` before the call: every field zero, the table
pointer `NULL`. -/
def blank : nmf_container :=
  { header := { duration := 0, track_num := 0 }, tracks := none,
    index := { fp := 0, scale := 0, count := 0 } }

/-- A container with a video track of three payload words and an audio track without payload. -/
def sample : nmf_container :=
  { header := { duration := 0x40A00000, track_num := 2 },
    tracks := some
      [some { header := { index := 0, type := 1, reserved := 0, codec := 0x47504A4D },
              length := 3, payload := [1, 2, 0xFFFFFFFF] },
       some { header := { index := 1, type := 2, reserved := 0, codec := 0x43614C66 },
              length := 0, payload := [] }],
    index := { fp := 0, scale := 1000000, count := 0 } }

/-- A track of kind video with a payload of 4294967289 zero words. -/
def huge_track : nmf_track :=
  { header := { index := 0, type := 1, reserved := 0, codec := 0x47504A4D },
    length := 4294967289, payload := List.replicate 4294967289 0 }

/-- A container whose only track is `huge_track`. -/
def huge : nmf_container :=
  { header := { duration := 0, track_num := 1 }, tracks := some [some huge_track],
    index := { fp := 0, scale := 1000000, count := 0 } }

/-- The container of the concrete scenario: one MJPEG video track with an empty payload. -/
def single_empty : nmf_container :=
  { header := { duration := 0, track_num := 1 },
    tracks := some [some { header := { index := 0, type := 1, reserved := 0, codec := 0x47504A4D },
                           length := 0, payload := [] }],
    index := { fp := 0, scale := 1000000, count := 0 } }

/-- A video track with a payload of `n` zero words. -/
def long_track (n : Nat) : nmf_track :=
  { header := { index := 0, type := 1, reserved := 0, codec := 0x47504A4D },
    length := n, payload := List.replicate n 0 }

/-- A container whose only track is `long_track n`. -/
def long_container (n : Nat) : nmf_container :=
  { header := { duration := 0, track_num := 1 }, tracks := some [some (long_track n)],
    index := { fp := 0, scale := 1000000, count := 0 } }

/-- A Track record for slot 0 with `n` payload words, all of them zero, as it lies in a buffer. -/
def zero_record (n : Nat) : List Nat :=
  make_tag NMF_TRACK (2 + n) :: 0 :: 0 :: List.replicate n 0

/-- The records of a buffer with `m` Track records of `n` payload words each and an Index record
after them. -/
def zero_records (m n : Nat) : List (List Nat) :=
  List.replicate m (zero_record n) ++ [[make_tag NMF_INDEX 3, 0, 0, 0]]

/-- The allocator that returns a table for every request. -/
def table_granted : Nat → Nat → Bool :=
  fun _ _ => true

/-- The allocator that returns a table for a request of fewer than `limit` tracks and `NULL` for
a larger one. -/
def table_below (limit : Nat) : Nat → Nat → Bool :=
  fun _ n => decide (n < limit)

/-! ## Arithmetic of tags, bytes and words -/

theorem land_ff (x : Nat) : x &&& 0xFF = x % 256 := Nat.and_pow_two_sub_one_eq_mod x 8

theorem land_ffff (x : Nat) : x &&& 0xFFFF = x % 65536 := Nat.and_pow_two_sub_one_eq_mod x 16

theorem shr_8 (x : Nat) : x >>> 8 = x / 256 := Nat.shiftRight_eq_div_pow x 8

theorem shr_16 (x : Nat) : x >>> 16 = x / 65536 := Nat.shiftRight_eq_div_pow x 16

theorem shr_24 (x : Nat) : x >>> 24 = x / 16777216 := Nat.shiftRight_eq_div_pow x 24

theorem shl_8 (x : Nat) : x <<< 8 = x * 256 := Nat.shiftLeft_eq x 8

theorem shl_16 (x : Nat) : x <<< 16 = x * 65536 := Nat.shiftLeft_eq x 16

theorem shl_24 (x : Nat) : x <<< 24 = x * 16777216 := Nat.shiftLeft_eq x 24

theorem tag_start_eq (tag : Nat) : tag_start tag = tag % 256 := by
  unfold tag_start; exact land_ff tag

theorem tag_id_eq (tag : Nat) : tag_id tag = tag / 256 % 256 := by
  unfold tag_id; rw [land_ff, shr_8]

theorem tag_size_eq (tag : Nat) : tag_size tag = tag % 4294967296 / 65536 := by
  unfold tag_size; rw [shr_16]; norm_num

theorem make_tag_eq (kind size : Nat) :
    make_tag kind size = (255 + kind * 256 + size * 65536) % 4294967296 := by
  unfold make_tag; rw [shl_8, shl_16]; norm_num

theorem tag_start_make_tag (kind size : Nat) : tag_start (make_tag kind size) = 0xFF := by
  rw [tag_start_eq, make_tag_eq]; omega

theorem tag_id_make_tag (kind size : Nat) (h : kind < 256) : tag_id
    (make_tag kind size) = kind := by
  rw [tag_id_eq, make_tag_eq]; omega

theorem tag_size_make_tag (kind size : Nat) (h : kind < 256) :
    tag_size (make_tag kind size) = size % 65536 := by
  rw [tag_size_eq, make_tag_eq]; omega

theorem make_tag_lt (kind size : Nat) : make_tag kind size < 2 ^ 32 := by
  rw [make_tag_eq]; omega

theorem bytes_word_lt (b0 b1 b2 b3 : Byte) : bytes_word b0 b1 b2 b3 < 2 ^ 32 := by
  unfold bytes_word; rw [shl_8, shl_16, shl_24]
  have := b0.isLt; have := b1.isLt; have := b2.isLt; have := b3.isLt
  omega

theorem bytes_words_word_bytes (w : Nat) (h : w < 2 ^ 32) (rest : List Byte) (n : Nat) :
    bytes_words (word_bytes w ++ rest) (n + 1) = w :: bytes_words rest n := by
  simp only [word_bytes, List.cons_append, List.nil_append, bytes_words, bytes_word, Fin.ofNat,
    shr_8, shr_16, shr_24, shl_8, shl_16, shl_24, List.cons.injEq, and_true]
  refine ⟨by omega, ?_⟩
  rfl

theorem track_header_of_words_words (h : nmf_track_header) (hi : h.index < 256) (ht : h.type < 256)
    (hr : h.reserved < 65536) :
    track_header_of_words ((h.index &&& 0xFF) + ((h.type &&& 0xFF) <<< 8) + ((h.reserved &&& 0xFFFF) <<< 16)) h.codec = h := by
  cases h with
  | mk index type reserved codec =>
    simp only [track_header_of_words, land_ff, land_ffff, shr_8, shr_16, shl_8, shl_16,
      nmf_track_header.mk.injEq, and_true] at *
    omega

/-! ## Files as sequences of words -/

theorem word_bytes_length (w : Nat) : (word_bytes w).length = 4 := rfl

theorem words_bytes_nil : words_bytes [] = [] := rfl

theorem words_bytes_cons (w : Nat) (ws : List Nat) :
    words_bytes (w :: ws) = word_bytes w ++ words_bytes ws := by
  simp [words_bytes]

theorem words_bytes_append (a b : List Nat) :
    words_bytes (a ++ b) = words_bytes a ++ words_bytes b := by
  simp [words_bytes]

theorem words_bytes_length (ws : List Nat) : (words_bytes ws).length = 4 * ws.length := by
  induction ws with
  | nil => rfl
  | cons w ws ih => rw [words_bytes_cons, List.length_append, ih, word_bytes_length, List.length_cons]; omega

theorem bytes_words_words_bytes (ws : List Nat) (h : all_u32 ws) (rest : List Byte) (k : Nat) :
    bytes_words (words_bytes ws ++ rest) (ws.length + k) = ws ++ bytes_words rest k := by
  induction ws with
  | nil => simp [words_bytes_nil]
  | cons w ws ih =>
    have hw : w < 2 ^ 32 := h w (List.mem_cons_self _ _)
    have hws : all_u32 ws := fun x hx => h x (List.mem_cons_of_mem _ hx)
    rw [words_bytes_cons, List.append_assoc, List.length_cons,
      show ws.length + 1 + k = (ws.length + k) + 1 by omega,
      bytes_words_word_bytes w hw, ih hws, List.cons_append]

theorem bytes_words_zero (bs : List Byte) : bytes_words bs 0 = [] := by
  unfold bytes_words
  split
  · rename_i h; exact absurd h (by simp)
  · rfl

theorem bytes_words_exact (ws : List Nat) (h : all_u32 ws) (rest : List Byte) :
    bytes_words (words_bytes ws ++ rest) ws.length = ws := by
  have := bytes_words_words_bytes ws h rest 0
  simpa [bytes_words_zero] using this

theorem fwrite_at_end (fd : FILE) (ws : List Nat) (h : fd.pos = fd.data.length) :
    fwrite fd ws = { data := fd.data ++ words_bytes ws, pos := fd.data.length + 4 * ws.length } := by
  simp [fwrite, h, words_bytes_length]

theorem fwrite_eof_file (d : List Byte) (ws : List Nat) :
    fwrite (eof_file d) ws = eof_file (d ++ words_bytes ws) := by
  simp [fwrite, eof_file]

/-! ## The words that `write_nmf` emits -/

theorem getElem?_map_some_append (pre : List nmf_track) (t : nmf_track) (ts : List nmf_track) :
    ((pre ++ t :: ts).map some)[pre.length]? = some (some t) := by
  rw [List.map_append, List.getElem?_append_right (by simp)]
  simp

theorem length_of_track_table (ts pre : List nmf_track) (hn : pre.length + ts.length < 2 ^ 31) :
    length_of_track (some ((pre ++ ts).map some)) ts.length pre.length
      = .ok (ts.map fun t => (2 + t.length) % 2 ^ 32) := by
  induction ts generalizing pre with
  | nil => rfl
  | cons t ts ih =>
    rw [List.length_cons] at hn
    have h := ih (pre ++ [t]) (by rw [List.length_append, List.length_singleton]; omega)
    simp only [List.append_assoc, List.singleton_append, List.length_append, List.length_singleton] at h
    have hi : ¬ 2 ^ 31 ≤ pre.length + 1 := by omega
    simp only [List.length_cons, length_of_track, getElem?_map_some_append, h, List.map_cons, hi,
      if_false]

theorem tracks_words_cons (t : nmf_track) (ts : List nmf_track) :
    tracks_words (t :: ts) = make_tag NMF_TRACK ((2 + t.length) % 2 ^ 32)
      :: (track_header_words t.header ++ t.payload.take t.length) ++ tracks_words ts := by
  simp [tracks_words]

theorem write_tracks_table (ts pre : List nmf_track) (d : List Byte)
    (hn : pre.length + ts.length < 2 ^ 31) (hlen : ∀ t ∈ ts, t.length ≤ t.payload.length) :
    write_tracks (some ((pre ++ ts).map some)) (ts.map fun t => (2 + t.length) % 2 ^ 32) pre.length
        (eof_file d)
      = .ok (eof_file (d ++ words_bytes (tracks_words ts))) := by
  induction ts generalizing pre d with
  | nil => simp [tracks_words, words_bytes_nil, write_tracks]
  | cons t ts ih =>
    have ht : ¬ t.payload.length < t.length := Nat.not_lt.mpr (hlen t (List.mem_cons_self _ _))
    have hts : ∀ x ∈ ts, x.length ≤ x.payload.length := fun x hx => hlen x (List.mem_cons_of_mem _ hx)
    rw [List.length_cons] at hn
    have h := fun d => ih (pre ++ [t]) d
      (by rw [List.length_append, List.length_singleton]; omega)
    simp only [List.append_assoc, List.singleton_append, List.length_append, List.length_singleton] at h
    have hi : ¬ 2 ^ 31 ≤ pre.length + 1 := by omega
    simp only [List.map_cons, write_tracks, getElem?_map_some_append, ht, if_false, fwrite_eof_file,
      h _ hts, hi]
    simp only [tracks_words_cons, words_bytes_append, words_bytes_cons, words_bytes_nil,
      List.append_assoc, List.append_nil, List.cons_append]

theorem write_nmf_words (c : nmf_container) (ts : List nmf_track) (h : holds c ts)
    (hn : ts.length < 2 ^ 31) :
    write_nmf { data := [], pos := 0 } c
      = .ok (eof_file (words_bytes (container_words c ts)),
          (4 * (6 + (tracks_words ts).length)) % 2 ^ 32) := by
  obtain ⟨htab, hnum, hlen⟩ := h
  have h1 := length_of_track_table ts [] (by rw [List.length_nil]; omega)
  have h2 := fun d => write_tracks_table ts [] d (by rw [List.length_nil]; omega)
  simp only [List.nil_append, List.length_nil] at h1 h2
  have h0 : ({ data := [], pos := 0 } : FILE) = eof_file [] := rfl
  simp only [write_nmf, htab, hnum, h1, h0, fwrite_eof_file, h2 _ hlen]
  simp only [container_words, words_bytes_append, words_bytes_cons, words_bytes_nil,
      List.append_assoc, List.length_append, List.length_cons, words_bytes_length, List.append_nil,
      List.length_nil, List.cons_append, List.nil_append, hnum, eof_file, word_bytes_length]
  congr 3
  omega

theorem length_of_track_overflow (ts pre : List nmf_track) (hpre : pre.length < 2 ^ 31)
    (hn : 2 ^ 31 ≤ pre.length + ts.length) :
    length_of_track (some ((pre ++ ts).map some)) ts.length pre.length = .error .fault := by
  induction ts generalizing pre with
  | nil =>
    rw [List.length_nil] at hn
    omega
  | cons t ts ih =>
    rw [List.length_cons] at hn
    by_cases hi : 2 ^ 31 ≤ pre.length + 1
    · simp only [List.length_cons, length_of_track, getElem?_map_some_append, hi, if_true]
    · have h := ih (pre ++ [t]) (by rw [List.length_append, List.length_singleton]; omega)
        (by rw [List.length_append, List.length_singleton]; omega)
      simp only [List.append_assoc, List.singleton_append, List.length_append,
        List.length_singleton] at h
      simp only [List.length_cons, length_of_track, getElem?_map_some_append, h, hi, if_false]

/-- With `2 ^ 31` tracks or more the counter `int i` of the first loop of `write_nmf` is
incremented at `2 ^ 31 - 1`: the call has no defined result. -/
theorem write_nmf_counter_overflow (c : nmf_container) (ts : List nmf_track) (h : holds c ts)
    (hn : 2 ^ 31 ≤ ts.length) (fd : FILE) : write_nmf fd c = .error .fault := by
  have hl := length_of_track_overflow ts [] (by rw [List.length_nil]; exact Nat.two_pow_pos 31)
    (by rw [List.length_nil, Nat.zero_add]; exact hn)
  rw [List.nil_append, List.length_nil] at hl
  simp only [write_nmf, h.1, h.2.1, hl]

/-! ## The loop of `parse_nmf` -/

theorem parse_iter_advance (alloc : Nat → Nat → Bool) (buffer : List Nat) (p : Nat)
    (c : nmf_container) (q : Nat)
    (d : nmf_container) (h : parse_iter alloc buffer p c = .ok (q, d)) :
    ∃ tag, buffer[p]? = some tag ∧ q = p + 1 + tag_size tag := by
  unfold parse_iter at h
  split at h
  · cases h
  · split at h
    · cases h
    · rename_i tag htag
      refine ⟨tag, htag, ?_⟩
      split at h
      · cases h
      · simp only at h
        split at h
        · split at h
          · cases h
          · simp only [Except.ok.injEq, Prod.mk.injEq] at h; exact h.1.symm
        · split at h
          · split at h
            · cases h
            · simp only [Except.ok.injEq, Prod.mk.injEq] at h; exact h.1.symm
          · split at h
            · split at h
              · cases h
              · simp only [Except.ok.injEq, Prod.mk.injEq] at h; exact h.1.symm
            · cases h

theorem parse_iter_lt (alloc : Nat → Nat → Bool) (buffer : List Nat) (p : Nat)
    (c : nmf_container) (q : Nat)
    (d : nmf_container) (h : parse_iter alloc buffer p c = .ok (q, d)) : p < q := by
  obtain ⟨tag, _, hq⟩ := parse_iter_advance alloc buffer p c q d h
  omega

theorem parse_loop_done (alloc : Nat → Nat → Bool) (fuel : Nat) (buffer : List Nat)
    (length p : Nat) (c : nmf_container)
    (h : length ≤ p) : parse_loop alloc fuel buffer length p c = .ok c := by
  have hn : ¬ p < length := Nat.not_lt.mpr h
  cases fuel <;> simp [parse_loop, hn]

theorem parse_loop_fuel_indep (alloc : Nat → Nat → Bool) (buffer : List Nat) (length : Nat)
    (f1 : Nat) :
    ∀ (f2 p : Nat) (c : nmf_container), length - p ≤ f1 → length - p ≤ f2 →
      parse_loop alloc f1 buffer length p c = parse_loop alloc f2 buffer length p c := by
  induction f1 with
  | zero =>
    intro f2 p c h1 _
    rw [parse_loop_done alloc 0 buffer length p c (by omega), parse_loop_done alloc f2 buffer length p c (by omega)]
  | succ f1 ih =>
    intro f2 p c h1 h2
    by_cases hp : p < length
    · cases f2 with
      | zero => omega
      | succ f2 =>
        simp only [parse_loop, hp, if_true]
        cases hit : parse_iter alloc buffer p c with
        | error e => rfl
        | ok r =>
          obtain ⟨q, d⟩ := r
          have := parse_iter_lt alloc buffer p c q d hit
          exact ih f2 q d (by omega) (by omega)
    · rw [parse_loop_done alloc _ buffer length p c (by omega), parse_loop_done alloc f2 buffer length p c (by omega)]

theorem parse_nmf_eq_parse_from (alloc : Nat → Nat → Bool) (buffer : List Nat) (length : Nat)
    (c : nmf_container) :
    parse_nmf alloc buffer length c = parse_from alloc buffer length 0 c := rfl

theorem parse_from_done (alloc : Nat → Nat → Bool) (buffer : List Nat) (length p : Nat)
    (c : nmf_container) (h : length ≤ p) :
    parse_from alloc buffer length p c = .ok c :=
  parse_loop_done alloc _ buffer length p c h

theorem parse_from_step (alloc : Nat → Nat → Bool) (buffer : List Nat) (length p : Nat)
    (c : nmf_container) (q : Nat)
    (d : nmf_container) (hp : p < length) (h : parse_iter alloc buffer p c = .ok (q, d)) :
    parse_from alloc buffer length p c = parse_from alloc buffer length q d := by
  have hq := parse_iter_lt alloc buffer p c q d h
  unfold parse_from
  obtain ⟨f, hf⟩ : ∃ f, length - p = f + 1 := ⟨length - p - 1, by omega⟩
  rw [hf]
  simp only [parse_loop, hp, if_true, h]
  exact parse_loop_fuel_indep alloc buffer length f _ q d (by omega) (by omega)

theorem parse_from_error (alloc : Nat → Nat → Bool) (buffer : List Nat) (length p : Nat)
    (c : nmf_container) (e : nmf_exit)
    (hp : p < length) (h : parse_iter alloc buffer p c = .error e) :
    parse_from alloc buffer length p c = .error e := by
  unfold parse_from
  obtain ⟨f, hf⟩ : ∃ f, length - p = f + 1 := ⟨length - p - 1, by omega⟩
  rw [hf]
  simp only [parse_loop, hp, if_true, h]

theorem parse_header_exit (b : List Nat) (n : Nat) (e : nmf_exit)
    (h : parse_header b n = .error e) : e = .wrong_header_size ∨ e = .fault := by
  unfold parse_header at h
  split at h
  · simp only [Except.error.injEq] at h; exact Or.inl h.symm
  · split at h
    · cases h
    · simp only [Except.error.injEq] at h; exact Or.inr h.symm

theorem parse_index_exit (b : List Nat) (n : Nat) (e : nmf_exit)
    (h : parse_index b n = .error e) : e = .wrong_index_size ∨ e = .fault := by
  unfold parse_index at h
  split at h
  · simp only [Except.error.injEq] at h; exact Or.inl h.symm
  · split at h
    · cases h
    · simp only [Except.error.injEq] at h; exact Or.inr h.symm

theorem parse_track_exit (b : List Nat) (n : Nat) (t : Option (List (Option nmf_track)))
    (e : nmf_exit) (h : parse_track b n t = .error e) : e = .no_track_memory ∨ e = .fault := by
  unfold parse_track at h
  simp only at h
  repeat' (split at h)
  all_goals (cases h <;> simp)

theorem parse_iter_exit (alloc : Nat → Nat → Bool) (buffer : List Nat) (p : Nat)
    (c : nmf_container) (e : nmf_exit)
    (h : parse_iter alloc buffer p c = .error e) : parse_exit e := by
  unfold parse_iter at h
  unfold parse_exit
  split at h
  · simp only [Except.error.injEq] at h; simp [← h]
  · split at h
    · simp only [Except.error.injEq] at h; simp [← h]
    · split at h
      · simp only [Except.error.injEq] at h; simp [← h]
      · simp only at h
        split at h
        · split at h
          · rename_i e1 he
            simp only [Except.error.injEq] at h; subst h
            rcases parse_header_exit _ _ _ he with h1 | h1 <;> simp [h1]
          · cases h
        · split at h
          · split at h
            · rename_i e1 he
              simp only [Except.error.injEq] at h; subst h
              rcases parse_track_exit _ _ _ _ he with h1 | h1 <;> simp [h1]
            · cases h
          · split at h
            · split at h
              · rename_i e1 he
                simp only [Except.error.injEq] at h; subst h
                rcases parse_index_exit _ _ _ he with h1 | h1 <;> simp [h1]
              · cases h
            · simp only [Except.error.injEq] at h; simp [← h]

/-- The loop of `parse_nmf` ends by returning or by one of the exits of its body. -/
theorem parse_from_exit (alloc : Nat → Nat → Bool) (buffer : List Nat) (length : Nat) (n : Nat) :
    ∀ (p : Nat) (c : nmf_container) (e : nmf_exit), length - p ≤ n →
      parse_from alloc buffer length p c = .error e → parse_exit e := by
  induction n with
  | zero =>
    intro p c e h he
    rw [parse_from_done alloc buffer length p c (by omega)] at he
    cases he
  | succ n ih =>
    intro p c e h he
    by_cases hp : p < length
    · cases hit : parse_iter alloc buffer p c with
      | error e1 =>
        rw [parse_from_error alloc buffer length p c e1 hp hit] at he
        simp only [Except.error.injEq] at he
        subst he
        exact parse_iter_exit alloc buffer p c e1 hit
      | ok r =>
        obtain ⟨q, d⟩ := r
        rw [parse_from_step alloc buffer length p c q d hp hit] at he
        have := parse_iter_lt alloc buffer p c q d hit
        exact ih q d e (by omega) he
    · rw [parse_from_done alloc buffer length p c (by omega)] at he
      cases he

/-- The bound on the iterations of `parse_nmf` is never what ends the loop. -/
theorem parse_nmf_fuel (alloc : Nat → Nat → Bool) (buffer : List Nat) (length : Nat)
    (c : nmf_container) :
    parse_nmf alloc buffer length c ≠ .error .fuel := by
  intro h
  have := parse_from_exit alloc buffer length length 0 c _ (by omega) h
  simp [parse_exit] at this

theorem parse_nmf_steps (alloc : Nat → Nat → Bool) (buffer : List Nat) (length : Nat) (n : Nat) :
    ∀ (p : Nat) (c : nmf_container),
      parse_from alloc buffer length p c =
        match parse_steps alloc n buffer length p c with
        | .error e => .error e
        | .ok (q, d) => parse_from alloc buffer length q d := by
  induction n with
  | zero => intro p c; rfl
  | succ n ih =>
    intro p c
    by_cases hp : p < length
    · simp only [parse_steps, hp, if_true]
      cases hit : parse_iter alloc buffer p c with
      | error e => simp only; exact parse_from_error alloc buffer length p c e hp hit
      | ok r =>
        obtain ⟨q, d⟩ := r
        simp only
        rw [parse_from_step alloc buffer length p c q d hp hit]
        exact ih q d
    · simp only [parse_steps, hp, if_false]

/-! ## One record at a time -/

theorem drop_of_getElem? {α : Type} (l : List α) (i : Nat) (a : α) (h : l[i]? = some a) :
    l.drop i = a :: l.drop (i + 1) := by
  obtain ⟨hi, rfl⟩ := List.getElem?_eq_some.mp h
  exact List.drop_eq_getElem_cons hi

theorem parse_iter_header_any (alloc : Nat → Nat → Bool) (buffer : List Nat) (p : Nat)
    (c : nmf_container) (tag d tn : Nat)
    (hp : p < 2 ^ 31) (htag : buffer[p]? = some tag) (hs : tag_start tag = 0xFF)
    (hid : tag_id tag = NMF_HEADER) (hsz : tag_size tag = 2)
    (h1 : buffer[p + 1]? = some d) (h2 : buffer[p + 2]? = some tn) :
    parse_iter alloc buffer p c = .ok (p + 3,
      { c with header := { duration := d, track_num := tn },
               tracks := if alloc p tn then some (List.replicate tn none) else none }) := by
  have hd : buffer.drop (p + 1) = d :: tn :: buffer.drop (p + 3) := by
    rw [drop_of_getElem? buffer (p + 1) d h1, drop_of_getElem? buffer (p + 2) tn h2]
  simp only [parse_iter, Nat.not_le.mpr hp, if_false, htag, hs, hid, hsz, parse_header, hd,
    ne_eq, not_true_eq_false, if_true]

theorem parse_iter_header (alloc : Nat → Nat → Bool) (buffer : List Nat) (p : Nat)
    (c : nmf_container) (tag d tn : Nat)
    (hp : p < 2 ^ 31) (htag : buffer[p]? = some tag) (hs : tag_start tag = 0xFF)
    (hid : tag_id tag = NMF_HEADER) (hsz : tag_size tag = 2)
    (h1 : buffer[p + 1]? = some d) (h2 : buffer[p + 2]? = some tn) (ha : alloc p tn = true) :
    parse_iter alloc buffer p c = .ok (p + 3,
      { c with header := { duration := d, track_num := tn },
               tracks := some (List.replicate tn none) }) := by
  rw [parse_iter_header_any alloc buffer p c tag d tn hp htag hs hid hsz h1 h2, ha]
  rfl

theorem parse_iter_index (alloc : Nat → Nat → Bool) (buffer : List Nat) (p : Nat)
    (c : nmf_container) (tag a b x : Nat)
    (hp : p < 2 ^ 31) (htag : buffer[p]? = some tag) (hs : tag_start tag = 0xFF)
    (hid : tag_id tag = NMF_INDEX) (hsz : tag_size tag = 3)
    (h1 : buffer[p + 1]? = some a) (h2 : buffer[p + 2]? = some b) (h3 : buffer[p + 3]? = some x) :
    parse_iter alloc buffer p c = .ok (p + 4, { c with index := { fp := a, scale := b, count := x } }) := by
  have hd : buffer.drop (p + 1) = a :: b :: x :: buffer.drop (p + 4) := by
    rw [drop_of_getElem? buffer (p + 1) a h1, drop_of_getElem? buffer (p + 2) b h2,
      drop_of_getElem? buffer (p + 3) x h3]
  have e1 : NMF_INDEX ≠ NMF_HEADER := by decide
  have e2 : NMF_INDEX ≠ NMF_TRACK := by decide
  simp only [parse_iter, Nat.not_le.mpr hp, if_false, htag, hs, hid, hsz, parse_index, hd,
    ne_eq, not_true_eq_false, e1, e2, if_true]

theorem parse_iter_track (alloc : Nat → Nat → Bool) (buffer : List Nat) (p : Nat)
    (c : nmf_container) (tag w0 w1 : Nat)
    (rest : List Nat) (table : List (Option nmf_track))
    (hp : p < 2 ^ 31) (htag : buffer[p]? = some tag) (hs : tag_start tag = 0xFF)
    (hid : tag_id tag = NMF_TRACK) (hsz : 2 ≤ tag_size tag)
    (hd : buffer.drop (p + 1) = w0 :: w1 :: rest) (hrest : tag_size tag - 2 ≤ rest.length)
    (htab : c.tracks = some table) (hin : (track_header_of_words w0 w1).index < table.length) :
    parse_iter alloc buffer p c = .ok (p + 1 + tag_size tag,
      { c with tracks := some (table.set (track_header_of_words w0 w1).index
          (some { header := track_header_of_words w0 w1, length := tag_size tag - 2,
                  payload := rest.take (tag_size tag - 2) })) }) := by
  have e1 : NMF_TRACK ≠ NMF_HEADER := by decide
  simp only [parse_iter, Nat.not_le.mpr hp, if_false, htag, hs, hid, parse_track, hd, htab,
    ne_eq, not_true_eq_false, e1, Nat.not_le.mpr hin, Nat.not_lt.mpr hsz, Nat.not_lt.mpr hrest]
  by_cases h0 : tag_size tag - 2 = 0
  · simp [h0]
  · simp [h0]

/-! ## Reading back what was written -/

theorem store_tracks_length (ts : List nmf_track) (table : List (Option nmf_track)) :
    (store_tracks table ts).length = table.length := by
  induction ts generalizing table with
  | nil => rfl
  | cons t ts ih => simp only [store_tracks, List.foldl_cons] at ih ⊢; rw [ih]; simp

theorem tracks_words_cons_length (t : nmf_track) (ts : List nmf_track) :
    (tracks_words (t :: ts)).length = 3 + min t.length t.payload.length + (tracks_words ts).length := by
  simp [tracks_words_cons, track_header_words]; omega

theorem parse_from_tracks (alloc : Nat → Nat → Bool) (post : List Nat) (buffer : List Nat)
    (L : Nat) (ts : List nmf_track) :
    ∀ (pre : List Nat) (c : nmf_container) (table : List (Option nmf_track)),
      buffer = pre ++ (tracks_words ts ++ post) →
      (∀ t ∈ ts, track_fits t ∧ t.length ≤ 65533 ∧ t.header.index < table.length) →
      c.tracks = some table →
      pre.length + (tracks_words ts).length ≤ L →
      pre.length + (tracks_words ts).length ≤ 2 ^ 31 →
      parse_from alloc buffer L pre.length c
        = parse_from alloc buffer L (pre.length + (tracks_words ts).length)
            { c with tracks := some (store_tracks table ts) } := by
  induction ts with
  | nil =>
    intro pre c table _ _ htab _ _
    cases c
    simp only at htab
    subst htab
    simp [tracks_words, store_tracks]
  | cons t ts ih =>
    intro pre c table hb hts htab hL h31
    obtain ⟨⟨hpl, hl32, hu, hi, hty, hr, hc⟩, hlen, hidx⟩ := hts t (List.mem_cons_self _ _)
    have hrest : ∀ x ∈ ts, track_fits x ∧ x.length ≤ 65533 ∧ x.header.index < table.length :=
      fun x hx => hts x (List.mem_cons_of_mem _ hx)
    have hcl := tracks_words_cons_length t ts
    rw [hpl, Nat.min_self] at hcl
    have htake : t.payload.take t.length = t.payload := by rw [← hpl]; exact List.take_length _
    have hsize : tag_size (make_tag NMF_TRACK ((2 + t.length) % 2 ^ 32)) = 2 + t.length := by
      rw [tag_size_make_tag _ _ (by decide)]; omega
    have hbuf : buffer = pre ++ (make_tag NMF_TRACK ((2 + t.length) % 2 ^ 32)
        :: ((t.header.index &&& 0xFF) + ((t.header.type &&& 0xFF) <<< 8)
              + ((t.header.reserved &&& 0xFFFF) <<< 16))
        :: t.header.codec :: (t.payload ++ (tracks_words ts ++ post))) := by
      rw [hb, tracks_words_cons, htake]; simp [track_header_words]
    have hstep := parse_iter_track alloc buffer pre.length c
      (make_tag NMF_TRACK ((2 + t.length) % 2 ^ 32))
      ((t.header.index &&& 0xFF) + ((t.header.type &&& 0xFF) <<< 8)
              + ((t.header.reserved &&& 0xFFFF) <<< 16))
      t.header.codec (t.payload ++ (tracks_words ts ++ post)) table
      (by omega)
      (by rw [hbuf, List.getElem?_append_right (Nat.le_refl _)]; simp)
      (tag_start_make_tag _ _) (tag_id_make_tag _ _ (by decide))
      (by rw [hsize]; omega)
      (by rw [hbuf, List.drop_append]; rfl)
      (by rw [hsize]; simp; omega)
      htab
      (by rw [track_header_of_words_words t.header hi hty hr]; exact hidx)
    rw [track_header_of_words_words t.header hi hty hr, hsize] at hstep
    have hpay : List.take (2 + t.length - 2) (t.payload ++ (tracks_words ts ++ post)) = t.payload := by
      rw [show 2 + t.length - 2 = t.payload.length by omega]
      exact List.take_left' rfl
    rw [hpay, show 2 + t.length - 2 = t.length by omega] at hstep
    rw [parse_from_step alloc buffer L pre.length c _ _ (by omega) hstep]
    have hih := ih (pre ++ (make_tag NMF_TRACK ((2 + t.length) % 2 ^ 32)
        :: ((t.header.index &&& 0xFF) + ((t.header.type &&& 0xFF) <<< 8)
              + ((t.header.reserved &&& 0xFFFF) <<< 16))
        :: t.header.codec :: t.payload))
      { c with tracks := some (table.set t.header.index (some t)) }
      (table.set t.header.index (some t))
      (by rw [hbuf]; simp)
      (by intro x hx; rw [List.length_set]; exact hrest x hx)
      rfl
      (by simp only [List.length_append, List.length_cons]; omega)
      (by simp only [List.length_append, List.length_cons]; omega)
    have hlen2 : (pre ++ (make_tag NMF_TRACK ((2 + t.length) % 2 ^ 32)
        :: ((t.header.index &&& 0xFF) + ((t.header.type &&& 0xFF) <<< 8)
              + ((t.header.reserved &&& 0xFFFF) <<< 16))
        :: t.header.codec :: t.payload)).length = pre.length + 1 + (2 + t.length) := by
      simp only [List.length_append, List.length_cons]; omega
    rw [hlen2] at hih
    rw [hih, hcl]
    simp only [store_tracks, List.foldl_cons]
    congr 1
    omega

theorem container_words_eq (c : nmf_container) (ts : List nmf_track) :
    container_words c ts = NMF_MAGIC_NUM
      :: length_total 7 (ts.map fun t => (2 + t.length) % 2 ^ 32) :: records_words c ts := by
  simp [container_words, records_words]

theorem records_words_length (c : nmf_container) (ts : List nmf_track) :
    (records_words c ts).length = 7 + (tracks_words ts).length := by
  simp [records_words]; omega

theorem length_total_eq (ts : List nmf_track) (s : Nat) (hs : s < 2 ^ 32) :
    length_total s (ts.map fun t => (2 + t.length) % 2 ^ 32)
      = (s + (ts.map fun t => 3 + t.length).sum) % 2 ^ 32 := by
  induction ts generalizing s with
  | nil => simp [length_total]; omega
  | cons t ts ih =>
    simp only [length_total, List.map_cons, List.foldl_cons, List.sum_cons] at ih ⊢
    rw [ih _ (Nat.mod_lt _ (by decide))]
    omega

theorem tracks_words_length (ts : List nmf_track) (h : ∀ t ∈ ts, t.payload.length = t.length) :
    (tracks_words ts).length = (ts.map fun t => 3 + t.length).sum := by
  induction ts with
  | nil => rfl
  | cons t ts ih =>
    rw [tracks_words_cons_length, h t (List.mem_cons_self _ _), Nat.min_self,
      ih (fun x hx => h x (List.mem_cons_of_mem _ hx))]
    simp

theorem getElem?_append3 (a b x : List Nat) (k p : Nat) (hp : p = a.length + b.length + k) :
    (a ++ (b ++ x))[p]? = x[k]? := by
  subst hp
  rw [List.getElem?_append_right (by omega), List.getElem?_append_right (by omega)]
  congr 1
  omega

theorem parse_nmf_records (alloc : Nat → Nat → Bool) (c c0 : nmf_container) (ts : List nmf_track)
    (hts : ∀ t ∈ ts, track_fits t ∧ t.length ≤ 65533 ∧ t.header.index < c.header.track_num)
    (h31 : (records_words c ts).length ≤ 2 ^ 31) (ha : alloc 0 c.header.track_num = true) :
    parse_nmf alloc (records_words c ts) (records_words c ts).length c0
      = .ok { header := c.header,
              tracks := some (store_tracks (List.replicate c.header.track_num none) ts),
              index := c.index } := by
  have hlen := records_words_length c ts
  rw [parse_nmf_eq_parse_from alloc]
  have h1 := parse_iter_header alloc (records_words c ts) 0 c0 (make_tag NMF_HEADER 2) c.header.duration
    c.header.track_num (by decide) (by simp [records_words]) (tag_start_make_tag _ _)
    (tag_id_make_tag _ _ (by decide)) (by rw [tag_size_make_tag _ _ (by decide)])
    (by simp [records_words]) (by simp [records_words]) ha
  rw [parse_from_step alloc _ _ 0 c0 _ _ (by omega) h1]
  have h2 := parse_from_tracks alloc [make_tag NMF_INDEX 3, c.index.fp, c.index.scale, c.index.count]
    (records_words c ts) (records_words c ts).length ts
    [make_tag NMF_HEADER 2, c.header.duration, c.header.track_num]
    { c0 with header := { duration := c.header.duration, track_num := c.header.track_num },
              tracks := some (List.replicate c.header.track_num none) }
    (List.replicate c.header.track_num none) rfl
    (by intro t ht; rw [List.length_replicate]; exact hts t ht)
    rfl (by simp only [List.length_cons, List.length_nil]; omega)
    (by simp only [List.length_cons, List.length_nil]; omega)
  simp only [List.length_cons, List.length_nil, Nat.zero_add] at h2
  rw [show (0 : Nat) + 3 = 1 + 1 + 1 by rfl, h2]
  have h3 := parse_iter_index alloc (records_words c ts) (1 + 1 + 1 + (tracks_words ts).length)
    { header := { duration := c.header.duration, track_num := c.header.track_num },
      tracks := some (store_tracks (List.replicate c.header.track_num none) ts),
      index := c0.index }
    (make_tag NMF_INDEX 3) c.index.fp c.index.scale c.index.count
    (by omega)
    (by rw [records_words, getElem?_append3 _ _ _ 0 _ (by simp)]; rfl)
    (tag_start_make_tag _ _) (tag_id_make_tag _ _ (by decide))
    (by rw [tag_size_make_tag _ _ (by decide)])
    (by rw [records_words, getElem?_append3 _ _ _ 1 _ (by simp)]; rfl)
    (by rw [records_words, getElem?_append3 _ _ _ 2 _ (by simp)]; rfl)
    (by rw [records_words, getElem?_append3 _ _ _ 3 _ (by simp)]; rfl)
  rw [parse_from_step alloc _ _ _ _ _ _ (by omega) h3, parse_from_done alloc _ _ _ _ (by omega)]

theorem fread_one (fd : FILE) (w : Nat) (rest : List Byte) (hw : w < 2 ^ 32)
    (h : fd.data.drop fd.pos = word_bytes w ++ rest) :
    fread fd 1 = ([w], { fd with pos := fd.pos + 4 }) := by
  have hl : (fd.data.drop fd.pos).length = 4 + rest.length := by
    rw [h, List.length_append, word_bytes_length]
  rw [List.length_drop] at hl
  unfold fread
  rw [h, bytes_words_word_bytes w hw, bytes_words_zero, Nat.min_eq_left (by omega)]

theorem read_nmf_words (alloc : Nat → Nat → Bool) (B : List Nat) (total : Nat)
    (extra : List Byte) (pos : Nat)
    (c0 : nmf_container) (hB : all_u32 B) (hlen : B.length = total) (h30 : total < 2 ^ 30) :
    read_nmf alloc { data := words_bytes (NMF_MAGIC_NUM :: total :: B) ++ extra, pos := pos } (some c0)
      = match parse_nmf alloc B total c0 with
        | .error e => .error e
        | .ok c => .ok (4 * (2 + total) + extra.length, c) := by
  have hsz : ¬ (words_bytes (NMF_MAGIC_NUM :: total :: B) ++ extra).length < 3 := by
    simp [words_bytes_length]; omega
  have hsz2 : (words_bytes (NMF_MAGIC_NUM :: total :: B) ++ extra).length
      = 4 * (2 + total) + extra.length := by
    simp [words_bytes_length, hlen]; omega
  have r1 := fread_one
    (fseeko_set { data := words_bytes (NMF_MAGIC_NUM :: total :: B) ++ extra, pos := pos } 0)
    NMF_MAGIC_NUM (words_bytes (total :: B) ++ extra) (by decide)
    (by simp [fseeko_set, words_bytes_cons])
  have r2 := fread_one
    { data := words_bytes (NMF_MAGIC_NUM :: total :: B) ++ extra, pos := 0 + 4 }
    total (words_bytes B ++ extra) (by omega)
    (by simp only [words_bytes_cons, List.append_assoc]; exact List.drop_left' rfl)
  have r3 : (fread { data := words_bytes (NMF_MAGIC_NUM :: total :: B) ++ extra, pos := 0 + 4 + 4 }
      total).1 = B := by
    have hd : List.drop (0 + 4 + 4) (words_bytes (NMF_MAGIC_NUM :: total :: B) ++ extra)
        = words_bytes B ++ extra := by
      simp only [words_bytes_cons, List.append_assoc]
      rw [← List.append_assoc (word_bytes NMF_MAGIC_NUM)]
      exact List.drop_left' rfl
    simp only [fread, hd]
    rw [← hlen]
    exact bytes_words_exact B hB extra
  simp only [fseeko_set] at r1
  simp only [read_nmf, file_size, hsz, if_false, r1, fseeko_set, if_true, r2, r3, hlen, hsz2]
  have hn : ¬ (4 * total % 2 ^ 32 / 4 < total) := by omega
  have hm : ¬ (4 * (2 + total) + extra.length < 3) := by omega
  rw [if_neg hm, if_neg hn]

theorem set_append_replicate (pre : List nmf_track) (t : nmf_track) (n : Nat) :
    (pre.map some ++ List.replicate (n + 1) none).set pre.length (some t)
      = (pre ++ [t]).map some ++ List.replicate n none := by
  rw [List.set_append_right _ _ (by simp)]
  simp [List.replicate_succ]

theorem store_tracks_range (ts : List nmf_track) :
    ∀ pre : List nmf_track, ts.map (fun t => t.header.index) = List.range' pre.length ts.length →
      store_tracks (pre.map some ++ List.replicate ts.length none) ts = (pre ++ ts).map some := by
  induction ts with
  | nil => intro pre _; simp [store_tracks]
  | cons t ts ih =>
    intro pre h
    simp only [List.map_cons, List.length_cons, List.range'_succ, List.cons.injEq] at h
    have := ih (pre ++ [t]) (by simpa using h.2)
    simp only [store_tracks, List.foldl_cons, List.length_cons] at this ⊢
    rw [h.1, set_append_replicate, this]
    simp

theorem all_u32_cons (w : Nat) (ws : List Nat) (hw : w < 2 ^ 32) (h : all_u32 ws) :
    all_u32 (w :: ws) := by
  intro x hx
  rcases List.mem_cons.mp hx with rfl | hx
  · exact hw
  · exact h x hx

theorem all_u32_append (a b : List Nat) (ha : all_u32 a) (hb : all_u32 b) : all_u32 (a ++ b) := by
  intro x hx
  rcases List.mem_append.mp hx with hx | hx
  · exact ha x hx
  · exact hb x hx

theorem all_u32_nil : all_u32 [] := fun _ h => absurd h (List.not_mem_nil _)

theorem all_u32_tracks_words (ts : List nmf_track) (h : ∀ t ∈ ts, track_fits t) :
    all_u32 (tracks_words ts) := by
  induction ts with
  | nil => exact all_u32_nil
  | cons t ts ih =>
    obtain ⟨hpl, _, hu, _, _, _, hc⟩ := h t (List.mem_cons_self _ _)
    rw [tracks_words_cons]
    refine all_u32_append _ _ (all_u32_cons _ _ (make_tag_lt _ _) (all_u32_append _ _ ?_ ?_))
      (ih fun x hx => h x (List.mem_cons_of_mem _ hx))
    · refine all_u32_cons _ _ ?_ (all_u32_cons _ _ hc all_u32_nil)
      rw [land_ff, land_ff, land_ffff, shl_8, shl_16]
      omega
    · intro x hx
      exact hu x (List.mem_of_mem_take hx)

theorem all_u32_records_words (c : nmf_container) (ts : List nmf_track)
    (hd : c.header.duration < 2 ^ 32) (hn : c.header.track_num < 2 ^ 32)
    (hf : c.index.fp < 2 ^ 32) (hs : c.index.scale < 2 ^ 32) (hc : c.index.count < 2 ^ 32)
    (h : ∀ t ∈ ts, track_fits t) : all_u32 (records_words c ts) := by
  unfold records_words
  exact all_u32_append _ _
    (all_u32_cons _ _ (make_tag_lt _ _) (all_u32_cons _ _ hd (all_u32_cons _ _ hn all_u32_nil)))
    (all_u32_append _ _ (all_u32_tracks_words ts h)
      (all_u32_cons _ _ (make_tag_lt _ _)
        (all_u32_cons _ _ hf (all_u32_cons _ _ hs (all_u32_cons _ _ hc all_u32_nil)))))

theorem sum_tracks_le (ts : List nmf_track) (h : ∀ t ∈ ts, t.length ≤ 65533) :
    (ts.map fun t => 3 + t.length).sum ≤ 65536 * ts.length := by
  induction ts with
  | nil => simp
  | cons t ts ih =>
    have := h t (List.mem_cons_self _ _)
    have := ih fun x hx => h x (List.mem_cons_of_mem _ hx)
    simp only [List.map_cons, List.sum_cons, List.length_cons]
    omega

/-- What `read_nmf` returns on the file `write_nmf` produced for a well-formed container with
payloads of at most 65533 words. -/
theorem read_nmf_written (alloc : Nat → Nat → Bool) (c c0 : nmf_container)
    (hwf : well_formed c) (hfit : payloads_fit c)
    (ts : List nmf_track) (htab : c.tracks = some (ts.map some))
    (ha : alloc 0 c.header.track_num = true) :
    write_nmf { data := [], pos := 0 } c
        = .ok (eof_file (words_bytes (container_words c ts)),
            (4 * (6 + (tracks_words ts).length)) % 2 ^ 32)
      ∧ read_nmf alloc (eof_file (words_bytes (container_words c ts))) (some c0)
        = .ok (4 * (container_words c ts).length, c) := by
  obtain ⟨hd, hn, hf, hs, hc, htab1, hlen, hrange, hfits⟩ := hwf
  unfold payloads_fit at hfit
  generalize container_tracks c = ts1 at htab1 hlen hrange hfits hfit
  have hts : ts1 = ts := by
    rw [htab1] at htab
    exact List.map_injective_iff.mpr (Option.some_injective _) (Option.some.inj htab)
  subst hts
  have hshort : ∀ t ∈ ts1, t.length ≤ 65533 := hfit
  have hholds : holds c ts1 := ⟨htab1, hlen.symm, fun t ht => by rw [(hfits t ht).1]⟩
  refine ⟨write_nmf_words c ts1 hholds (by omega), ?_⟩
  have hsum := sum_tracks_le ts1 hshort
  have htw := tracks_words_length ts1 (fun t ht => (hfits t ht).1)
  have hrl := records_words_length c ts1
  have htot : length_total 7 (ts1.map fun t => (2 + t.length) % 2 ^ 32)
      = (records_words c ts1).length := by
    rw [length_total_eq ts1 7 (by decide), hrl, htw]
    omega
  have hparse := parse_nmf_records alloc c c0 ts1
    (fun t ht => ⟨hfits t ht, hshort t ht, by
      have hmem : t.header.index ∈ List.range ts1.length := by
        rw [← hrange]; exact List.mem_map_of_mem (fun t => t.header.index) ht
      rw [← hlen]; exact List.mem_range.mp hmem⟩)
    (by omega) ha
  have hstore : store_tracks (List.replicate c.header.track_num none) ts1 = ts1.map some := by
    have := store_tracks_range ts1 [] (by simpa [List.range_eq_range'] using hrange)
    simpa [hlen] using this
  rw [container_words_eq, htot]
  unfold eof_file
  have hread := read_nmf_words alloc (records_words c ts1) (records_words c ts1).length []
    (words_bytes (NMF_MAGIC_NUM :: (records_words c ts1).length :: records_words c ts1)).length c0
    (all_u32_records_words c ts1 hd (by omega) hf hs hc hfits) rfl (by omega)
  rw [hparse, hstore, ← htab1] at hread
  simp only [List.append_nil] at hread
  rw [hread]
  have e : 4 * (2 + (records_words c ts1).length) + ([] : List Byte).length
      = 4 * (NMF_MAGIC_NUM :: (records_words c ts1).length :: records_words c ts1).length := by
    simp only [List.length_cons, List.length_nil]; omega
  rw [e]

/-! ## A payload too long for the size field -/

theorem parse_iter_not_tag (alloc : Nat → Nat → Bool) (buffer : List Nat) (p : Nat)
    (c : nmf_container) (tag : Nat)
    (hp : p < 2 ^ 31) (htag : buffer[p]? = some tag) (hs : tag_start tag ≠ 0xFF) :
    parse_iter alloc buffer p c = .error .not_tag := by
  simp only [parse_iter, Nat.not_le.mpr hp, if_false, htag, hs, ne_eq, not_false_eq_true, if_true]

theorem oversized_track_length (w : Nat) (pl : List Nat) :
    (oversized_track w pl).length = 65536 := rfl

theorem oversized_not_tag (alloc : Nat → Nat → Bool) (h : nmf_header) (x : nmf_index) (w : Nat)
    (pl : List Nat)
    (c0 : nmf_container)
    (hd : h.duration < 2 ^ 32) (hf : x.fp < 2 ^ 32) (hs : x.scale < 2 ^ 32) (hc : x.count < 2 ^ 32)
    (hw : w < 2 ^ 32) (hl : pl.length = 65535) (hu : all_u32 pl) (hnt : tag_start w ≠ 0xFF)
    (ha : alloc 0 1 = true) :
    well_formed (oversized h x w pl) ∧
    ∃ fd pos, write_nmf { data := [], pos := 0 } (oversized h x w pl) = .ok (fd, pos)
      ∧ read_nmf alloc fd (some c0) = .error .not_tag := by
  have hfits : ∀ t ∈ [oversized_track w pl], track_fits t := by
    intro t ht
    rw [List.mem_singleton] at ht
    subst ht
    exact ⟨by simp [oversized_track, hl], by simp [oversized_track], all_u32_cons _ _ hw hu,
      by simp [oversized_track], by simp [oversized_track], by simp [oversized_track],
      by simp [oversized_track]⟩
  have hwf : well_formed (oversized h x w pl) :=
    ⟨hd, by simp [oversized], hf, hs, hc, rfl, rfl,
      by simp [container_tracks, oversized, oversized_track, List.range_succ], hfits⟩
  refine ⟨hwf, _, _, write_nmf_words (oversized h x w pl) [oversized_track w pl] ⟨rfl, rfl, ?_⟩
    (by rw [List.length_singleton]; decide), ?_⟩
  · intro t ht
    rw [(hfits t ht).1]
  · have hB : records_words (oversized h x w pl)
        [oversized_track w pl]
        = make_tag NMF_HEADER 2 :: h.duration :: 1 :: make_tag NMF_TRACK ((2 + 65536) % 2 ^ 32)
          :: 256 :: 0x47504A4D :: w :: (pl ++ [make_tag NMF_INDEX 3, x.fp, x.scale, x.count]) := by
      have htake : List.take 65536 (w :: pl) = w :: pl :=
        List.take_of_length_le (by simp [hl])
      simp only [records_words, tracks_words, List.flatMap_cons, List.flatMap_nil, htake,
        track_header_words, oversized, oversized_track, List.cons_append, List.nil_append,
        List.append_nil, List.append_assoc]
      rfl
    have hBl : (records_words (oversized h x w pl)
        [oversized_track w pl]).length = 65546 := by
      rw [hB]; simp [hl]
    have htot : length_total 7 ([oversized_track w pl].map
          fun t => (2 + t.length) % 2 ^ 32) = 65546 := by
      rw [length_total_eq _ 7 (by norm_num)]
      rw [List.map_cons, List.map_nil, List.sum_cons, List.sum_nil, oversized_track_length]
      norm_num
    have hparse : parse_nmf alloc (records_words (oversized h x w pl)
        [oversized_track w pl]) 65546 c0 = .error .not_tag := by
      rw [hB, parse_nmf_eq_parse_from alloc]
      have h1 := parse_iter_header alloc
        (make_tag NMF_HEADER 2 :: h.duration :: 1 :: make_tag NMF_TRACK ((2 + 65536) % 2 ^ 32)
          :: 256 :: 0x47504A4D :: w :: (pl ++ [make_tag NMF_INDEX 3, x.fp, x.scale, x.count]))
        0 c0 (make_tag NMF_HEADER 2) h.duration 1 (by norm_num) rfl (tag_start_make_tag _ _)
        (tag_id_make_tag _ _ (by decide)) (by rw [tag_size_make_tag _ _ (by decide)]) rfl rfl ha
      rw [parse_from_step alloc _ _ 0 c0 _ _ (by norm_num) h1]
      have hsz : tag_size (make_tag NMF_TRACK ((2 + 65536) % 2 ^ 32)) = 2 := by
        rw [tag_size_make_tag _ _ (by decide)]; norm_num
      have h2 := parse_iter_track alloc
        (make_tag NMF_HEADER 2 :: h.duration :: 1 :: make_tag NMF_TRACK ((2 + 65536) % 2 ^ 32)
          :: 256 :: 0x47504A4D :: w :: (pl ++ [make_tag NMF_INDEX 3, x.fp, x.scale, x.count]))
        (0 + 3) { c0 with header := { duration := h.duration, track_num := 1 },
                          tracks := some (List.replicate 1 none) }
        (make_tag NMF_TRACK ((2 + 65536) % 2 ^ 32)) 256 0x47504A4D
        (w :: (pl ++ [make_tag NMF_INDEX 3, x.fp, x.scale, x.count])) (List.replicate 1 none)
        (by norm_num) rfl (tag_start_make_tag _ _) (tag_id_make_tag _ _ (by decide))
        (by rw [hsz]) rfl (by rw [hsz]; simp) rfl (by decide)
      rw [parse_from_step alloc _ _ _ _ _ _ (by norm_num) h2, hsz]
      exact parse_from_error alloc _ _ _ _ _ (by norm_num)
        (parse_iter_not_tag alloc _ _ _ w (by norm_num) (by simp) hnt)
    rw [container_words_eq, htot]
    have hread := read_nmf_words alloc _ 65546 []
      (eof_file (words_bytes (NMF_MAGIC_NUM :: 65546 :: records_words (oversized h x w pl)
        [oversized_track w pl]))).pos c0
      (all_u32_records_words (oversized h x w pl) _ hd (by simp [oversized]) hf hs hc hfits) hBl (by norm_num)
    rw [hparse] at hread
    simp only [List.append_nil] at hread
    exact hread

/-! ## Steps of the parse loop -/

theorem parse_steps_succ (alloc : Nat → Nat → Bool) (buffer : List Nat) (length : Nat) (n : Nat) :
    ∀ (p : Nat) (c : nmf_container),
      parse_steps alloc (n + 1) buffer length p c =
        match parse_steps alloc n buffer length p c with
        | .error e => .error e
        | .ok (q, d) => if q < length then parse_iter alloc buffer q d else .ok (q, d) := by
  induction n with
  | zero =>
    intro p c
    simp only [parse_steps]
    by_cases hp : p < length
    · simp only [hp, if_true]
      cases parse_iter alloc buffer p c with
      | error e => rfl
      | ok r => rfl
    · simp only [hp, if_false]
  | succ n ih =>
    intro p c
    rw [parse_steps]
    by_cases hp : p < length
    · simp only [hp, if_true]
      cases hit : parse_iter alloc buffer p c with
      | error e => simp only [parse_steps, hp, if_true, hit]
      | ok r =>
        obtain ⟨q, d⟩ := r
        simp only
        rw [ih q d]
        conv_rhs => rw [parse_steps]
        simp only [hp, if_true, hit]
    · simp only [hp, if_false]
      conv_rhs => rw [parse_steps]
      simp only [hp, if_false]

theorem parse_nmf_reach (alloc : Nat → Nat → Bool) (buffer : List Nat) (length : Nat)
    (c0 : nmf_container) (n p : Nat)
    (c : nmf_container) (h : parse_steps alloc n buffer length 0 c0 = .ok (p, c)) :
    parse_nmf alloc buffer length c0 = parse_from alloc buffer length p c := by
  rw [parse_nmf_eq_parse_from alloc, parse_nmf_steps alloc buffer length n 0 c0, h]

theorem parse_iter_unknown_tag (alloc : Nat → Nat → Bool) (buffer : List Nat) (p : Nat)
    (c : nmf_container) (tag : Nat)
    (hp : p < 2 ^ 31) (htag : buffer[p]? = some tag) (hs : tag_start tag = 0xFF)
    (h1 : tag_id tag ≠ NMF_HEADER) (h2 : tag_id tag ≠ NMF_TRACK) (h3 : tag_id tag ≠ NMF_INDEX) :
    parse_iter alloc buffer p c = .error .unknown_tag := by
  simp only [parse_iter, Nat.not_le.mpr hp, if_false, htag, hs, ne_eq, not_true_eq_false, h1, h2,
    h3]

theorem parse_iter_no_table (alloc : Nat → Nat → Bool) (buffer : List Nat) (p : Nat)
    (c : nmf_container) (tag : Nat)
    (hp : p < 2 ^ 31) (htag : buffer[p]? = some tag) (hs : tag_start tag = 0xFF)
    (hid : tag_id tag = NMF_TRACK) (htab : c.tracks = none) :
    parse_iter alloc buffer p c = .error .no_track_memory := by
  have e1 : NMF_TRACK ≠ NMF_HEADER := by decide
  simp only [parse_iter, Nat.not_le.mpr hp, if_false, htag, hs, ne_eq, not_true_eq_false, hid, e1,
    if_true, parse_track, htab]

theorem parse_iter_keeps_no_table (alloc : Nat → Nat → Bool) (buffer : List Nat) (p : Nat)
    (c : nmf_container) (q : Nat)
    (d : nmf_container) (tag : Nat) (htag : buffer[p]? = some tag) (hid : tag_id tag ≠ NMF_HEADER)
    (htab : c.tracks = none) (h : parse_iter alloc buffer p c = .ok (q, d)) : d.tracks = none := by
  unfold parse_iter at h
  rw [htag] at h
  simp only [hid, if_false, htab, parse_track] at h
  repeat' (split at h)
  all_goals first
    | (cases h; done)
    | (simp only [Except.ok.injEq, Prod.mk.injEq] at h; rw [← h.2])

/-! ## Claim C1: container round trip -/

theorem sample_well_formed : well_formed sample := by
  decide

theorem sample_payloads_fit : payloads_fit sample := by
  decide

/-- C1 (as stated, refuted): the container with one video track whose payload is 65536 zero words
is well formed and `write_nmf` writes it, but the 16-bit size field of its Track tag wraps to 2,
so `read_nmf` takes the first payload word for a tag and exits with "not tag". -/
theorem roundtrip_fails_on_65536_word_payload :
    well_formed (oversized { duration := 0, track_num := 1 } { fp := 0, scale := 1000000, count := 0 }
      0 (List.replicate 65535 0))
    ∧ ∃ fd pos, write_nmf { data := [], pos := 0 }
          (oversized { duration := 0, track_num := 1 } { fp := 0, scale := 1000000, count := 0 }
            0 (List.replicate 65535 0)) = .ok (fd, pos)
        ∧ read_nmf table_granted fd (some blank) = .error .not_tag :=
  oversized_not_tag table_granted _ _ 0 (List.replicate 65535 0) blank (by decide) (by decide)
    (by decide) (by decide) (by decide) (List.length_replicate _ _)
    (fun w hw => by rw [List.eq_of_mem_replicate hw]; decide) (by decide) rfl

/-- C1 (amended): for every well-formed container (every field within its C type, `track_num` at
most 255, slot `i` holding a track with header index `i` and a payload array of `length` words)
whose track payloads have at most 65533 words, `write_nmf` on an empty file succeeds and
`read_nmf` on the written file returns the file size and a container equal to the original,
whatever the container passed in held before. This is so for every allocator that returns a
table for the Header record of the file, in particular for the one that never returns `NULL`. -/
theorem write_read_roundtrip (alloc : Nat → Nat → Bool) (c c0 : nmf_container)
    (hwf : well_formed c) (hfit : payloads_fit c) (ha : alloc 0 c.header.track_num = true) :
    ∃ fd pos, write_nmf { data := [], pos := 0 } c = .ok (fd, pos)
      ∧ read_nmf alloc fd (some c0) = .ok (file_size fd, c) := by
  have htab : c.tracks = some ((container_tracks c).map some) := hwf.2.2.2.2.2.1
  obtain ⟨hw, hr⟩ := read_nmf_written alloc c c0 hwf hfit (container_tracks c) htab ha
  refine ⟨_, _, hw, ?_⟩
  rw [hr]
  simp [file_size, eof_file, words_bytes_length]

/-- The round trip at a container with two tracks, one with a payload and one without. -/
theorem write_read_roundtrip_witness :
    well_formed sample ∧ payloads_fit sample
      ∧ ∃ fd pos, write_nmf { data := [], pos := 0 } sample = .ok (fd, pos)
          ∧ read_nmf table_granted fd (some blank) = .ok (file_size fd, sample) :=
  ⟨sample_well_formed, sample_payloads_fit,
    write_read_roundtrip table_granted sample blank sample_well_formed sample_payloads_fit rfl⟩

/-! ## Claim C2: tag encoding -/

/-- C2: the tag word that `write_nmf` builds from a kind below 256 and a size below 65536 is
decoded by `parse_nmf` to exactly that kind and size, and every 32-bit word whose low byte is the
marker 0xFF is the tag of exactly one such pair, the one it decodes to. -/
theorem tag_codec_bijection :
    (∀ kind size : Nat, kind < 256 → size < 65536 →
        decode_tag (make_tag kind size) = some (kind, size))
    ∧ (∀ w : Nat, w < 2 ^ 32 → tag_start w = 0xFF →
        ∃ kind size : Nat, kind < 256 ∧ size < 65536 ∧ make_tag kind size = w
          ∧ decode_tag w = some (kind, size)
          ∧ ∀ k s : Nat, k < 256 → s < 65536 → make_tag k s = w → k = kind ∧ s = size) := by
  have enc : ∀ kind size : Nat, kind < 256 → size < 65536 →
      decode_tag (make_tag kind size) = some (kind, size) := by
    intro kind size hk hs
    simp only [decode_tag, tag_start_make_tag, tag_id_make_tag kind size hk,
      tag_size_make_tag kind size hk, ne_eq, not_true_eq_false, if_false]
    rw [Nat.mod_eq_of_lt hs]
  refine ⟨enc, ?_⟩
  intro w hw hst
  have hid := tag_id_eq w
  have hsz := tag_size_eq w
  have hst2 := tag_start_eq w
  have hdec : decode_tag w = some (tag_id w, tag_size w) := by
    simp only [decode_tag, hst, ne_eq, not_true_eq_false, if_false]
  refine ⟨tag_id w, tag_size w, by omega, by omega, ?_, hdec, ?_⟩
  · rw [make_tag_eq]; omega
  · intro k s hk hs hks
    have h := enc k s hk hs
    rw [hks, hdec] at h
    simp only [Option.some.injEq, Prod.mk.injEq] at h
    exact ⟨h.1.symm, h.2.symm⟩

/-- Both directions at the Track tag of size 5. -/
theorem tag_codec_bijection_witness :
    decode_tag (make_tag 2 5) = some (2, 5)
    ∧ ∃ kind size : Nat, kind < 256 ∧ size < 65536 ∧ make_tag kind size = 0x000502FF
        ∧ decode_tag 0x000502FF = some (kind, size)
        ∧ ∀ k s : Nat, k < 256 → s < 65536 → make_tag k s = 0x000502FF → k = kind ∧ s = size :=
  ⟨tag_codec_bijection.1 2 5 (by decide) (by decide),
   tag_codec_bijection.2 0x000502FF (by decide) (by decide)⟩

/-! ## Claim C3: two-phase write of the index -/

theorem container_words_index (c : nmf_container) (ts : List nmf_track) :
    container_words c ts = index_lead c ts ++ [c.index.fp, c.index.scale, c.index.count] := by
  simp [container_words, index_lead]

theorem index_lead_length (c : nmf_container) (ts : List nmf_track) :
    (index_lead c ts).length = 6 + (tracks_words ts).length := by
  simp [index_lead]; omega

theorem written_drop_index (c : nmf_container) (ts : List nmf_track) :
    (words_bytes (container_words c ts)).drop (4 * (6 + (tracks_words ts).length))
      = words_bytes [c.index.fp, c.index.scale, c.index.count] := by
  rw [container_words_index, words_bytes_append]
  exact List.drop_left' (by rw [words_bytes_length, index_lead_length])

theorem patch_written (c : nmf_container) (ts : List nmf_track) (a b x : Nat) :
    fwrite (fseeko_set (eof_file (words_bytes (container_words c ts)))
        (4 * (6 + (tracks_words ts).length))) [a, b, x]
      = eof_file (words_bytes (container_words
          { c with index := { fp := a, scale := b, count := x } } ts)) := by
  have hp : (words_bytes (index_lead c ts)).length = 4 * (6 + (tracks_words ts).length) := by
    rw [words_bytes_length, index_lead_length]
  have hi : index_lead { c with index := { fp := a, scale := b, count := x } } ts
      = index_lead c ts := rfl
  rw [container_words_index, container_words_index, hi]
  simp only [words_bytes_append, fwrite, fseeko_set, eof_file]
  rw [← hp, List.take_left' rfl]
  have h12 : (words_bytes [a, b, x]).length
      = (words_bytes [c.index.fp, c.index.scale, c.index.count]).length := by
    rw [words_bytes_length, words_bytes_length]; rfl
  rw [h12, ← List.length_append, List.drop_length, List.length_append, List.length_append, h12]
  simp

theorem oversized_tracks_words_length (w : Nat) (pl : List Nat) (hl : pl.length = 65535) :
    (tracks_words [oversized_track w pl]).length = 65539 := by
  rw [tracks_words_length _ (by
    intro t ht
    rw [List.mem_singleton] at ht
    subst ht
    rw [oversized_track_length]
    show (w :: pl).length = 65536
    rw [List.length_cons, hl])]
  rw [List.map_cons, List.map_nil, List.sum_cons, List.sum_nil, oversized_track_length]
  norm_num

theorem oversized_patch_not_tag (alloc : Nat → Nat → Bool) (h : nmf_header) (x : nmf_index)
    (w : Nat) (pl : List Nat)
    (c0 : nmf_container) (a b y : Nat)
    (hd : h.duration < 2 ^ 32) (ha : a < 2 ^ 32) (hb : b < 2 ^ 32) (hy : y < 2 ^ 32)
    (hw : w < 2 ^ 32) (hl : pl.length = 65535) (hu : all_u32 pl) (hnt : tag_start w ≠ 0xFF)
    (hal : alloc 0 1 = true) :
    ∃ fd pos, write_nmf { data := [], pos := 0 } (oversized h x w pl) = .ok (fd, pos)
      ∧ read_nmf alloc (fwrite (fseeko_set fd pos) [a, b, y]) (some c0) = .error .not_tag := by
  have hholds : ∀ z : nmf_index, holds (oversized h z w pl) [oversized_track w pl] := by
    intro z
    refine ⟨rfl, rfl, ?_⟩
    intro t ht
    rw [List.mem_singleton] at ht
    subst ht
    rw [oversized_track_length]
    show 65536 ≤ (w :: pl).length
    rw [List.length_cons, hl]
  have hone : [oversized_track w pl].length < 2 ^ 31 := by
    rw [List.length_singleton]; decide
  refine ⟨_, _, write_nmf_words _ _ (hholds x) hone, ?_⟩
  have htw := oversized_tracks_words_length w pl hl
  have hpos : (4 * (6 + (tracks_words [oversized_track w pl]).length)) % 2 ^ 32
      = 4 * (6 + (tracks_words [oversized_track w pl]).length) := by
    rw [htw]
    norm_num
  rw [hpos, patch_written]
  obtain ⟨_, fd, pos, hwr, hrd⟩ := oversized_not_tag alloc h { fp := a, scale := b, count := y } w pl c0
    hd ha hb hy hw hl hu hnt hal
  rw [write_nmf_words _ _ (hholds { fp := a, scale := b, count := y }) hone] at hwr
  simp only [Except.ok.injEq, Prod.mk.injEq] at hwr
  rw [← hwr.1] at hrd
  exact hrd

/-- C3 (as stated, refuted): the container with one video track of 65536 payload words, each
equal to 1, is well formed and is written by `write_nmf`; after the three words at the returned
offset are overwritten, `read_nmf` exits with "not tag" and returns no container. -/
theorem index_patch_fails_on_65536_word_payload :
    well_formed (oversized { duration := 0, track_num := 1 } { fp := 0, scale := 1000000, count := 0 }
      1 (List.replicate 65535 1))
    ∧ ∃ fd pos, write_nmf { data := [], pos := 0 }
          (oversized { duration := 0, track_num := 1 } { fp := 0, scale := 1000000, count := 0 }
            1 (List.replicate 65535 1)) = .ok (fd, pos)
        ∧ read_nmf table_granted (fwrite (fseeko_set fd pos) [4096, 1000000, 7]) (some blank)
            = .error .not_tag :=
  ⟨(oversized_not_tag table_granted _ _ 1 (List.replicate 65535 1) blank (by decide) (by decide)
      (by decide) (by decide) (by decide) (List.length_replicate _ _)
      (fun w hw => by rw [List.eq_of_mem_replicate hw]; decide) (by decide) rfl).1,
   oversized_patch_not_tag table_granted _ _ 1 (List.replicate 65535 1) blank 4096 1000000 7
    (by decide) (by decide) (by decide) (by decide) (by decide) (List.length_replicate _ _)
    (fun w hw => by rw [List.eq_of_mem_replicate hw]; decide) (by decide) rfl⟩

theorem records_words_index (c : nmf_container) (ts : List nmf_track) (a b x : Nat) :
    records_words { c with index := { fp := a, scale := b, count := x } } ts
      = [make_tag NMF_HEADER 2, c.header.duration, c.header.track_num]
        ++ (tracks_words ts ++ [make_tag NMF_INDEX 3, a, b, x]) := rfl

/-- What `parse_nmf` makes of the records that `write_nmf` emits, for every allocator: the
container with the tracks stored in a fresh table when the allocation succeeds; when it fails,
the exit of `parse_track` at the first Track record, or the container with a `NULL` table if
there is no Track record. -/
theorem parse_nmf_records_any (alloc : Nat → Nat → Bool) (c c0 : nmf_container)
    (ts : List nmf_track)
    (hts : ∀ t ∈ ts, track_fits t ∧ t.length ≤ 65533 ∧ t.header.index < c.header.track_num)
    (h31 : (records_words c ts).length ≤ 2 ^ 31) :
    parse_nmf alloc (records_words c ts) (records_words c ts).length c0
      = if alloc 0 c.header.track_num then
          .ok { header := c.header,
                tracks := some (store_tracks (List.replicate c.header.track_num none) ts),
                index := c.index }
        else if ts = [] then .ok { header := c.header, tracks := none, index := c.index }
        else .error .no_track_memory := by
  by_cases ha : alloc 0 c.header.track_num = true
  · rw [if_pos ha]
    exact parse_nmf_records alloc c c0 ts hts h31 ha
  · rw [if_neg ha]
    have hlen := records_words_length c ts
    rw [parse_nmf_eq_parse_from alloc]
    have h1 := parse_iter_header_any alloc (records_words c ts) 0 c0 (make_tag NMF_HEADER 2)
      c.header.duration c.header.track_num (by decide) (by simp [records_words])
      (tag_start_make_tag _ _) (tag_id_make_tag _ _ (by decide))
      (by rw [tag_size_make_tag _ _ (by decide)])
      (by simp [records_words]) (by simp [records_words])
    rw [if_neg ha] at h1
    rw [parse_from_step alloc _ _ 0 c0 _ _ (by omega) h1]
    cases ts with
    | nil =>
      rw [if_pos rfl]
      have h3 := parse_iter_index alloc (records_words c []) (0 + 3)
        { c0 with header := { duration := c.header.duration, track_num := c.header.track_num },
                  tracks := none }
        (make_tag NMF_INDEX 3) c.index.fp c.index.scale c.index.count
        (by decide) rfl (tag_start_make_tag _ _) (tag_id_make_tag _ _ (by decide))
        (by rw [tag_size_make_tag _ _ (by decide)]) rfl rfl rfl
      rw [parse_from_step alloc _ _ _ _ _ _ (by rw [hlen]; simp [tracks_words]) h3,
        parse_from_done alloc _ _ _ _ (by rw [hlen]; simp [tracks_words])]
    | cons t ts =>
      rw [if_neg (List.cons_ne_nil _ _)]
      exact parse_from_error alloc _ _ _ _ _ (by omega)
        (parse_iter_no_table alloc _ (0 + 3) _ (make_tag NMF_TRACK ((2 + t.length) % 2 ^ 32))
          (by decide) (by rw [records_words, tracks_words_cons]; rfl)
          (tag_start_make_tag _ _) (tag_id_make_tag _ _ (by decide)) rfl)

/-- C3 (amended): for every container whose table holds `track_num` tracks, fewer than `2 ^ 31`,
`write_nmf` on an empty file succeeds; the payload of the Index record is the last twelve bytes
of the file, and `pos_index` is the byte offset at which it begins reduced modulo `2 ^ 32`, so
the offset itself for a file shorter than `2 ^ 32` bytes. When in addition every track has at
most 65533 payload words, fields that fit their C types and an index below `track_num`, then
for every allocator and every three new words, reading the file after the twelve bytes at
`pos_index` were overwritten ends as reading the unpatched file does, and where that gives a
container, gives the same container with the new index; reading the unpatched file gives a
container with the original header and index whenever the table is allocated. -/
theorem index_two_phase_write (c : nmf_container) (ts : List nmf_track) (h : holds c ts)
    (hn : ts.length < 2 ^ 31) :
    ∃ fd pos, write_nmf { data := [], pos := 0 } c = .ok (fd, pos)
      ∧ fd.data.length = 4 * (6 + (tracks_words ts).length) + 12
      ∧ fd.data.drop (4 * (6 + (tracks_words ts).length))
          = words_bytes [c.index.fp, c.index.scale, c.index.count]
      ∧ pos = (4 * (6 + (tracks_words ts).length)) % 2 ^ 32
      ∧ (fd.data.length < 2 ^ 32 →
          fd.data.drop pos = words_bytes [c.index.fp, c.index.scale, c.index.count])
      ∧ ∀ (alloc : Nat → Nat → Bool) (c0 : nmf_container) (a b x : Nat),
          a < 2 ^ 32 → b < 2 ^ 32 → x < 2 ^ 32 →
          c.header.duration < 2 ^ 32 → c.index.fp < 2 ^ 32 → c.index.scale < 2 ^ 32 →
          c.index.count < 2 ^ 32 →
          (∀ t ∈ ts, track_fits t ∧ t.length ≤ 65533 ∧ t.header.index < c.header.track_num) →
          fd.data.length < 2 ^ 32 →
          read_nmf alloc (fwrite (fseeko_set fd pos) [a, b, x]) (some c0)
            = (match read_nmf alloc fd (some c0) with
               | .error e => .error e
               | .ok (size, r) =>
                 .ok (size, { r with index := { fp := a, scale := b, count := x } }))
          ∧ (alloc 0 c.header.track_num = true →
              read_nmf alloc fd (some c0)
                = .ok (file_size fd,
                    { header := c.header,
                      tracks := some (store_tracks (List.replicate c.header.track_num none) ts),
                      index := c.index })) := by
  have hlenf : (words_bytes (container_words c ts)).length
      = 4 * (6 + (tracks_words ts).length) + 12 := by
    rw [words_bytes_length, container_words_index, List.length_append, index_lead_length]
    simp only [List.length_cons, List.length_nil]
    omega
  refine ⟨_, _, write_nmf_words c ts h hn, hlenf, written_drop_index c ts, rfl, ?_, ?_⟩
  · intro hsmall
    simp only [eof_file] at hsmall ⊢
    rw [Nat.mod_eq_of_lt (by omega)]
    exact written_drop_index c ts
  · intro alloc c0 a b x ha hb hx hd hfp hsc hct hts hsmall
    simp only [eof_file] at hsmall
    have hpos : (4 * (6 + (tracks_words ts).length)) % 2 ^ 32
        = 4 * (6 + (tracks_words ts).length) := Nat.mod_eq_of_lt (by omega)
    have hrl := records_words_length c ts
    have hrl2 : (records_words { c with index := { fp := a, scale := b, count := x } } ts).length
        = (records_words c ts).length := by
      rw [records_words_length, records_words_length]
    have htw := tracks_words_length ts (fun t ht => (hts t ht).1.1)
    have htot : length_total 7 (ts.map fun t => (2 + t.length) % 2 ^ 32)
        = (records_words c ts).length := by
      rw [length_total_eq ts 7 (by decide), hrl, htw]
      exact Nat.mod_eq_of_lt (by omega)
    have hnum : c.header.track_num < 2 ^ 32 := by rw [h.2.1]; omega
    have hfit : ∀ t ∈ ts, track_fits t := fun t ht => (hts t ht).1
    -- the unpatched file
    have hread := read_nmf_words alloc (records_words c ts) (records_words c ts).length []
      (words_bytes (NMF_MAGIC_NUM :: (records_words c ts).length :: records_words c ts)).length c0
      (all_u32_records_words c ts hd hnum hfp hsc hct hfit) rfl (by omega)
    rw [parse_nmf_records_any alloc c c0 ts hts (by omega)] at hread
    -- the patched file
    have hread2 := read_nmf_words alloc
      (records_words { c with index := { fp := a, scale := b, count := x } } ts)
      (records_words c ts).length []
      (words_bytes (NMF_MAGIC_NUM :: (records_words c ts).length
        :: records_words { c with index := { fp := a, scale := b, count := x } } ts)).length c0
      (all_u32_records_words { c with index := { fp := a, scale := b, count := x } } ts hd hnum
        ha hb hx hfit) hrl2 (by omega)
    rw [← hrl2, parse_nmf_records_any alloc { c with index := { fp := a, scale := b, count := x } }
      c0 ts hts (by omega), hrl2] at hread2
    simp only [List.append_nil] at hread hread2
    have hfile : eof_file (words_bytes (container_words c ts))
        = { data := words_bytes (NMF_MAGIC_NUM :: (records_words c ts).length
              :: records_words c ts),
            pos := (words_bytes (NMF_MAGIC_NUM :: (records_words c ts).length
              :: records_words c ts)).length } := by
      rw [container_words_eq, htot]; rfl
    have hfile2 : eof_file (words_bytes (container_words
          { c with index := { fp := a, scale := b, count := x } } ts))
        = { data := words_bytes (NMF_MAGIC_NUM :: (records_words c ts).length
              :: records_words { c with index := { fp := a, scale := b, count := x } } ts),
            pos := (words_bytes (NMF_MAGIC_NUM :: (records_words c ts).length
              :: records_words { c with index := { fp := a, scale := b, count := x } } ts)).length } := by
      rw [container_words_eq, htot]; rfl
    have hsize : file_size (eof_file (words_bytes (container_words c ts)))
        = 4 * (2 + (records_words c ts).length) + ([] : List Byte).length := by
      simp only [file_size, eof_file, hlenf, hrl, List.length_nil]
      omega
    rw [hpos, patch_written, hfile2, hread2, hfile, hread, ← hfile, hsize]
    constructor
    · cases alloc 0 c.header.track_num with
      | true => rfl
      | false =>
        cases ts with
        | nil => rfl
        | cons t ts => rfl
    · intro hal
      rw [if_pos hal]

/-- The offset and the patched index at a container with two tracks. -/
theorem index_two_phase_write_witness :
    ∃ fd pos, write_nmf { data := [], pos := 0 } sample = .ok (fd, pos)
      ∧ pos = 60
      ∧ fd.data.drop pos = words_bytes [sample.index.fp, sample.index.scale, sample.index.count]
      ∧ read_nmf table_granted fd (some blank) = .ok (file_size fd, sample)
      ∧ read_nmf table_granted (fwrite (fseeko_set fd pos) [4096, 1000000, 7]) (some blank)
          = .ok (file_size fd,
              { sample with index := { fp := 4096, scale := 1000000, count := 7 } }) := by
  obtain ⟨fd, pos, hw, hlen, _, hpos, hdrop, hall⟩ :=
    index_two_phase_write sample (container_tracks sample) (by decide) (by decide)
  have hl : fd.data.length = 72 := by rw [hlen]; decide
  obtain ⟨hpatch, hplain⟩ := hall table_granted blank 4096 1000000 7 (by decide) (by decide)
    (by decide) (by decide) (by decide) (by decide) (by decide) (by decide) (by rw [hl]; decide)
  have hplain2 : read_nmf table_granted fd (some blank) = .ok (file_size fd, sample) :=
    (hplain rfl).trans rfl
  rw [hplain2] at hpatch
  exact ⟨fd, pos, hw, by rw [hpos]; decide, hdrop (by rw [hl]; decide), hplain2, hpatch⟩

/-! ## Claim C4: declared word count -/

theorem length_total_lt (ts : List nmf_track) :
    length_total 7 (ts.map fun t => (2 + t.length) % 2 ^ 32) < 2 ^ 32 := by
  rw [length_total_eq ts 7 (by norm_num)]
  exact Nat.mod_lt _ (by norm_num)

theorem declared_total_written (c : nmf_container) (ts : List nmf_track) :
    declared_total (eof_file (words_bytes (container_words c ts)))
      = [(7 + (ts.map fun t => 3 + t.length).sum) % 2 ^ 32] := by
  have h := fread_one
    (fseeko_set (eof_file (words_bytes (container_words c ts))) 4)
    (length_total 7 (ts.map fun t => (2 + t.length) % 2 ^ 32))
    (words_bytes (records_words c ts)) (length_total_lt ts)
    (by
      rw [container_words_eq]
      simp only [fseeko_set, eof_file, words_bytes_cons]
      exact List.drop_left' rfl)
  rw [declared_total, h, length_total_eq ts 7 (by norm_num)]

theorem huge_track_length : huge_track.length = 4294967289 := rfl

theorem huge_holds : holds huge [huge_track] := by
  refine ⟨rfl, rfl, ?_⟩
  intro t ht
  rw [List.mem_singleton] at ht
  subst ht
  show huge_track.length ≤ (List.replicate 4294967289 0).length
  rw [List.length_replicate, huge_track_length]

/-- C4 (as stated, refuted): for the container whose single track has 4294967289 payload words,
`write_nmf` declares 3 words, the sum 4294967299 reduced modulo `2 ^ 32`, not the sum of
`1 + 2`, `1 + 2 + 4294967289` and `1 + 3`. -/
theorem declared_total_wraps :
    holds huge [huge_track]
    ∧ ∃ fd pos, write_nmf { data := [], pos := 0 } huge = .ok (fd, pos)
        ∧ declared_total fd = [3]
        ∧ declared_total fd
            ≠ [(1 + 2) + ([huge_track].map fun t => 1 + 2 + t.length).sum + (1 + 3)] := by
  have hd : declared_total (eof_file (words_bytes (container_words huge [huge_track]))) = [3] := by
    rw [declared_total_written, List.map_cons, List.map_nil, List.sum_cons, List.sum_nil,
      huge_track_length]
    norm_num
  refine ⟨huge_holds, _, _, write_nmf_words huge [huge_track] huge_holds
    (by rw [List.length_singleton]; decide), hd, ?_⟩
  rw [hd, List.map_cons, List.map_nil, List.sum_cons, List.sum_nil, huge_track_length]
  norm_num

/-- C4 (amended): for every container whose table holds `track_num` tracks, fewer than `2 ^ 31`
of them (the loops of `write_nmf` count them in an `int`), the word that `write_nmf` writes
right after the magic is the sum of `1 + 2` for the header record, `1 + 2 + length` for each
track and `1 + 3` for the index record, reduced modulo `2 ^ 32` (the count is computed in
`uint32_t`); it is that sum itself whenever the sum is below `2 ^ 32`, and it is 10 for a
container with one track whose payload is empty. -/
theorem declared_word_count (c : nmf_container) (ts : List nmf_track) (h : holds c ts)
    (hn : ts.length < 2 ^ 31) :
    ∃ fd pos, write_nmf { data := [], pos := 0 } c = .ok (fd, pos)
      ∧ declared_total fd
          = [((1 + 2) + (ts.map fun t => 1 + 2 + t.length).sum + (1 + 3)) % 2 ^ 32]
      ∧ ((1 + 2) + (ts.map fun t => 1 + 2 + t.length).sum + (1 + 3) < 2 ^ 32 →
          declared_total fd = [(1 + 2) + (ts.map fun t => 1 + 2 + t.length).sum + (1 + 3)])
      ∧ (ts.length = 1 → (∀ t ∈ ts, t.length = 0) → declared_total fd = [10]) := by
  have hd := declared_total_written c ts
  have he : (1 + 2) + (ts.map fun t => 1 + 2 + t.length).sum + (1 + 3)
      = 7 + (ts.map fun t => 3 + t.length).sum := by
    norm_num
    omega
  refine ⟨_, _, write_nmf_words c ts h hn, ?_, ?_, ?_⟩
  · rw [hd, he]
  · intro hlt
    rw [hd, ← he, Nat.mod_eq_of_lt hlt]
  · intro h1 h0
    rw [hd]
    match ts, h1, h0 with
    | [t], _, h0 =>
      have := h0 t (List.mem_singleton_self t)
      rw [List.map_cons, List.map_nil, List.sum_cons, List.sum_nil, this]
      norm_num

/-- The declared count of the one-track scenario is 10. -/
theorem declared_word_count_witness :
    holds single_empty [{ header := { index := 0, type := 1, reserved := 0, codec := 0x47504A4D },
                          length := 0, payload := [] }]
    ∧ ∃ fd pos, write_nmf { data := [], pos := 0 } single_empty = .ok (fd, pos)
        ∧ declared_total fd = [10] := by
  have hh : holds single_empty
      [{ header := { index := 0, type := 1, reserved := 0, codec := 0x47504A4D },
         length := 0, payload := [] }] := ⟨rfl, rfl, by decide⟩
  obtain ⟨fd, pos, hw, _, _, h10⟩ := declared_word_count single_empty _ hh (by decide)
  exact ⟨hh, fd, pos, hw, h10 rfl (by decide)⟩

/-! ## Claim C5: the magic number -/

theorem word_bytes_bytes_word (b0 b1 b2 b3 : Byte) :
    word_bytes (bytes_word b0 b1 b2 b3) = [b0, b1, b2, b3] := by
  have h0 := b0.isLt
  have h1 := b1.isLt
  have h2 := b2.isLt
  have h3 := b3.isLt
  simp only [word_bytes, bytes_word, shr_8, shr_16, shr_24, shl_8, shl_16, shl_24, List.cons.injEq,
    and_true]
  refine ⟨?_, ?_, ?_, ?_⟩ <;> apply Fin.ext <;> simp only [Fin.ofNat, Fin.val_mk] <;> omega

theorem bytes_word_eq_iff (b0 b1 b2 b3 : Byte) (w : Nat) (hw : w < 2 ^ 32) :
    bytes_word b0 b1 b2 b3 = w ↔ [b0, b1, b2, b3] = word_bytes w := by
  constructor
  · intro h
    rw [← h, word_bytes_bytes_word]
  · intro h
    have := bytes_words_word_bytes w hw [] 0
    rw [← h] at this
    simp only [List.cons_append, List.nil_append, bytes_words, List.cons.injEq, and_true] at this
    exact this

theorem read_nmf_magic (alloc : Nat → Nat → Bool) (fd : FILE) (c0 : nmf_container)
    (b0 b1 b2 b3 : Byte) (rest : List Byte)
    (hdata : fd.data = b0 :: b1 :: b2 :: b3 :: rest) :
    read_nmf alloc fd (some c0) = .error .unknown_file_type ↔ bytes_word b0 b1 b2 b3 ≠ NMF_MAGIC_NUM := by
  have hsz : ¬ file_size fd < 3 := by
    simp [file_size, hdata]
  have hlen : 4 ≤ fd.data.length := by simp [hdata]
  have hr : fread (fseeko_set fd 0) 1
      = ([bytes_word b0 b1 b2 b3], { data := fd.data, pos := 0 + 4 }) := by
    simp only [fread, fseeko_set, List.drop_zero, hdata, bytes_words, bytes_words_zero,
      Prod.mk.injEq, true_and, FILE.mk.injEq]
    simp
  simp only [read_nmf, hsz, if_false, hr]
  by_cases hm : bytes_word b0 b1 b2 b3 = NMF_MAGIC_NUM
  · simp only [hm, if_true, ne_eq, not_true_eq_false, iff_false]
    intro h
    split at h
    · split at h
      · cases h
      · split at h
        · rename_i e he
          simp only [Except.error.injEq] at h
          subst h
          have := parse_from_exit alloc _ _ _ 0 c0 _ (Nat.le_refl _) he
          simp [parse_exit] at this
        · cases h
    · cases h
  · simp only [hm, if_false, ne_eq, not_false_eq_true]

/-- C5 (as stated, refuted): on the empty stream the first four bytes are not the magic, and
`read_nmf` exits with "wrong file size", not with "unknown file type". -/
theorem empty_stream_is_not_bad_magic :
    read_nmf table_granted { data := [], pos := 0 } (some blank) = .error .wrong_file_size
    ∧ ¬ (read_nmf table_granted { data := [], pos := 0 } (some blank) = .error .unknown_file_type
          ↔ ([] : List Byte).take 4 ≠ word_bytes NMF_MAGIC_NUM) := by
  decide

/-- C5 (amended): for every stream of at least four bytes and every container passed in,
`read_nmf` exits with "unknown file type" if and only if the first four bytes differ from the
little-endian bytes of `0x46454D4E`. -/
theorem bad_magic_iff (alloc : Nat → Nat → Bool) (fd : FILE) (c0 : nmf_container)
    (h4 : 4 ≤ fd.data.length) :
    read_nmf alloc fd (some c0) = .error .unknown_file_type
      ↔ fd.data.take 4 ≠ word_bytes NMF_MAGIC_NUM := by
  obtain ⟨b0, b1, b2, b3, rest, hdata⟩ : ∃ b0 b1 b2 b3 rest, fd.data = b0 :: b1 :: b2 :: b3 :: rest := by
    match hd : fd.data, h4 with
    | b0 :: b1 :: b2 :: b3 :: rest, _ => exact ⟨b0, b1, b2, b3, rest, rfl⟩
    | [], h => simp at h
    | [_], h => simp at h
    | [_, _], h => simp at h
    | [_, _, _], h => simp at h
  rw [read_nmf_magic alloc fd c0 b0 b1 b2 b3 rest hdata, hdata, ne_eq, ne_eq,
    bytes_word_eq_iff b0 b1 b2 b3 NMF_MAGIC_NUM (by decide)]
  rfl

/-- A stream of eight bytes that starts with another magic. -/
theorem bad_magic_iff_witness :
    4 ≤ ([0x52, 0x49, 0x46, 0x46, 0, 0, 0, 0] : List Byte).length
    ∧ (read_nmf table_granted { data := [0x52, 0x49, 0x46, 0x46, 0, 0, 0, 0], pos := 0 } (some blank)
        = .error .unknown_file_type
      ↔ ([0x52, 0x49, 0x46, 0x46, 0, 0, 0, 0] : List Byte).take 4 ≠ word_bytes NMF_MAGIC_NUM) :=
  ⟨by decide,
    bad_magic_iff table_granted { data := [0x52, 0x49, 0x46, 0x46, 0, 0, 0, 0], pos := 0 } blank (by decide)⟩

/-! ## Claims C6 and C7: unknown kinds and tracks without a table -/

/-- C6: whenever the loop of `parse_nmf` reaches, after some number of iterations, a cursor below
the declared length (and below `2 ^ 31`, the cursor being a C `int`) at which the buffer holds a
word with marker byte 0xFF and a kind byte other than 1, 2 and 3, `parse_nmf` exits with
"unknown tag": the record is not skipped and the call does not return. -/
theorem unknown_chunk_type (alloc : Nat → Nat → Bool) (buffer : List Nat) (length : Nat)
    (c0 : nmf_container) (n p : Nat)
    (c : nmf_container) (tag : Nat)
    (hreach : parse_steps alloc n buffer length 0 c0 = .ok (p, c))
    (hp : p < length) (h31 : p < 2 ^ 31) (htag : buffer[p]? = some tag)
    (hs : tag_start tag = 0xFF)
    (hid : tag_id tag ≠ NMF_HEADER ∧ tag_id tag ≠ NMF_TRACK ∧ tag_id tag ≠ NMF_INDEX) :
    parse_nmf alloc buffer length c0 = .error .unknown_tag := by
  rw [parse_nmf_reach alloc buffer length c0 n p c hreach]
  exact parse_from_error alloc buffer length p c _ hp
    (parse_iter_unknown_tag alloc buffer p c tag h31 htag hs hid.1 hid.2.1 hid.2.2)

/-- A record of kind 7 met after a Header record. -/
theorem unknown_chunk_type_witness :
    parse_nmf table_granted [0x000201FF, 0, 1, 0x000007FF, 0x000303FF, 1, 2, 3] 8 blank = .error .unknown_tag :=
  unknown_chunk_type table_granted [0x000201FF, 0, 1, 0x000007FF, 0x000303FF, 1, 2, 3] 8 blank 1 3
    { header := { duration := 0, track_num := 1 }, tracks := some [none],
      index := { fp := 0, scale := 0, count := 0 } }
    0x000007FF (by decide) (by decide) (by decide) (by decide) (by decide) (by decide)

theorem no_table_until_header (alloc : Nat → Nat → Bool) (buffer : List Nat) (length : Nat)
    (c0 : nmf_container)
    (h0 : c0.tracks = none) (n : Nat) :
    (∀ m, m < n → ∀ q d t, parse_steps alloc m buffer length 0 c0 = .ok (q, d) → q < length →
        buffer[q]? = some t → tag_id t ≠ NMF_HEADER) →
    ∀ p c, parse_steps alloc n buffer length 0 c0 = .ok (p, c) → c.tracks = none := by
  induction n with
  | zero =>
    intro _ p c h
    simp only [parse_steps, Except.ok.injEq, Prod.mk.injEq] at h
    rw [← h.2]; exact h0
  | succ n ih =>
    intro hno p c h
    rw [parse_steps_succ alloc] at h
    cases hs : parse_steps alloc n buffer length 0 c0 with
    | error e => rw [hs] at h; cases h
    | ok r =>
      obtain ⟨q, d⟩ := r
      rw [hs] at h
      simp only at h
      have hd : d.tracks = none :=
        ih (fun m hm => hno m (Nat.lt_succ_of_lt hm)) q d hs
      by_cases hq : q < length
      · simp only [hq, if_true] at h
        obtain ⟨t, ht, _⟩ := parse_iter_advance alloc buffer q d p c h
        exact parse_iter_keeps_no_table alloc buffer q d p c t ht
          (hno n (Nat.lt_succ_self n) q d t hs hq ht) hd h
      · simp only [hq, if_false, Except.ok.injEq, Prod.mk.injEq] at h
        rw [← h.2]; exact hd

/-- C7: when `parse_nmf` is called on a container whose table pointer is `NULL` and its loop
reaches a Track record (marker 0xFF, kind 2) at a cursor below the declared length without having
met a Header record in any earlier iteration, the table is still absent there, the loop body
exits with "no track memory allocated" before any store, and so does `parse_nmf`. -/
theorem track_before_header (alloc : Nat → Nat → Bool) (buffer : List Nat) (length : Nat)
    (c0 : nmf_container) (n p : Nat)
    (c : nmf_container) (tag : Nat) (h0 : c0.tracks = none)
    (hreach : parse_steps alloc n buffer length 0 c0 = .ok (p, c))
    (hnone : ∀ m, m < n → ∀ q d t, parse_steps alloc m buffer length 0 c0 = .ok (q, d) → q < length →
        buffer[q]? = some t → tag_id t ≠ NMF_HEADER)
    (hp : p < length) (h31 : p < 2 ^ 31) (htag : buffer[p]? = some tag)
    (hs : tag_start tag = 0xFF) (hid : tag_id tag = NMF_TRACK) :
    c.tracks = none ∧ parse_iter alloc buffer p c = .error .no_track_memory
      ∧ parse_nmf alloc buffer length c0 = .error .no_track_memory := by
  have htab := no_table_until_header alloc buffer length c0 h0 n hnone p c hreach
  have hit := parse_iter_no_table alloc buffer p c tag h31 htag hs hid htab
  refine ⟨htab, hit, ?_⟩
  rw [parse_nmf_reach alloc buffer length c0 n p c hreach]
  exact parse_from_error alloc buffer length p c _ hp hit

/-- An Index record followed by a Track record, with no Header record. -/
theorem track_before_header_witness :
    parse_iter table_granted [0x000303FF, 1, 2, 3, 0x000202FF, 0, 5] 4
        { blank with index := { fp := 1, scale := 2, count := 3 } } = .error .no_track_memory
    ∧ parse_nmf table_granted [0x000303FF, 1, 2, 3, 0x000202FF, 0, 5] 7 blank = .error .no_track_memory :=
  (track_before_header table_granted [0x000303FF, 1, 2, 3, 0x000202FF, 0, 5] 7 blank 1 4
    { blank with index := { fp := 1, scale := 2, count := 3 } } 0x000202FF rfl (by decide)
    (by
      intro m hm q d t h hq ht
      have hm0 : m = 0 := by omega
      subst hm0
      simp only [parse_steps, Except.ok.injEq, Prod.mk.injEq] at h
      obtain ⟨rfl, rfl⟩ := h
      simp only [List.getElem?_cons_zero, Option.some.injEq] at ht
      subst ht
      decide)
    (by decide) (by decide) (by decide) (by decide) (by decide)).2

/-! ## Claim C8: repeated track indices -/

theorem parse_steps_reach_succ (alloc : Nat → Nat → Bool) (buffer : List Nat) (length : Nat)
    (c0 : nmf_container) (n p : Nat)
    (c : nmf_container) (r : Nat × nmf_container)
    (hreach : parse_steps alloc n buffer length 0 c0 = .ok (p, c)) (hp : p < length)
    (hit : parse_iter alloc buffer p c = .ok r) :
    parse_steps alloc (n + 1) buffer length 0 c0 = .ok r := by
  rw [parse_steps_succ alloc, hreach]
  simp only [hp, if_true, hit]

theorem parse_from_ok_reach (alloc : Nat → Nat → Bool) (buffer : List Nat) (length : Nat)
    (r : nmf_container) (k : Nat) :
    ∀ (p : Nat) (c : nmf_container), length - p ≤ k → parse_from alloc buffer length p c = .ok r →
      ∃ n q, parse_steps alloc n buffer length p c = .ok (q, r) ∧ length ≤ q := by
  induction k with
  | zero =>
    intro p c hk h
    rw [parse_from_done alloc buffer length p c (by omega)] at h
    simp only [Except.ok.injEq] at h
    exact ⟨0, p, by rw [← h]; rfl, by omega⟩
  | succ k ih =>
    intro p c hk h
    by_cases hp : p < length
    · cases hit : parse_iter alloc buffer p c with
      | error e =>
        rw [parse_from_error alloc buffer length p c e hp hit] at h
        cases h
      | ok s =>
        obtain ⟨q, d⟩ := s
        rw [parse_from_step alloc buffer length p c q d hp hit] at h
        have hlt := parse_iter_lt alloc buffer p c q d hit
        obtain ⟨n, q2, hn, hq2⟩ := ih q d (by omega) h
        refine ⟨n + 1, q2, ?_, hq2⟩
        simp only [parse_steps, hp, if_true, hit]
        exact hn
    · rw [parse_from_done alloc buffer length p c (by omega)] at h
      simp only [Except.ok.injEq] at h
      exact ⟨0, p, by rw [← h]; rfl, by omega⟩

/-- C9 (as stated, refuted): with a declared length of 2 words and an Index record of 1 + 3 words
in the buffer, the cursor goes from 0 to 4, past the declared length, and `parse_nmf` returns the
container with the index filled in; it does not exit. -/
theorem overrun_is_accepted :
    parse_steps table_granted 1 [0x000303FF, 1, 2, 3] 2 0 blank
      = .ok (4, { blank with index := { fp := 1, scale := 2, count := 3 } })
    ∧ parse_nmf table_granted [0x000303FF, 1, 2, 3] 2 blank
      = .ok { blank with index := { fp := 1, scale := 2, count := 3 } } := by
  decide

/-- C9 (amended): every iteration of the loop of `parse_nmf` that does not exit moves the cursor
forward by exactly `1 + size` words, `size` being the size field of the tag at the cursor, and
`parse_nmf` returns a container exactly when after some number of iterations the cursor is at
or beyond the declared length `W`, with that container as the state: landing on `W` and going
past `W` both end the loop with success, and the loop never stops short of `W`. There is no exit
for a cursor that misses `W`. -/
theorem cursor_advance_and_stop (alloc : Nat → Nat → Bool) :
    (∀ (buffer : List Nat) (p : Nat) (c : nmf_container) (q : Nat) (d : nmf_container),
        parse_iter alloc buffer p c = .ok (q, d) →
          ∃ tag, buffer[p]? = some tag ∧ q = p + 1 + tag_size tag)
    ∧ (∀ (buffer : List Nat) (W : Nat) (c0 r : nmf_container),
        parse_nmf alloc buffer W c0 = .ok r
          ↔ ∃ n q, parse_steps alloc n buffer W 0 c0 = .ok (q, r) ∧ W ≤ q) := by
  refine ⟨parse_iter_advance alloc, ?_⟩
  intro buffer W c0 r
  constructor
  · intro h
    rw [parse_nmf_eq_parse_from alloc] at h
    exact parse_from_ok_reach alloc buffer W r W 0 c0 (by omega) h
  · rintro ⟨n, q, hn, hq⟩
    rw [parse_nmf_reach alloc buffer W c0 n q r hn]
    exact parse_from_done alloc buffer W q r hq

/-- One Index record in a buffer of exactly its four words. -/
theorem cursor_advance_and_stop_witness :
    (∃ tag, [0x000303FF, 1, 2, 3][0]? = some tag ∧ 4 = 0 + 1 + tag_size tag)
    ∧ parse_nmf table_granted [0x000303FF, 1, 2, 3] 4 blank
        = .ok { blank with index := { fp := 1, scale := 2, count := 3 } } :=
  ⟨(cursor_advance_and_stop table_granted).1 [0x000303FF, 1, 2, 3] 0 blank 4
      { blank with index := { fp := 1, scale := 2, count := 3 } } (by decide),
   ((cursor_advance_and_stop table_granted).2 [0x000303FF, 1, 2, 3] 4 blank
      { blank with index := { fp := 1, scale := 2, count := 3 } }).mpr
      ⟨1, 4, by decide, by decide⟩⟩

theorem parse_steps_done (alloc : Nat → Nat → Bool) (buffer : List Nat) (length : Nat)
    (k p : Nat) (c : nmf_container)
    (h : ¬ p < length) : parse_steps alloc k buffer length p c = .ok (p, c) := by
  cases k <;> simp [parse_steps, h]

theorem parse_steps_add (alloc : Nat → Nat → Bool) (buffer : List Nat) (length : Nat) (k : Nat)
    (n : Nat) :
    ∀ (p : Nat) (c : nmf_container),
      parse_steps alloc (n + k) buffer length p c =
        match parse_steps alloc n buffer length p c with
        | .error e => .error e
        | .ok (q, d) => parse_steps alloc k buffer length q d := by
  induction n with
  | zero => intro p c; simp [parse_steps]
  | succ n ih =>
    intro p c
    rw [show n + 1 + k = (n + k) + 1 by omega]
    by_cases hp : p < length
    · simp only [parse_steps, hp, if_true]
      cases hit : parse_iter alloc buffer p c with
      | error e => rfl
      | ok r =>
        obtain ⟨q, d⟩ := r
        exact ih q d
    · simp only [parse_steps, hp, if_false]
      exact (parse_steps_done alloc buffer length k p c hp).symm

/-- C11 (as stated, refuted): a buffer with a Header record, a Track record and a second Header
record is parsed without any exit; the header of the result is that of the second record and the
table is a fresh one of two empty slots, the track stored before being gone. -/
theorem second_header_is_accepted :
    parse_nmf table_granted [0x000201FF, 0, 1, 0x000202FF, 0x0100, 5, 0x000201FF, 9, 2] 9 blank
      = .ok { header := { duration := 9, track_num := 2 }, tracks := some [none, none],
              index := { fp := 0, scale := 0, count := 0 } } := by
  decide

/-- C11 (amended): when the loop of `parse_nmf` reaches a Header record of size 2 whose two
payload words are in the buffer, the record is accepted whatever the container holds at that
point, so also when it holds the header and the table of an earlier Header record: the header
becomes the two words of the record, and the table pointer becomes what a new allocation of
`track_num` slots returns, a table of empty slots or `NULL`; nothing of the earlier table is
kept. `parse_nmf` has no exit for a repeated Header record. -/
theorem second_header_replaces (alloc : Nat → Nat → Bool) (buffer : List Nat) (length : Nat)
    (c0 : nmf_container) (n p : Nat) (c : nmf_container) (tag d tn : Nat)
    (hreach : parse_steps alloc n buffer length 0 c0 = .ok (p, c)) (hp : p < length)
    (h31 : p + 1 < 2 ^ 31) (htag : buffer[p]? = some tag) (hs : tag_start tag = 0xFF)
    (hid : tag_id tag = NMF_HEADER) (hsz : tag_size tag = 2)
    (hd : buffer[p + 1]? = some d) (htn : buffer[p + 2]? = some tn) :
    parse_steps alloc (n + 1) buffer length 0 c0
      = .ok (p + 3, { header := { duration := d, track_num := tn },
                      tracks := if alloc p tn then some (List.replicate tn none) else none,
                      index := c.index }) :=
  parse_steps_reach_succ alloc buffer length c0 n p c _ hreach hp
    (parse_iter_header_any alloc buffer p c tag d tn (by omega) htag hs hid hsz hd htn)

/-- The second of two Header records, met after a Track record was stored in the table of the
first: with an allocator that returns a table for fewer than two tracks only, the header is
replaced and the table pointer is `NULL`. -/
theorem second_header_replaces_witness :
    parse_steps (table_below 2) 2 [0x000201FF, 0, 1, 0x000202FF, 0x0100, 5, 0x000201FF, 9, 2] 9 0
        blank
      = .ok (6, { header := { duration := 0, track_num := 1 },
                  tracks := some [some { header := { index := 0, type := 1, reserved := 0,
                                                     codec := 5 },
                                         length := 0, payload := [] }],
                  index := { fp := 0, scale := 0, count := 0 } })
    ∧ parse_steps (table_below 2) (2 + 1)
        [0x000201FF, 0, 1, 0x000202FF, 0x0100, 5, 0x000201FF, 9, 2] 9 0 blank
        = .ok (6 + 3, { header := { duration := 9, track_num := 2 },
                        tracks := none,
                        index := { fp := 0, scale := 0, count := 0 } }) :=
  ⟨by decide,
   second_header_replaces (table_below 2)
    [0x000201FF, 0, 1, 0x000202FF, 0x0100, 5, 0x000201FF, 9, 2] 9 blank 2 6
    { header := { duration := 0, track_num := 1 },
      tracks := some [some { header := { index := 0, type := 1, reserved := 0, codec := 5 },
                             length := 0, payload := [] }],
      index := { fp := 0, scale := 0, count := 0 } }
    0x000201FF 9 2 (by decide) (by decide) (by decide) (by decide) (by decide) (by decide)
    (by decide) (by decide) (by decide)⟩

/-- C12: whenever the loop of `parse_nmf` reaches a cursor below the declared length (and below
`2 ^ 31`) at which the buffer holds a word whose low byte is not 0xFF, the word decodes to no
tag and `parse_nmf` exits with "not tag", whatever the other 24 bits of the word are. -/
theorem invalid_marker (alloc : Nat → Nat → Bool) (buffer : List Nat) (length : Nat)
    (c0 : nmf_container) (n p : Nat)
    (c : nmf_container) (tag : Nat)
    (hreach : parse_steps alloc n buffer length 0 c0 = .ok (p, c))
    (hp : p < length) (h31 : p < 2 ^ 31) (htag : buffer[p]? = some tag)
    (hs : tag_start tag ≠ 0xFF) :
    decode_tag tag = none ∧ parse_nmf alloc buffer length c0 = .error .not_tag := by
  refine ⟨by simp only [decode_tag, hs, ne_eq, not_false_eq_true, if_true], ?_⟩
  rw [parse_nmf_reach alloc buffer length c0 n p c hreach]
  exact parse_from_error alloc buffer length p c _ hp (parse_iter_not_tag alloc buffer p c tag h31 htag hs)

/-- A word with kind 2 and size 2 whose low byte is 0xFE, met after a Header record. -/
theorem invalid_marker_witness :
    decode_tag 0x000202FE = none
    ∧ parse_nmf table_granted [0x000201FF, 0, 1, 0x000202FE, 0, 5] 6 blank = .error .not_tag :=
  invalid_marker table_granted [0x000201FF, 0, 1, 0x000202FE, 0, 5] 6 blank 1 3
    { header := { duration := 0, track_num := 1 }, tracks := some [none],
      index := { fp := 0, scale := 0, count := 0 } }
    0x000202FE (by decide) (by decide) (by decide) (by decide) (by decide)

/-! ## Claim C14: the empty cluster -/

theorem fread_words (fd : FILE) (ws : List Nat) (rest : List Byte) (hw : all_u32 ws)
    (h : fd.data.drop fd.pos = words_bytes ws ++ rest) :
    fread fd ws.length = (ws, { fd with pos := fd.pos + 4 * ws.length }) := by
  have hl : (fd.data.drop fd.pos).length = 4 * ws.length + rest.length := by
    rw [h, List.length_append, words_bytes_length]
  rw [List.length_drop] at hl
  unfold fread
  rw [h, bytes_words_exact ws hw rest, Nat.min_eq_left (by omega)]

/-- C14: for every 32-bit stamp, `write_nmf_cluster` applied to a cluster with `frame_num = 0`
(whatever its frame pointer refers to) emits exactly three words, the length word 2 followed by
the stamp and the frame count 0, and `read_nmf_cluster` applied to those three words returns,
with the file at its end, the cluster with the same stamp, `frame_num = 0` and no frames,
whatever the cluster passed in held. -/
theorem empty_cluster_roundtrip (stamp : Nat) (frames : List nmf_frames) (prior : nmf_cluster)
    (hs : stamp < 2 ^ 32) :
    write_nmf_cluster { data := [], pos := 0 }
        { header := { stamp := stamp, frame_num := 0 }, frames := frames }
      = .ok (eof_file (words_bytes [2, stamp, 0]))
    ∧ read_nmf_cluster (fseeko_set (eof_file (words_bytes [2, stamp, 0])) 0) prior
      = .ok (eof_file (words_bytes [2, stamp, 0]),
             { header := { stamp := stamp, frame_num := 0 }, frames := [] }) := by
  constructor
  · have h0 : ({ data := [], pos := 0 } : FILE) = eof_file [] := rfl
    simp only [write_nmf_cluster, length_of_frames, cluster_length_total, List.foldl_nil,
      write_frames, h0, fwrite_eof_file, List.nil_append, ← words_bytes_append,
      List.singleton_append]
  · have r1 := fread_one (fseeko_set (eof_file (words_bytes [2, stamp, 0])) 0) 2
      (words_bytes [stamp, 0]) (by decide) (by simp [fseeko_set, eof_file, words_bytes_cons])
    have r2 := fread_words
      { data := words_bytes [2, stamp, 0], pos := 0 + 4 } [stamp, 0] []
      (all_u32_cons _ _ hs (all_u32_cons _ _ (by decide) all_u32_nil))
      (by simp only [words_bytes_cons, List.append_assoc]; exact List.drop_left' rfl)
    have hp : fread_torn { data := words_bytes [2, stamp, 0], pos := 0 + 4 } 2 = false := by
      simp [fread_torn, words_bytes_length]
    simp only [fseeko_set, eof_file] at r1
    simp only [List.length_cons, List.length_nil] at r2
    simp only [read_nmf_cluster, fseeko_set, eof_file, r1, hp, r2, header_after_fread,
      read_frames]
    simp [words_bytes_length]

/-- The empty cluster with stamp 90000. -/
theorem empty_cluster_roundtrip_witness :
    write_nmf_cluster { data := [], pos := 0 }
        { header := { stamp := 90000, frame_num := 0 }, frames := [] }
      = .ok (eof_file (words_bytes [2, 90000, 0]))
    ∧ read_nmf_cluster (fseeko_set (eof_file (words_bytes [2, 90000, 0])) 0)
        { header := { stamp := 1, frame_num := 7 }, frames := [] }
      = .ok (eof_file (words_bytes [2, 90000, 0]),
             { header := { stamp := 90000, frame_num := 0 }, frames := [] }) :=
  empty_cluster_roundtrip 90000 [] { header := { stamp := 1, frame_num := 7 }, frames := [] }
    (by decide)

/-! ## Claim C19: the leading word count of a cluster -/

theorem fread_same_tail (a b : FILE) (n : Nat) (h : same_tail a b) :
    (fread a n).1 = (fread b n).1 ∧ same_tail (fread a n).2 (fread b n).2 := by
  obtain ⟨hp, hl, hd⟩ := h
  refine ⟨by simp only [fread, hd], ?_, hl, ?_⟩
  · simp only [fread, hp, hl]
  · simp only [fread]
    rw [← List.drop_drop, ← List.drop_drop, hd, hp, hl]

theorem fread_torn_same_tail (a b : FILE) (n : Nat) (h : same_tail a b) :
    fread_torn a n = fread_torn b n := by
  obtain ⟨hp, hl, _⟩ := h
  simp only [fread_torn, hp, hl]

theorem read_frames_same_tail (n : Nat) :
    ∀ (i : Nat) (a b : FILE), same_tail a b →
      (∃ e, read_frames n i a = .error e ∧ read_frames n i b = .error e)
      ∨ (∃ a2 b2 frames, read_frames n i a = .ok (a2, frames)
          ∧ read_frames n i b = .ok (b2, frames) ∧ same_tail a2 b2) := by
  induction n with
  | zero => intro i a b h; exact Or.inr ⟨a, b, [], rfl, rfl, h⟩
  | succ n ih =>
    intro i a b h
    obtain ⟨hw, ht⟩ := fread_same_tail a b 1 h
    simp only [read_frames]
    cases hra : fread a 1 with
    | mk wa a1 =>
      cases hrb : fread b 1 with
      | mk wb b1 =>
        rw [hra, hrb] at hw ht
        simp only at hw ht
        subst hw
        match wa with
        | [] => exact Or.inl ⟨.fault, rfl, rfl⟩
        | _ :: _ :: _ => exact Or.inl ⟨.fault, rfl, rfl⟩
        | [tag] =>
          simp only
          obtain ⟨hw2, ht2⟩ := fread_same_tail a1 b1 (frame_length_read tag) ht
          cases hra2 : fread a1 (frame_length_read tag) with
          | mk pa a2 =>
            cases hrb2 : fread b1 (frame_length_read tag) with
            | mk pb b2 =>
              rw [hra2, hrb2] at hw2 ht2
              simp only at hw2 ht2
              subst hw2
              simp only
              by_cases hi : 2 ^ 31 ≤ i + 1
              · rw [if_pos hi, if_pos hi]
                exact Or.inl ⟨.fault, rfl, rfl⟩
              · rw [if_neg hi, if_neg hi]
                rcases ih (i + 1) a2 b2 ht2 with ⟨e, he1, he2⟩ | ⟨a3, b3, fr, h1, h2, h3⟩
                · exact Or.inl ⟨e, by rw [he1], by rw [he2]⟩
                · exact Or.inr ⟨a3, b3, _, by rw [h1], by rw [h2], h3⟩

/-- C19: two streams that differ only in their first four bytes, the leading word count, give
the same result in `read_nmf_cluster`, whatever cluster is passed in: the same cluster (stamp,
`frame_num`, frame tags and payloads) with the file at the same position, or the same way of not
returning. -/
theorem leading_count_is_ignored (b1 b2 rest : List Byte) (prior : nmf_cluster)
    (h1 : b1.length = 4) (h2 : b2.length = 4) :
    observed (read_nmf_cluster { data := b1 ++ rest, pos := 0 } prior)
      = observed (read_nmf_cluster { data := b2 ++ rest, pos := 0 } prior) := by
  have h0 : same_tail (fread { data := b1 ++ rest, pos := 0 } 1).2
      (fread { data := b2 ++ rest, pos := 0 } 1).2 := by
    refine ⟨?_, ?_, ?_⟩
    · simp only [fread, List.length_append, h1, h2]
    · simp only [fread, List.length_append, h1, h2]
    · have e : ∀ b : List Byte, b.length = 4 →
          List.drop (0 + min (4 * 1) ((b ++ rest).length - 0)) (b ++ rest) = rest := by
        intro b hb
        rw [List.length_append, hb, Nat.min_eq_left (by omega)]
        exact List.drop_left' (by rw [hb])
      simp only [fread]
      rw [e b1 h1, e b2 h2]
  simp only [read_nmf_cluster]
  generalize (fread { data := b1 ++ rest, pos := 0 } 1).2 = a at h0
  generalize (fread { data := b2 ++ rest, pos := 0 } 1).2 = b at h0
  rw [fread_torn_same_tail a b 2 h0]
  cases fread_torn b 2 with
  | true => rfl
  | false =>
    simp only [Bool.false_eq_true, if_false]
    obtain ⟨hw, ht⟩ := fread_same_tail a b 2 h0
    cases hra : fread a 2 with
    | mk wa a1 =>
      cases hrb : fread b 2 with
      | mk wb b1 =>
        rw [hra, hrb] at hw ht
        simp only at hw ht
        subst hw
        simp only
        generalize header_after_fread wa prior.header = hdr
        rcases read_frames_same_tail hdr.frame_num 0 a1 b1 ht with
          ⟨e, he1, he2⟩ | ⟨a3, b3, fr, h1, h2, h3⟩
        · rw [he1, he2]
        · rw [h1, h2]
          simp only [observed, h3.1]

/-- Two streams with the same header and frame and leading counts 4 and 1000. -/
theorem leading_count_is_ignored_witness :
    observed (read_nmf_cluster
        { data := [4, 0, 0, 0] ++ words_bytes [5, 1, 0x00010000, 42], pos := 0 }
        { header := { stamp := 0, frame_num := 0 }, frames := [] })
      = observed (read_nmf_cluster
        { data := [0xE8, 3, 0, 0] ++ words_bytes [5, 1, 0x00010000, 42], pos := 0 }
        { header := { stamp := 0, frame_num := 0 }, frames := [] }) :=
  leading_count_is_ignored [4, 0, 0, 0] [0xE8, 3, 0, 0] (words_bytes [5, 1, 0x00010000, 42])
    { header := { stamp := 0, frame_num := 0 }, frames := [] } (by decide) (by decide)

/-! ## Claim C16: streams that end early -/

theorem bytes_words_nil (n : Nat) : bytes_words [] n = [] := by
  cases n <;> rfl

theorem fread_short (fd : FILE) (ws : List Nat) (n : Nat) (hw : all_u32 ws)
    (h : fd.data.drop fd.pos = words_bytes ws) (hn : ws.length ≤ n) :
    fread fd n = (ws, { fd with pos := fd.pos + 4 * ws.length }) := by
  have hl : (fd.data.drop fd.pos).length = 4 * ws.length := by
    rw [h, words_bytes_length]
  rw [List.length_drop] at hl
  have hb := bytes_words_words_bytes ws hw [] (n - ws.length)
  rw [List.append_nil, bytes_words_nil, List.append_nil,
    show ws.length + (n - ws.length) = n by omega] at hb
  unfold fread
  rw [h, hb, Nat.min_eq_right (by omega), hl]

theorem read_frames_exit (n : Nat) :
    ∀ (i : Nat) (fd : FILE) (e : nmf_exit), read_frames n i fd = .error e → e = .fault := by
  induction n with
  | zero => intro i fd e h; cases h
  | succ n ih =>
    intro i fd e h
    simp only [read_frames] at h
    split at h
    · split at h
      · simp only [Except.error.injEq] at h
        exact h.symm
      · split at h
        · rename_i e1 he
          simp only [Except.error.injEq] at h
          subst h
          exact ih _ _ _ he
        · cases h
    · simp only [Except.error.injEq] at h
      exact h.symm

theorem frames_words_cons (f : nmf_frames) (fs : List nmf_frames) :
    frames_words (f :: fs) = f.tag :: (f.payload ++ frames_words fs) := by
  simp [frames_words]

theorem all_u32_frames_words (fs : List nmf_frames) (h : ∀ f ∈ fs, frame_complete f) :
    all_u32 (frames_words fs) := by
  induction fs with
  | nil => exact all_u32_nil
  | cons f fs ih =>
    rw [frames_words_cons]
    obtain ⟨ht, hp, _⟩ := h f (List.mem_cons_self _ _)
    exact all_u32_cons _ _ ht
      (all_u32_append _ _ hp (ih fun x hx => h x (List.mem_cons_of_mem _ hx)))

/-- The loop of `read_nmf_cluster` over frames that are in the stream in full: they are read as
they are, and the loop goes on behind them. -/
theorem read_frames_complete (fs : List nmf_frames) :
    ∀ (m i : Nat) (fd : FILE) (rest : List Byte),
      (∀ f ∈ fs, frame_complete f) →
      fd.data.drop fd.pos = words_bytes (frames_words fs) ++ rest →
      i + fs.length < 2 ^ 31 →
      read_frames (fs.length + m) i fd
        = match read_frames m (i + fs.length)
            { fd with pos := fd.pos + 4 * (frames_words fs).length } with
          | .error e => .error e
          | .ok (fd2, fr) => .ok (fd2, fs ++ fr) := by
  induction fs with
  | nil =>
    intro m i fd rest _ _ _
    simp only [List.length_nil, Nat.zero_add, Nat.add_zero, frames_words, List.flatMap_nil,
      Nat.mul_zero, List.nil_append]
    cases read_frames m i fd with
    | error e => rfl
    | ok r => rfl
  | cons f fs ih =>
    intro m i fd rest hfs hdata h31
    obtain ⟨ht, hp, hl⟩ := hfs f (List.mem_cons_self _ _)
    rw [List.length_cons] at h31
    rw [frames_words_cons, words_bytes_cons, words_bytes_append, List.append_assoc,
      List.append_assoc] at hdata
    have r1 := fread_one fd f.tag _ ht hdata
    have hdata2 : ({ fd with pos := fd.pos + 4 } : FILE).data.drop
        ({ fd with pos := fd.pos + 4 } : FILE).pos
        = words_bytes f.payload ++ (words_bytes (frames_words fs) ++ rest) := by
      show fd.data.drop (fd.pos + 4) = _
      rw [← List.drop_drop, hdata]
      exact List.drop_left' (word_bytes_length _)
    have r2 := fread_words { fd with pos := fd.pos + 4 } f.payload _ hp hdata2
    rw [hl] at r2
    have hdata3 : ({ fd with pos := fd.pos + 4 + 4 * frame_length_read f.tag } : FILE).data.drop
        ({ fd with pos := fd.pos + 4 + 4 * frame_length_read f.tag } : FILE).pos
        = words_bytes (frames_words fs) ++ rest := by
      show fd.data.drop (fd.pos + 4 + 4 * frame_length_read f.tag) = _
      rw [← List.drop_drop, ← List.drop_drop, hdata]
      rw [List.drop_left' (word_bytes_length _)]
      exact List.drop_left' (by rw [words_bytes_length, hl])
    have hih := ih m (i + 1) { fd with pos := fd.pos + 4 + 4 * frame_length_read f.tag } rest
      (fun x hx => hfs x (List.mem_cons_of_mem _ hx)) hdata3 (by omega)
    have hi : ¬ 2 ^ 31 ≤ i + 1 := by omega
    rw [show (f :: fs).length + m = (fs.length + m) + 1 by rw [List.length_cons]; omega]
    simp only [read_frames, r1, r2, hi, if_false, hih]
    have hpos : fd.pos + 4 + 4 * frame_length_read f.tag + 4 * (frames_words fs).length
        = fd.pos + 4 * (frames_words (f :: fs)).length := by
      rw [frames_words_cons, List.length_cons, List.length_append, hl]
      omega
    have hidx : i + 1 + fs.length = i + (f :: fs).length := by
      rw [List.length_cons]; omega
    rw [hpos, hidx]
    cases read_frames m (i + (f :: fs).length)
        { fd with pos := fd.pos + 4 * (frames_words (f :: fs)).length } with
    | error e => rfl
    | ok r => rfl

/-- C16 (as stated, refuted): on a stream that holds the leading word, the two header words
announcing one frame, a frame tag announcing two payload words and only one payload word,
`read_nmf_cluster` returns a cluster whose frame has that one word; it does not fail. -/
theorem short_payload_is_returned :
    read_nmf_cluster { data := words_bytes [4, 5, 1, 0x00020000, 9], pos := 0 }
        { header := { stamp := 0, frame_num := 0 }, frames := [] }
      = .ok ({ data := words_bytes [4, 5, 1, 0x00020000, 9], pos := 20 },
             { header := { stamp := 5, frame_num := 1 },
               frames := [{ tag := 0x00020000, payload := [9] }] }) := by
  decide

/-- C16 (amended): `read_nmf_cluster` has no exit at all, so a stream that ends early never
makes it fail with a short-read error: the only way the model does not return is the use of a
value that was never read. When the stream ends inside the payload of the last announced frame,
after any number of frames read in full, the call returns the cluster with that payload cut to
the words read. When the stream ends right after the leading word, or right after the stamp,
and the cluster passed in has `frame_num = 0`, the call returns with the header words it did
not read kept from the caller's cluster and no frames. -/
theorem short_read_is_not_detected :
    (∀ (fd : FILE) (content : nmf_cluster) (e : nmf_exit),
        read_nmf_cluster fd content = .error e → e = .fault)
    ∧ (∀ (lead stamp : Nat) (fs : List nmf_frames) (tag : Nat) (pl : List Nat)
        (content : nmf_cluster),
        lead < 2 ^ 32 → stamp < 2 ^ 32 → (∀ f ∈ fs, frame_complete f) → tag < 2 ^ 32 →
        all_u32 pl → pl.length < frame_length_read tag → fs.length + 1 < 2 ^ 31 →
        read_nmf_cluster
            { data := words_bytes ([lead, stamp, fs.length + 1] ++ (frames_words fs ++ tag :: pl)),
              pos := 0 } content
          = .ok (eof_file
                  (words_bytes ([lead, stamp, fs.length + 1] ++ (frames_words fs ++ tag :: pl))),
                 { header := { stamp := stamp, frame_num := fs.length + 1 },
                   frames := fs ++ [{ tag := tag, payload := pl }] }))
    ∧ (∀ (lead : Nat) (content : nmf_cluster), lead < 2 ^ 32 → content.header.frame_num = 0 →
        read_nmf_cluster { data := words_bytes [lead], pos := 0 } content
          = .ok (eof_file (words_bytes [lead]), { header := content.header, frames := [] }))
    ∧ (∀ (lead stamp : Nat) (content : nmf_cluster), lead < 2 ^ 32 → stamp < 2 ^ 32 →
        content.header.frame_num = 0 →
        read_nmf_cluster { data := words_bytes [lead, stamp], pos := 0 } content
          = .ok (eof_file (words_bytes [lead, stamp]),
                 { header := { stamp := stamp, frame_num := 0 }, frames := [] })) := by
  refine ⟨?_, ?_, ?_, ?_⟩
  · intro fd content e h
    simp only [read_nmf_cluster] at h
    split at h
    · simp only [Except.error.injEq] at h; exact h.symm
    · split at h
      · rename_i e1 he
        simp only [Except.error.injEq] at h
        subst h
        exact read_frames_exit _ _ _ _ he
      · cases h
  · intro lead stamp fs tag pl content hlead hstamp hfs htag hpl hshort h31
    have r1 := fread_one
      { data := words_bytes ([lead, stamp, fs.length + 1] ++ (frames_words fs ++ tag :: pl)),
        pos := 0 } lead
      (words_bytes ([stamp, fs.length + 1] ++ (frames_words fs ++ tag :: pl))) hlead
      (by simp [words_bytes_cons])
    have hp : fread_torn
        { data := words_bytes ([lead, stamp, fs.length + 1] ++ (frames_words fs ++ tag :: pl)),
          pos := 0 + 4 } 2 = false := by
      simp [fread_torn, words_bytes_length]
      omega
    have r2 := fread_words
      { data := words_bytes ([lead, stamp, fs.length + 1] ++ (frames_words fs ++ tag :: pl)),
        pos := 0 + 4 }
      [stamp, fs.length + 1] (words_bytes (frames_words fs ++ tag :: pl))
      (all_u32_cons _ _ hstamp (all_u32_cons _ _ (by omega) all_u32_nil))
      (by simp only [List.cons_append, List.nil_append, words_bytes_cons, List.append_assoc]
          exact List.drop_left' rfl)
    simp only [List.length_cons, List.length_nil] at r2
    have hdata : List.drop (0 + 4 + 4 * (0 + 1 + 1))
          (words_bytes ([lead, stamp, fs.length + 1] ++ (frames_words fs ++ tag :: pl)))
        = words_bytes (frames_words fs) ++ words_bytes (tag :: pl) := by
      simp only [List.cons_append, List.nil_append, words_bytes_cons, words_bytes_append]
      rw [← List.append_assoc, ← List.append_assoc]
      exact List.drop_left' rfl
    have r3 := read_frames_complete fs 1 0
      { data := words_bytes ([lead, stamp, fs.length + 1] ++ (frames_words fs ++ tag :: pl)),
        pos := 0 + 4 + 4 * (0 + 1 + 1) } (words_bytes (tag :: pl)) hfs hdata (by omega)
    have hdata2 : List.drop (0 + 4 + 4 * (0 + 1 + 1) + 4 * (frames_words fs).length)
          (words_bytes ([lead, stamp, fs.length + 1] ++ (frames_words fs ++ tag :: pl)))
        = word_bytes tag ++ words_bytes pl := by
      rw [← List.drop_drop, hdata]
      rw [List.drop_left' (by rw [words_bytes_length]), words_bytes_cons]
    have r4 := fread_one
      { data := words_bytes ([lead, stamp, fs.length + 1] ++ (frames_words fs ++ tag :: pl)),
        pos := 0 + 4 + 4 * (0 + 1 + 1) + 4 * (frames_words fs).length } tag (words_bytes pl) htag
      hdata2
    have r5 := fread_short
      { data := words_bytes ([lead, stamp, fs.length + 1] ++ (frames_words fs ++ tag :: pl)),
        pos := 0 + 4 + 4 * (0 + 1 + 1) + 4 * (frames_words fs).length + 4 } pl
      (frame_length_read tag) hpl
      (by show List.drop _ (words_bytes _) = _
          rw [← List.drop_drop, hdata2]
          exact List.drop_left' (word_bytes_length _))
      (Nat.le_of_lt hshort)
    have hi : ¬ 2 ^ 31 ≤ 0 + fs.length + 1 := by omega
    have hlast : read_frames 1 (0 + fs.length)
        { data := words_bytes ([lead, stamp, fs.length + 1] ++ (frames_words fs ++ tag :: pl)),
          pos := 0 + 4 + 4 * (0 + 1 + 1) + 4 * (frames_words fs).length }
        = .ok ({ data := words_bytes
                  ([lead, stamp, fs.length + 1] ++ (frames_words fs ++ tag :: pl)),
                 pos := 0 + 4 + 4 * (0 + 1 + 1) + 4 * (frames_words fs).length + 4
                    + 4 * pl.length },
               [{ tag := tag, payload := pl }]) := by
      simp only [read_frames, r4, r5, hi, if_false]
    rw [hlast] at r3
    simp only [read_nmf_cluster, r1, hp, r2, header_after_fread, r3, Bool.false_eq_true,
      if_false, eof_file]
    simp [words_bytes_length]
    omega
  · intro lead content hlead h0
    have r1 := fread_one { data := words_bytes [lead], pos := 0 } lead [] hlead
      (by simp [words_bytes_cons, words_bytes_nil])
    have hp : fread_torn { data := words_bytes [lead], pos := 0 + 4 } 2 = false := by
      simp [fread_torn, words_bytes_length]
    have r2 := fread_short { data := words_bytes [lead], pos := 0 + 4 } [] 2 all_u32_nil
      (by simp only [words_bytes_cons, words_bytes_nil, List.append_nil]
          rfl)
      (by simp)
    simp only [List.length_nil, Nat.mul_zero, Nat.add_zero] at r2
    simp only [read_nmf_cluster, r1, hp, r2, header_after_fread, h0, read_frames,
      Bool.false_eq_true, if_false, eof_file]
    simp [words_bytes_length]
  · intro lead stamp content hlead hstamp h0
    have r1 := fread_one { data := words_bytes [lead, stamp], pos := 0 } lead
      (words_bytes [stamp]) hlead (by simp [words_bytes_cons])
    have hp : fread_torn { data := words_bytes [lead, stamp], pos := 0 + 4 } 2 = false := by
      simp [fread_torn, words_bytes_length]
    have r2 := fread_short { data := words_bytes [lead, stamp], pos := 0 + 4 } [stamp] 2
      (all_u32_cons _ _ hstamp all_u32_nil)
      (by simp only [words_bytes_cons, words_bytes_nil, List.append_nil]
          exact List.drop_left' rfl)
      (by simp)
    simp only [List.length_cons, List.length_nil] at r2
    simp only [read_nmf_cluster, r1, hp, r2, header_after_fread, h0, read_frames,
      Bool.false_eq_true, if_false, eof_file]
    simp [words_bytes_length]

/-- One frame read in full and a second one announcing three payload words in a stream that
holds two of them. -/
theorem short_read_is_not_detected_witness :
    read_nmf_cluster
        { data := words_bytes ([6, 5, 1 + 1] ++ (frames_words [{ tag := 0x00010000, payload := [4] }]
            ++ 0x00030000 :: [7, 8])), pos := 0 }
        { header := { stamp := 0, frame_num := 0 }, frames := [] }
      = .ok (eof_file (words_bytes ([6, 5, 1 + 1]
              ++ (frames_words [{ tag := 0x00010000, payload := [4] }] ++ 0x00030000 :: [7, 8]))),
             { header := { stamp := 5, frame_num := 1 + 1 },
               frames := [{ tag := 0x00010000, payload := [4] }]
                 ++ [{ tag := 0x00030000, payload := [7, 8] }] }) :=
  short_read_is_not_detected.2.1 6 5 [{ tag := 0x00010000, payload := [4] }] 0x00030000 [7, 8]
    { header := { stamp := 0, frame_num := 0 }, frames := [] }
    (by decide) (by decide) (by decide) (by decide) (by decide) (by decide) (by decide)

/-! ## Claim C20: the two frame lengths -/

theorem frame_length_read_eq (t : Nat) : frame_length_read t = t % 4294967296 / 65536 := by
  unfold frame_length_read; rw [shr_16]; norm_num

theorem frame_length_write_eq (t : Nat) :
    frame_length_write t = (t % 4294967296 / 256 + 3) / 4 := by
  unfold frame_length_write; rw [shr_8]; norm_num
  omega

theorem bytes_words_length_le (bs : List Byte) (n : Nat) : (bytes_words bs n).length ≤ n := by
  induction n generalizing bs with
  | zero => rw [bytes_words_zero]; exact Nat.le_refl _
  | succ n ih =>
    match bs with
    | b0 :: b1 :: b2 :: b3 :: rest =>
      simp only [bytes_words, List.length_cons]
      exact Nat.succ_le_succ (ih rest)
    | [] => simp [bytes_words]
    | [_] => simp [bytes_words]
    | [_, _] => simp [bytes_words]
    | [_, _, _] => simp [bytes_words]

theorem bytes_words_u32 (bs : List Byte) (n : Nat) : all_u32 (bytes_words bs n) := by
  induction n generalizing bs with
  | zero => rw [bytes_words_zero]; exact all_u32_nil
  | succ n ih =>
    match bs with
    | b0 :: b1 :: b2 :: b3 :: rest =>
      simp only [bytes_words]
      exact all_u32_cons _ _ (bytes_word_lt b0 b1 b2 b3) (ih rest)
    | [] => simp only [bytes_words]; exact all_u32_nil
    | [_] => simp only [bytes_words]; exact all_u32_nil
    | [_, _] => simp only [bytes_words]; exact all_u32_nil
    | [_, _, _] => simp only [bytes_words]; exact all_u32_nil

theorem read_frames_ok (n : Nat) :
    ∀ (i : Nat) (fd fd2 : FILE) (frames : List nmf_frames),
      read_frames n i fd = .ok (fd2, frames) →
      frames.length = n
        ∧ ∀ f ∈ frames, f.tag < 2 ^ 32 ∧ f.payload.length ≤ frame_length_read f.tag := by
  induction n with
  | zero =>
    intro i fd fd2 frames h
    simp only [read_frames, Except.ok.injEq, Prod.mk.injEq] at h
    rw [← h.2]
    exact ⟨rfl, fun f hf => absurd hf (List.not_mem_nil _)⟩
  | succ n ih =>
    intro i fd fd2 frames h
    simp only [read_frames] at h
    split at h
    · rename_i tag fd1 hr
      split at h
      · cases h
      · split at h
        · cases h
        · rename_i fd3 fr hrest
          simp only [Except.ok.injEq, Prod.mk.injEq] at h
          obtain ⟨hl, hall⟩ := ih _ _ _ _ hrest
          rw [← h.2]
          refine ⟨by rw [List.length_cons, hl], ?_⟩
          intro f hf
          rcases List.mem_cons.mp hf with rfl | hf
          · refine ⟨?_, ?_⟩
            · have hu := bytes_words_u32 (fd.data.drop fd.pos) 1
              have hw : (fread fd 1).1 = [tag] := by rw [hr]
              simp only [fread] at hw
              rw [hw] at hu
              exact hu tag (List.mem_singleton_self tag)
            · simp only [fread]
              exact bytes_words_length_le _ _
          · exact hall f hf
    · cases h

theorem length_of_frames_ok (frames : List nmf_frames) (n : Nat) :
    ∀ (i : Nat) (ls : List Nat), length_of_frames frames n i = .ok ls →
      ∀ j, j < n → ∃ f, frames[i + j]? = some f ∧ ls[j]? = some (frame_length_write f.tag) := by
  induction n with
  | zero => intro i ls _ j hj; omega
  | succ n ih =>
    intro i ls h j hj
    simp only [length_of_frames] at h
    split at h
    · rename_i f hf
      split at h
      · cases h
      · split at h
        · cases h
        · rename_i ls1 hrest
          simp only [Except.ok.injEq] at h
          subst h
          cases j with
          | zero => exact ⟨f, by simpa using hf, by simp⟩
          | succ j =>
            obtain ⟨g, hg, hl⟩ := ih (i + 1) ls1 hrest j (by omega)
            exact ⟨g, by rw [← hg]; congr 1; omega, by simpa using hl⟩
    · cases h

theorem write_frames_ok (frames : List nmf_frames) (ls : List Nat) :
    ∀ (i : Nat) (fd fd2 : FILE), write_frames frames ls i fd = .ok fd2 →
      ∀ j l, ls[j]? = some l → ∃ f, frames[i + j]? = some f ∧ l ≤ f.payload.length := by
  induction ls with
  | nil => intro i fd fd2 _ j l hl; simp at hl
  | cons l0 ls ih =>
    intro i fd fd2 h j l hl
    simp only [write_frames] at h
    split at h
    · rename_i f hf
      split at h
      · cases h
      · rename_i hlen
        cases j with
        | zero =>
          simp only [List.getElem?_cons_zero, Option.some.injEq] at hl
          subst hl
          exact ⟨f, by simpa using hf, Nat.le_of_not_lt hlen⟩
        | succ j =>
          simp only [List.getElem?_cons_succ] at hl
          split at h
          · cases h
          · obtain ⟨g, hg, hle⟩ := ih (i + 1) _ fd2 h j l hl
            exact ⟨g, by rw [← hg]; congr 1; omega, hle⟩
    · cases h

/-- C20: for every 32-bit frame tag the payload length of the read side, `t >> 16`, equals that
of the write side, `((t >> 8) + 3) / 4`, if and only if the upper 24 bits of the tag are zero,
and for every other tag the write side is strictly greater. Hence no cluster that holds a frame
with a payload (an array that is not empty, or a tag for which the writer emits payload words)
is reproduced: whatever `write_nmf_cluster` wrote for it on an empty file, `read_nmf_cluster`
on that file does not return the original cluster. -/
theorem frame_length_mismatch :
    (∀ t : Nat, t < 2 ^ 32 → (frame_length_read t = frame_length_write t ↔ t >>> 8 = 0))
    ∧ (∀ t : Nat, t < 2 ^ 32 → t >>> 8 ≠ 0 → frame_length_read t < frame_length_write t)
    ∧ (∀ (content prior : nmf_cluster) (fd fd2 : FILE),
        (∃ f ∈ content.frames, f.payload ≠ [] ∨ frame_length_write f.tag ≠ 0) →
        write_nmf_cluster { data := [], pos := 0 } content = .ok fd →
        read_nmf_cluster (fseeko_set fd 0) prior ≠ .ok (fd2, content)) := by
  refine ⟨?_, ?_, ?_⟩
  · intro t ht
    rw [frame_length_read_eq, frame_length_write_eq, shr_8]
    omega
  · intro t ht hne
    rw [shr_8] at hne
    rw [frame_length_read_eq, frame_length_write_eq]
    omega
  · intro content prior fd fd2 hex hw hr
    obtain ⟨f, hf, hpay⟩ := hex
    -- what the reader guarantees about the cluster it returns
    have hread : content.frames.length = content.header.frame_num
        ∧ ∀ g ∈ content.frames, g.tag < 2 ^ 32 ∧ g.payload.length ≤ frame_length_read g.tag := by
      simp only [read_nmf_cluster] at hr
      split at hr
      · cases hr
      · split at hr
        · cases hr
        · rename_i fd3 fr hrest
          simp only [Except.ok.injEq, Prod.mk.injEq] at hr
          obtain ⟨hl, hall⟩ := read_frames_ok _ _ _ _ _ hrest
          rw [← hr.2]
          exact ⟨hl, hall⟩
    -- what the writer needed from the cluster it wrote
    obtain ⟨j, hj, hfj⟩ := List.getElem_of_mem hf
    simp only [write_nmf_cluster] at hw
    split at hw
    · cases hw
    · rename_i ls hls
      obtain ⟨g, hg, hlj⟩ := length_of_frames_ok _ _ 0 ls hls j (by rw [← hread.1]; exact hj)
      obtain ⟨g2, hg2, hle⟩ := write_frames_ok _ ls 0 _ fd hw j _ hlj
      rw [Nat.zero_add, List.getElem?_eq_getElem hj, hfj] at hg hg2
      simp only [Option.some.injEq] at hg hg2
      subst hg
      subst hg2
      obtain ⟨ht, hrd⟩ := hread.2 f hf
      have hr1 := frame_length_read_eq f.tag
      have hw1 := frame_length_write_eq f.tag
      have hlen : f.payload.length = 0 ∧ frame_length_write f.tag = 0 := by omega
      rcases hpay with hp | hp
      · exact hp (List.length_eq_zero.mp hlen.1)
      · exact hp hlen.2

/-- The tag with byte count 4 in its upper 24 bits, and a cluster with one frame of that tag. -/
theorem frame_length_mismatch_witness :
    frame_length_read 0x00000400 < frame_length_write 0x00000400
    ∧ read_nmf_cluster
        (fseeko_set { data := words_bytes [4, 5, 1, 0x00000400, 42], pos := 20 } 0)
        { header := { stamp := 0, frame_num := 0 }, frames := [] }
      ≠ .ok ({ data := words_bytes [4, 5, 1, 0x00000400, 42], pos := 16 },
             { header := { stamp := 5, frame_num := 1 },
               frames := [{ tag := 0x00000400, payload := [42] }] }) :=
  ⟨frame_length_mismatch.2.1 0x00000400 (by decide) (by decide),
   frame_length_mismatch.2.2
    { header := { stamp := 5, frame_num := 1 }, frames := [{ tag := 0x00000400, payload := [42] }] }
    { header := { stamp := 0, frame_num := 0 }, frames := [] }
    { data := words_bytes [4, 5, 1, 0x00000400, 42], pos := 20 }
    { data := words_bytes [4, 5, 1, 0x00000400, 42], pos := 16 }
    ⟨_, List.mem_singleton_self _, Or.inl (by decide)⟩ (by decide)⟩

/-! ## Claim C13: one frame length for both directions -/

/-- C13 (the code at the failing input): for the frame tag `0x00000400` the writer derives one
payload word and the reader none; `write_nmf_cluster` writes the cluster with one frame of that
tag and payload `[42]` as five words, and `read_nmf_cluster` on those words returns, with the
file four bytes before its end, a cluster whose frame has the tag and an empty payload. -/
theorem cluster_roundtrip_loses_payload :
    frame_length_write 0x00000400 = 1 ∧ frame_length_read 0x00000400 = 0
    ∧ write_nmf_cluster { data := [], pos := 0 }
        { header := { stamp := 5, frame_num := 1 },
          frames := [{ tag := 0x00000400, payload := [42] }] }
      = .ok { data := words_bytes [4, 5, 1, 0x00000400, 42], pos := 20 }
    ∧ read_nmf_cluster { data := words_bytes [4, 5, 1, 0x00000400, 42], pos := 0 }
        { header := { stamp := 0, frame_num := 0 }, frames := [] }
      = .ok ({ data := words_bytes [4, 5, 1, 0x00000400, 42], pos := 16 },
             { header := { stamp := 5, frame_num := 1 },
               frames := [{ tag := 0x00000400, payload := [] }] }) := by
  decide

/-! ## Claim C15: the size fields of written records -/

theorem records_flat_written (c : nmf_container) (ts : List nmf_track) :
    records_flat (written_records c ts) = records_words c ts := by
  simp only [records_flat, written_records, records_words, tracks_words, List.flatMap_cons,
    List.flatMap_append, List.flatMap_nil, List.append_nil, List.flatMap_map, List.cons_append,
    List.nil_append]

theorem long_holds (n : Nat) : holds (long_container n) [long_track n] := by
  refine ⟨rfl, rfl, ?_⟩
  intro t ht
  rw [List.mem_singleton] at ht
  subst ht
  show n ≤ (List.replicate n 0).length
  rw [List.length_replicate]

theorem long_track_record (n : Nat) :
    (make_tag NMF_TRACK ((2 + n) % 2 ^ 32),
      track_header_words (long_track n).header ++ (long_track n).payload.take (long_track n).length)
      ∈ written_records (long_container n) [long_track n]
    ∧ (track_header_words (long_track n).header
        ++ (long_track n).payload.take (long_track n).length).length = 2 + n := by
  constructor
  · simp [written_records, long_track]
  · simp [long_track, track_header_words]
    omega

theorem written_data (c : nmf_container) (ts : List nmf_track) (h : holds c ts)
    (hn : ts.length < 2 ^ 31) :
    ∃ fd pos, write_nmf { data := [], pos := 0 } c = .ok (fd, pos)
      ∧ fd = eof_file (words_bytes (NMF_MAGIC_NUM
          :: (7 + (ts.map fun t => 3 + t.length).sum) % 2 ^ 32
          :: records_flat (written_records c ts))) := by
  refine ⟨_, _, write_nmf_words c ts h hn, ?_⟩
  rw [container_words_eq, records_flat_written, length_total_eq ts 7 (by norm_num)]

/-- C15 (as stated, refuted): for the container whose single track has 65534 payload words,
`write_nmf` writes a Track record whose tag has the size field 0 and whose payload is 65536
words (the two words of the track header and the 65534 payload words). -/
theorem size_field_wraps :
    ∃ fd pos, write_nmf { data := [], pos := 0 } (long_container 65534) = .ok (fd, pos)
      ∧ fd.data = words_bytes (NMF_MAGIC_NUM :: 65544
          :: records_flat (written_records (long_container 65534) [long_track 65534]))
      ∧ ∃ r ∈ written_records (long_container 65534) [long_track 65534],
          tag_id r.1 = NMF_TRACK ∧ tag_size r.1 = 0 ∧ r.2.length = 65536 := by
  obtain ⟨fd, pos, hw, hfd⟩ := written_data (long_container 65534) [long_track 65534]
    (long_holds 65534) (by rw [List.length_singleton]; decide)
  refine ⟨fd, pos, hw, ?_, _, (long_track_record 65534).1, tag_id_make_tag _ _ (by decide), ?_,
    (long_track_record 65534).2⟩
  · rw [hfd]
    show words_bytes (NMF_MAGIC_NUM :: (7 + (3 + 65534 + 0)) % 2 ^ 32 :: _) = _
    norm_num
  · rw [tag_size_make_tag _ _ (by decide)]
    norm_num

/-- C15 (amended): for every container whose table holds `track_num` tracks, fewer than `2 ^ 31`
of them (the loops of `write_nmf` count them in an `int`), with payloads of at most 65533 words,
the output of `write_nmf` is the magic, the declared total and the records in order, the size
field of every record's tag equals the number of payload words written for that record (2 for
the header, 2 + payload length for each track, 3 for the index), and the declared total is the
sum of `1 + size field` over the written records reduced modulo `2 ^ 32`: the sum itself
whenever it is below `2 ^ 32`. -/
theorem size_fields_exact (c : nmf_container) (ts : List nmf_track) (h : holds c ts)
    (hn : ts.length < 2 ^ 31) (hfit : ∀ t ∈ ts, t.length ≤ 65533) :
    ∃ fd pos total, write_nmf { data := [], pos := 0 } c = .ok (fd, pos)
      ∧ fd.data = words_bytes (NMF_MAGIC_NUM :: total :: records_flat (written_records c ts))
      ∧ (∀ r ∈ written_records c ts, tag_size r.1 = r.2.length)
      ∧ total = ((written_records c ts).map fun r => 1 + tag_size r.1).sum % 2 ^ 32
      ∧ (((written_records c ts).map fun r => 1 + tag_size r.1).sum < 2 ^ 32 →
          total = ((written_records c ts).map fun r => 1 + tag_size r.1).sum) := by
  obtain ⟨fd, pos, hw, hfd⟩ := written_data c ts h hn
  have hsz : ∀ t ∈ ts, tag_size (make_tag NMF_TRACK ((2 + t.length) % 2 ^ 32)) = 2 + t.length := by
    intro t ht
    have := hfit t ht
    rw [tag_size_make_tag _ _ (by decide)]
    omega
  have hsum : ((written_records c ts).map fun r => 1 + tag_size r.1).sum
      = 7 + (ts.map fun t => 3 + t.length).sum := by
    simp only [written_records, List.map_cons, List.map_append, List.map_map, List.sum_cons,
      List.sum_append, List.map_nil, List.sum_nil, tag_size_make_tag NMF_HEADER 2 (by decide),
      tag_size_make_tag NMF_INDEX 3 (by decide)]
    have : (ts.map ((fun r : Nat × List Nat => 1 + tag_size r.1) ∘ fun t =>
        (make_tag NMF_TRACK ((2 + t.length) % 2 ^ 32),
          track_header_words t.header ++ t.payload.take t.length)))
        = ts.map fun t => 3 + t.length := by
      apply List.map_congr_left
      intro t ht
      simp only [Function.comp, hsz t ht]
      omega
    rw [this]
    omega
  refine ⟨fd, pos, _, hw, by rw [hfd]; rfl, ?_, by rw [hsum], ?_⟩
  · intro r hr
    simp only [written_records, List.mem_cons, List.mem_append, List.mem_map,
      List.mem_singleton, List.mem_nil_iff, or_false] at hr
    rcases hr with (rfl | ⟨t, ht, rfl⟩) | rfl
    · rw [tag_size_make_tag _ _ (by decide)]; rfl
    · have hl := h.2.2 t ht
      rw [hsz t ht]
      simp [track_header_words, Nat.min_eq_left hl]
      omega
    · rw [tag_size_make_tag _ _ (by decide)]; rfl
  · intro hlt
    rw [hsum] at hlt ⊢
    exact Nat.mod_eq_of_lt hlt

/-- The size fields and the declared total of the container with two tracks. -/
theorem size_fields_exact_witness :
    ∃ fd pos total, write_nmf { data := [], pos := 0 } sample = .ok (fd, pos)
      ∧ fd.data = words_bytes (NMF_MAGIC_NUM :: total
          :: records_flat (written_records sample (container_tracks sample)))
      ∧ (∀ r ∈ written_records sample (container_tracks sample), tag_size r.1 = r.2.length)
      ∧ total = ((written_records sample (container_tracks sample)).map
          fun r => 1 + tag_size r.1).sum % 2 ^ 32
      ∧ (((written_records sample (container_tracks sample)).map
            fun r => 1 + tag_size r.1).sum < 2 ^ 32 →
          total = ((written_records sample (container_tracks sample)).map
            fun r => 1 + tag_size r.1).sum) :=
  size_fields_exact sample (container_tracks sample) (by decide) (by decide) (by decide)

/-! ## Claim C17: the layout of a written container -/

theorem make_tag_mod (kind n : Nat) : make_tag kind (n % 2 ^ 32) = make_tag kind n := by
  rw [make_tag_eq, make_tag_eq]
  omega

theorem decode_make_tag (k s : Nat) (hk : k < 256) :
    decode_tag (make_tag k s) = some (k, s % 65536) := by
  simp only [decode_tag, tag_start_make_tag, tag_id_make_tag k s hk, tag_size_make_tag k s hk,
    ne_eq, not_true_eq_false, if_false]

theorem long_track_length (n : Nat) : (long_track n).length = n := rfl

theorem written_layout (c : nmf_container) (ts : List nmf_track) (h : holds c ts)
    (hn : ts.length < 2 ^ 31) :
    ∃ fd pos, write_nmf { data := [], pos := 0 } c = .ok (fd, pos)
      ∧ fd.data = words_bytes (
          [NMF_MAGIC_NUM, (7 + (ts.map fun t => 3 + t.length).sum) % 2 ^ 32,
            make_tag NMF_HEADER 2, c.header.duration, c.header.track_num]
          ++ (ts.flatMap fun t =>
                make_tag NMF_TRACK (2 + t.length)
                  :: (track_header_words t.header ++ t.payload.take t.length))
          ++ [make_tag NMF_INDEX 3, c.index.fp, c.index.scale, c.index.count]) := by
  refine ⟨_, _, write_nmf_words c ts h hn, ?_⟩
  simp only [eof_file, container_words, tracks_words, make_tag_mod,
    length_total_eq ts 7 (by norm_num)]

/-- C17 (as stated, refuted): for the container whose single track has 65535 payload words, the
Track tag that `write_nmf` emits decodes to kind 2 and size 1, not to size 2 + 65535. -/
theorem track_tag_size_wraps :
    ∃ fd pos, write_nmf { data := [], pos := 0 } (long_container 65535) = .ok (fd, pos)
      ∧ fd.data = words_bytes (
          [NMF_MAGIC_NUM, 65545, make_tag NMF_HEADER 2, 0, 1]
          ++ (make_tag NMF_TRACK (2 + 65535)
              :: (track_header_words (long_track 65535).header
                  ++ (long_track 65535).payload.take 65535))
          ++ [make_tag NMF_INDEX 3, 0, 1000000, 0])
      ∧ decode_tag (make_tag NMF_TRACK (2 + 65535)) = some (NMF_TRACK, 1)
      ∧ decode_tag (make_tag NMF_TRACK (2 + 65535)) ≠ some (NMF_TRACK, 2 + 65535) := by
  obtain ⟨fd, pos, hw, hd⟩ := written_layout (long_container 65535) [long_track 65535]
    (long_holds 65535) (by rw [List.length_singleton]; decide)
  have hdec : decode_tag (make_tag NMF_TRACK (2 + 65535)) = some (NMF_TRACK, 1) := by
    rw [decode_make_tag _ _ (by decide)]
  refine ⟨fd, pos, hw, ?_, hdec, by rw [hdec]; decide⟩
  rw [hd]
  simp only [List.flatMap_cons, List.flatMap_nil, List.append_nil, List.map_cons, List.map_nil,
    List.sum_cons, List.sum_nil, long_track_length, long_container]
  norm_num

/-- C17 (amended): for every container whose table holds `track_num` tracks, fewer than `2 ^ 31`
of them (the loops of `write_nmf` count them in an `int`), the bytes that `write_nmf` produces
on an empty file are those of the words: the magic `0x46454D4E`, the total
word count, the Header tag (marker 0xFF, kind 1, size 2) and its two payload words, then for each
table slot in increasing order the Track tag, the two words of the track header and the payload
words, and last the Index tag (marker 0xFF, kind 3, size 3) followed by `fp`, `scale`, `count`.
The Track tag has marker 0xFF, kind 2 and as size field `2 + payload length` reduced modulo
65536: `2 + payload length` itself for a payload of at most 65533 words. -/
theorem container_layout (c : nmf_container) (ts : List nmf_track) (h : holds c ts)
    (hn : ts.length < 2 ^ 31) :
    ∃ fd pos, write_nmf { data := [], pos := 0 } c = .ok (fd, pos)
      ∧ fd.data = words_bytes (
          [NMF_MAGIC_NUM, (7 + (ts.map fun t => 3 + t.length).sum) % 2 ^ 32,
            make_tag NMF_HEADER 2, c.header.duration, c.header.track_num]
          ++ (ts.flatMap fun t =>
                make_tag NMF_TRACK (2 + t.length)
                  :: (track_header_words t.header ++ t.payload.take t.length))
          ++ [make_tag NMF_INDEX 3, c.index.fp, c.index.scale, c.index.count])
      ∧ decode_tag (make_tag NMF_HEADER 2) = some (NMF_HEADER, 2)
      ∧ decode_tag (make_tag NMF_INDEX 3) = some (NMF_INDEX, 3)
      ∧ ∀ t ∈ ts,
          decode_tag (make_tag NMF_TRACK (2 + t.length)) = some (NMF_TRACK, (2 + t.length) % 65536)
          ∧ (t.length ≤ 65533 →
              decode_tag (make_tag NMF_TRACK (2 + t.length)) = some (NMF_TRACK, 2 + t.length)) := by
  obtain ⟨fd, pos, hw, hd⟩ := written_layout c ts h hn
  refine ⟨fd, pos, hw, hd, decode_make_tag _ _ (by decide), decode_make_tag _ _ (by decide), ?_⟩
  intro t _
  refine ⟨decode_make_tag _ _ (by decide), ?_⟩
  intro hl
  rw [decode_make_tag _ _ (by decide), Nat.mod_eq_of_lt (by omega)]

/-- The layout of the container with two tracks. -/
theorem container_layout_witness :
    ∃ fd pos, write_nmf { data := [], pos := 0 } sample = .ok (fd, pos)
      ∧ fd.data = words_bytes (
          [NMF_MAGIC_NUM, 16, 0x000201FF, 0x40A00000, 2]
          ++ ([0x000502FF, 0x0100, 0x47504A4D, 1, 2, 0xFFFFFFFF]
              ++ [0x000202FF, 0x0201, 0x43614C66])
          ++ [0x000303FF, 0, 1000000, 0]) := by
  obtain ⟨fd, pos, hw, hd, _⟩ := container_layout sample (container_tracks sample) (by decide)
    (by decide)
  exact ⟨fd, pos, hw, by rw [hd]; decide⟩

/-! ## Claim C18: tracks are addressed by their index -/

theorem store_tracks_cons (table : List (Option nmf_track)) (t : nmf_track) (ts : List nmf_track) :
    store_tracks table (t :: ts) = store_tracks (table.set t.header.index (some t)) ts := rfl

theorem store_tracks_other (ts : List nmf_track) :
    ∀ (table : List (Option nmf_track)) (i : Nat), (∀ t ∈ ts, t.header.index ≠ i) →
      (store_tracks table ts)[i]? = table[i]? := by
  induction ts with
  | nil => intro table i _; rfl
  | cons t ts ih =>
    intro table i h
    rw [store_tracks_cons, ih _ i (fun x hx => h x (List.mem_cons_of_mem _ hx)),
      List.getElem?_set]
    simp [h t (List.mem_cons_self _ _)]

theorem store_tracks_slot (ts : List nmf_track) :
    ∀ (table : List (Option nmf_track)) (t : nmf_track), t ∈ ts →
      (ts.map fun x => x.header.index).Nodup → (∀ x ∈ ts, x.header.index < table.length) →
      (store_tracks table ts)[t.header.index]? = some (some t) := by
  induction ts with
  | nil => intro table t ht; cases ht
  | cons t0 ts ih =>
    intro table t ht hnd hlt
    rw [List.map_cons, List.nodup_cons] at hnd
    rw [store_tracks_cons]
    rcases List.mem_cons.mp ht with rfl | hmem
    · rw [store_tracks_other ts _ _ (by
        intro x hx hxe
        exact hnd.1 (List.mem_map.mpr ⟨x, hx, hxe⟩)), List.getElem?_set]
      simp [hlt t (List.mem_cons_self _ _)]
    · exact ih _ t hmem hnd.2 (by
        intro x hx
        rw [List.length_set]
        exact hlt x (List.mem_cons_of_mem _ hx))

theorem store_tracks_perm (ts ts2 : List nmf_track) (table : List (Option nmf_track))
    (hp : ts.Perm ts2) (hnd : (ts.map fun x => x.header.index).Nodup)
    (hlt : ∀ x ∈ ts, x.header.index < table.length) :
    store_tracks table ts = store_tracks table ts2 := by
  have hnd2 : (ts2.map fun x => x.header.index).Nodup := (hp.map _).nodup_iff.mp hnd
  have hlt2 : ∀ x ∈ ts2, x.header.index < table.length := fun x hx => hlt x (hp.mem_iff.mpr hx)
  apply List.ext_getElem?
  intro i
  by_cases hex : ∃ t ∈ ts, t.header.index = i
  · obtain ⟨t, ht, rfl⟩ := hex
    rw [store_tracks_slot ts table t ht hnd hlt,
      store_tracks_slot ts2 table t (hp.mem_iff.mp ht) hnd2 hlt2]
  · have h1 : ∀ t ∈ ts, t.header.index ≠ i := fun t ht he => hex ⟨t, ht, he⟩
    have h2 : ∀ t ∈ ts2, t.header.index ≠ i := fun t ht => h1 t (hp.mem_iff.mpr ht)
    rw [store_tracks_other ts table i h1, store_tracks_other ts2 table i h2]

theorem tracks_words_length_le (ts : List nmf_track) (h : ∀ t ∈ ts, t.length ≤ 65533) :
    (tracks_words ts).length ≤ 65536 * ts.length := by
  induction ts with
  | nil => simp [tracks_words]
  | cons t ts ih =>
    have h1 := h t (List.mem_cons_self _ _)
    have h2 := ih fun x hx => h x (List.mem_cons_of_mem _ hx)
    rw [tracks_words_cons_length, List.length_cons]
    have : min t.length t.payload.length ≤ t.length := Nat.min_le_left _ _
    omega

theorem nodup_index_length (ts : List nmf_track) (hnd : (ts.map fun x => x.header.index).Nodup)
    (hlt : ∀ t ∈ ts, t.header.index < 256) : ts.length ≤ 256 := by
  have hsub : (ts.map fun x => x.header.index) ⊆ List.range 256 := by
    intro i hi
    obtain ⟨t, ht, rfl⟩ := List.mem_map.mp hi
    exact List.mem_range.mpr (hlt t ht)
  have := (hnd.subperm hsub).length_le
  simpa using this

theorem parse_header_tracks (alloc : Nat → Nat → Bool) (dur tn : Nat) (ts : List nmf_track)
    (c0 : nmf_container)
    (hts : ∀ t ∈ ts, track_fits t ∧ t.length ≤ 65533 ∧ t.header.index < tn)
    (h31 : 3 + (tracks_words ts).length ≤ 2 ^ 31) (ha : alloc 0 tn = true) :
    parse_nmf alloc ([make_tag NMF_HEADER 2, dur, tn] ++ tracks_words ts)
        ([make_tag NMF_HEADER 2, dur, tn] ++ tracks_words ts).length c0
      = .ok { header := { duration := dur, track_num := tn },
              tracks := some (store_tracks (List.replicate tn none) ts),
              index := c0.index } := by
  have hlen : ([make_tag NMF_HEADER 2, dur, tn] ++ tracks_words ts).length
      = 3 + (tracks_words ts).length := by
    simp only [List.length_append, List.length_cons, List.length_nil]
  rw [parse_nmf_eq_parse_from alloc]
  have h1 := parse_iter_header alloc ([make_tag NMF_HEADER 2, dur, tn] ++ tracks_words ts) 0 c0
    (make_tag NMF_HEADER 2) dur tn (by decide) (by simp) (tag_start_make_tag _ _)
    (tag_id_make_tag _ _ (by decide)) (by rw [tag_size_make_tag _ _ (by decide)])
    (by simp) (by simp) ha
  rw [parse_from_step alloc _ _ 0 c0 _ _ (by omega) h1]
  have h2 := parse_from_tracks alloc [] ([make_tag NMF_HEADER 2, dur, tn] ++ tracks_words ts)
    ([make_tag NMF_HEADER 2, dur, tn] ++ tracks_words ts).length ts
    [make_tag NMF_HEADER 2, dur, tn]
    { c0 with header := { duration := dur, track_num := tn },
              tracks := some (List.replicate tn none) }
    (List.replicate tn none) (by rw [List.append_nil])
    (by intro t ht; rw [List.length_replicate]; exact hts t ht)
    rfl (by simp only [List.length_cons, List.length_nil]; omega)
    (by simp only [List.length_cons, List.length_nil]; omega)
  simp only [List.length_cons, List.length_nil, Nat.zero_add] at h2
  rw [show (0 : Nat) + 3 = 1 + 1 + 1 by rfl, h2, parse_from_done alloc _ _ _ _ (by omega)]

theorem parse_header_tracks_refused (alloc : Nat → Nat → Bool) (dur tn : Nat)
    (ts : List nmf_track) (c0 : nmf_container) (hne : ts ≠ [])
    (ha : alloc 0 tn = false) :
    parse_nmf alloc ([make_tag NMF_HEADER 2, dur, tn] ++ tracks_words ts)
        ([make_tag NMF_HEADER 2, dur, tn] ++ tracks_words ts).length c0
      = .error .no_track_memory := by
  cases ts with
  | nil => exact absurd rfl hne
  | cons t ts =>
    have hlen : 3 < ([make_tag NMF_HEADER 2, dur, tn] ++ tracks_words (t :: ts)).length := by
      rw [List.length_append, tracks_words_cons_length]
      simp only [List.length_cons, List.length_nil]
      omega
    rw [parse_nmf_eq_parse_from alloc]
    have h1 := parse_iter_header_any alloc
      ([make_tag NMF_HEADER 2, dur, tn] ++ tracks_words (t :: ts)) 0 c0
      (make_tag NMF_HEADER 2) dur tn (by decide) (by simp) (tag_start_make_tag _ _)
      (tag_id_make_tag _ _ (by decide)) (by rw [tag_size_make_tag _ _ (by decide)])
      (by simp) (by simp)
    rw [ha] at h1
    rw [parse_from_step alloc _ _ 0 c0 _ _ (by omega) h1]
    exact parse_from_error alloc _ _ _ _ _ (by omega)
      (parse_iter_no_table alloc _ (0 + 3) _ (make_tag NMF_TRACK ((2 + t.length) % 2 ^ 32))
        (by decide) (by rw [tracks_words_cons]; rfl)
        (tag_start_make_tag _ _) (tag_id_make_tag _ _ (by decide)) rfl)

/-- C18 (as stated, refuted): a Header record declaring 4294967295 tracks followed by Track
records with the indices 0 and 1, parsed when `malloc` returns `NULL` for a table of that many
tracks: `parse_nmf` stores no track and exits at the first Track record with "no track memory
allocated". -/
theorem tracks_need_the_table :
    parse_nmf (table_below 0xFFFFFFFF)
        [0x000201FF, 0, 0xFFFFFFFF, 0x000202FF, 0x0100, 5, 0x000302FF, 0x0201, 6, 9] 10 blank
      = .error .no_track_memory := by
  decide

/-- C18 (amended): for every buffer made of a Header record declaring `tn` tracks followed by
Track records whose indices are pairwise distinct and below `tn` (each record given by the track
`t` it encodes: tag of kind 2 and size `2 + t.length` with `t.length ≤ 65533`, the two words of
`t.header`, whose first word has `t.header.index` as its low byte, and the `t.length` payload
words, all of them present in the buffer): when the unchecked `malloc` of `parse_nmf` returns a
table, `parse_nmf` returns the container with that header and a table of `tn` slots in which the
slot named by the index of each record holds that record's track and every other slot is empty,
and the result is the same for the buffer that lists the same Track records in any other order;
when `malloc` returns `NULL` and there is a Track record, `parse_nmf` exits with "no track
memory allocated" for every order of the records. -/
theorem tracks_addressed_by_index (alloc : Nat → Nat → Bool) (dur tn : Nat)
    (ts ts2 : List nmf_track) (c0 : nmf_container)
    (hts : ∀ t ∈ ts, track_fits t ∧ t.length ≤ 65533 ∧ t.header.index < tn)
    (hnd : (ts.map fun t => t.header.index).Nodup) (hp : ts.Perm ts2) :
    (alloc 0 tn = true →
      ∃ table : List (Option nmf_track),
        parse_nmf alloc ([make_tag NMF_HEADER 2, dur, tn] ++ tracks_words ts)
            ([make_tag NMF_HEADER 2, dur, tn] ++ tracks_words ts).length c0
          = .ok { header := { duration := dur, track_num := tn }, tracks := some table,
                  index := c0.index }
        ∧ parse_nmf alloc ([make_tag NMF_HEADER 2, dur, tn] ++ tracks_words ts2)
            ([make_tag NMF_HEADER 2, dur, tn] ++ tracks_words ts2).length c0
          = .ok { header := { duration := dur, track_num := tn }, tracks := some table,
                  index := c0.index }
        ∧ table.length = tn
        ∧ (∀ t ∈ ts, table[t.header.index]? = some (some t))
        ∧ (∀ i, i < tn → (∀ t ∈ ts, t.header.index ≠ i) → table[i]? = some none))
    ∧ (alloc 0 tn = false → ts ≠ [] →
        parse_nmf alloc ([make_tag NMF_HEADER 2, dur, tn] ++ tracks_words ts)
            ([make_tag NMF_HEADER 2, dur, tn] ++ tracks_words ts).length c0
          = .error .no_track_memory
        ∧ parse_nmf alloc ([make_tag NMF_HEADER 2, dur, tn] ++ tracks_words ts2)
            ([make_tag NMF_HEADER 2, dur, tn] ++ tracks_words ts2).length c0
          = .error .no_track_memory) := by
  have hts2 : ∀ t ∈ ts2, track_fits t ∧ t.length ≤ 65533 ∧ t.header.index < tn :=
    fun t ht => hts t (hp.mem_iff.mpr ht)
  have hlen := nodup_index_length ts hnd (fun t ht => (hts t ht).1.2.2.2.1)
  have hw := tracks_words_length_le ts (fun t ht => (hts t ht).2.1)
  have hw2 := tracks_words_length_le ts2 (fun t ht => (hts2 t ht).2.1)
  have hlen2 : ts2.length = ts.length := hp.length_eq.symm
  have htab : ∀ x ∈ ts, x.header.index < (List.replicate tn (none : Option nmf_track)).length := by
    intro x hx
    rw [List.length_replicate]
    exact (hts x hx).2.2
  constructor
  · intro ha
    refine ⟨store_tracks (List.replicate tn none) ts,
      parse_header_tracks alloc dur tn ts c0 hts (by omega) ha, ?_, ?_, ?_, ?_⟩
    · rw [store_tracks_perm ts ts2 _ hp hnd htab]
      exact parse_header_tracks alloc dur tn ts2 c0 hts2 (by omega) ha
    · rw [store_tracks_length, List.length_replicate]
    · intro t ht
      exact store_tracks_slot ts _ t ht hnd htab
    · intro i hi hne
      rw [store_tracks_other ts _ i hne]
      simp [hi]
  · intro ha hne
    have hne2 : ts2 ≠ [] := by
      intro h
      rw [h] at hp
      exact hne hp.eq_nil
    exact ⟨parse_header_tracks_refused alloc dur tn ts c0 hne ha,
      parse_header_tracks_refused alloc dur tn ts2 c0 hne2 ha⟩

/-- Two Track records, with indices 1 and 0, in both orders, with a table allocated. -/
theorem tracks_addressed_by_index_witness :
    ∃ table : List (Option nmf_track),
      parse_nmf table_granted
          [0x000201FF, 0, 3, 0x000302FF, 0x0201, 6, 9, 0x000202FF, 0x0100, 5] 10 blank
        = .ok { header := { duration := 0, track_num := 3 }, tracks := some table,
                index := blank.index }
      ∧ parse_nmf table_granted
          [0x000201FF, 0, 3, 0x000202FF, 0x0100, 5, 0x000302FF, 0x0201, 6, 9] 10 blank
        = .ok { header := { duration := 0, track_num := 3 }, tracks := some table,
                index := blank.index }
      ∧ table = [some { header := { index := 0, type := 1, reserved := 0, codec := 5 },
                        length := 0, payload := [] },
                 some { header := { index := 1, type := 2, reserved := 0, codec := 6 },
                        length := 1, payload := [9] },
                 none] := by
  obtain ⟨table, h1, h2, hl, hs, ho⟩ := (tracks_addressed_by_index table_granted 0 3
    [{ header := { index := 1, type := 2, reserved := 0, codec := 6 }, length := 1, payload := [9] },
     { header := { index := 0, type := 1, reserved := 0, codec := 5 }, length := 0, payload := [] }]
    [{ header := { index := 0, type := 1, reserved := 0, codec := 5 }, length := 0, payload := [] },
     { header := { index := 1, type := 2, reserved := 0, codec := 6 }, length := 1, payload := [9] }]
    blank (by decide) (by decide) (List.Perm.swap _ _ _)).1 rfl
  refine ⟨table, h1, h2, ?_⟩
  have e : parse_nmf table_granted
      [0x000201FF, 0, 3, 0x000302FF, 0x0201, 6, 9, 0x000202FF, 0x0100, 5] 10 blank
      = .ok { header := { duration := 0, track_num := 3 },
              tracks := some [some { header := { index := 0, type := 1, reserved := 0, codec := 5 },
                                     length := 0, payload := [] },
                              some { header := { index := 1, type := 2, reserved := 0, codec := 6 },
                                     length := 1, payload := [9] },
                              none],
              index := blank.index } := by decide
  have h1b : parse_nmf table_granted
      [0x000201FF, 0, 3, 0x000302FF, 0x0201, 6, 9, 0x000202FF, 0x0100, 5] 10 blank
      = .ok { header := { duration := 0, track_num := 3 }, tracks := some table,
              index := blank.index } := h1
  rw [e] at h1b
  simp only [Except.ok.injEq, nmf_container.mk.injEq, Option.some.injEq, true_and, and_true] at h1b
  exact h1b.symm

/-! ## Claim C21: parsing a well-framed buffer -/

theorem cursor_int_small (p : Nat) (h : p < 2 ^ 31) : cursor_int p = (p : Int) := by
  have h1 : p % 2 ^ 32 = p := Nat.mod_eq_of_lt (by omega)
  simp only [cursor_int, h1, h, if_true]

theorem tag_size_lt (tag : Nat) : tag_size tag < 65536 := by
  rw [tag_size_eq]; omega

theorem framed_record_iter (alloc : Nat → Nat → Bool) (pre r post : List Nat) (c : nmf_container)
    (table : List (Option nmf_track)) (tn : Nat) (hr : framed_record tn r)
    (hc : c.tracks = some table) (hl : table.length = tn) (h31 : pre.length < 2 ^ 31) :
    (∃ c2 table2, parse_iter alloc (pre ++ (r ++ post)) pre.length c = .ok (pre.length + r.length, c2)
        ∧ c2.tracks = some table2 ∧ table2.length = tn)
    ∧ (∀ j ∈ parse_iter_offsets (pre ++ (r ++ post)) pre.length c, j < r.length)
    ∧ (∀ i ∈ parse_iter_slots (pre ++ (r ++ post)) pre.length c, i < tn) := by
  cases r with
  | nil => exact hr.elim
  | cons tag payload =>
    obtain ⟨hs, hsz, hkind⟩ := hr
    have htag : (pre ++ (tag :: payload ++ post))[pre.length]? = some tag := by
      rw [List.getElem?_append_right (Nat.le_refl _)]; simp
    have hdrop : (pre ++ (tag :: payload ++ post)).drop (pre.length + 1) = payload ++ post := by
      rw [List.drop_append]; rfl
    rcases hkind with ⟨hid, h2, hidx⟩ | ⟨hid, h3⟩
    · -- a Track record
      match payload, hsz, hidx, hdrop with
      | w0 :: w1 :: rest, hsz, hidx, hdrop =>
        simp only [List.length_cons] at hsz
        simp only [List.getD_cons_zero, List.getD_cons_succ] at hidx
        have hstep := parse_iter_track alloc (pre ++ (tag :: w0 :: w1 :: rest ++ post)) pre.length c tag
          w0 w1 (rest ++ post) table h31 htag hs hid h2 hdrop
          (by rw [List.length_append]; omega) hc (by rw [hl]; exact hidx)
        rw [show pre.length + 1 + tag_size tag = pre.length + (tag :: w0 :: w1 :: rest).length by
          simp only [List.length_cons]; omega] at hstep
        refine ⟨⟨_, _, hstep, rfl, by rw [List.length_set]; exact hl⟩, ?_, ?_⟩
        · intro j hj
          have e1 : NMF_TRACK ≠ NMF_HEADER := by decide
          have hm : (tag_size tag + 2 ^ 64 - 2) % 2 ^ 64 = tag_size tag - 2 := by
            have := tag_size_lt tag
            omega
          simp only [parse_iter_offsets, htag, hs, hid, hc, hm, ne_eq, not_true_eq_false,
            if_false, e1, if_true, List.mem_cons, List.mem_map, List.mem_range] at hj
          simp only [List.length_cons]
          rcases hj with rfl | rfl | rfl | ⟨a, ha, rfl⟩ <;> omega
        · intro i hi
          simp only [parse_iter_slots, htag, hs, hid, hc, hdrop, ne_eq, not_true_eq_false,
            if_false, if_true] at hi
          simp only [List.cons_append, List.mem_singleton] at hi
          rw [hi]; exact hidx
      | [], hsz, _, _ => simp only [List.length_nil] at hsz; omega
      | [_], hsz, _, _ => simp only [List.length_cons, List.length_nil] at hsz; omega
    · -- an Index record
      match payload, hsz, hdrop with
      | [a, b, x], hsz, hdrop =>
        have hd1 := hdrop
        have g1 : (pre ++ (tag :: [a, b, x] ++ post))[pre.length + 1]? = some a := by
          rw [List.getElem?_append_right (by omega)]; simp
        have g2 : (pre ++ (tag :: [a, b, x] ++ post))[pre.length + 2]? = some b := by
          rw [List.getElem?_append_right (by omega)]; simp
        have g3 : (pre ++ (tag :: [a, b, x] ++ post))[pre.length + 3]? = some x := by
          rw [List.getElem?_append_right (by omega)]; simp
        have hstep := parse_iter_index alloc (pre ++ (tag :: [a, b, x] ++ post)) pre.length c tag a b x
          h31 htag hs hid h3 g1 g2 g3
        have e1 : NMF_INDEX ≠ NMF_HEADER := by decide
        have e2 : NMF_INDEX ≠ NMF_TRACK := by decide
        refine ⟨⟨_, table, hstep, hc, hl⟩, ?_, ?_⟩
        · intro j hj
          simp only [parse_iter_offsets, htag, hs, hid, h3, ne_eq, not_true_eq_false,
            if_false, e1, e2, if_true, List.mem_cons, List.mem_singleton, List.mem_nil_iff,
            or_false] at hj
          simp only [List.length_cons, List.length_nil]
          omega
        · intro i hi
          simp only [parse_iter_slots, htag, hs, hid, e2, ne_eq, not_true_eq_false,
            if_false, List.mem_nil_iff] at hi
      | [], hsz, _ => rw [h3] at hsz; cases hsz
      | [_], hsz, _ => rw [h3] at hsz; cases hsz
      | [_, _], hsz, _ => rw [h3] at hsz; cases hsz
      | _ :: _ :: _ :: _ :: _, hsz, _ =>
        rw [h3] at hsz; simp only [List.length_cons] at hsz; omega

theorem framed_buffer_split (tag dur tn : Nat) (rs : List (List Nat)) (k : Nat)
    (hk : k < rs.length) :
    framed_buffer tag dur tn rs
      = ([tag, dur, tn] ++ (rs.take k).flatten) ++ (rs[k] ++ (rs.drop (k + 1)).flatten) := by
  have h : rs = rs.take k ++ rs[k] :: rs.drop (k + 1) := by
    rw [← List.drop_eq_getElem_cons hk, List.take_append_drop]
  unfold framed_buffer
  conv_lhs => rw [h]
  rw [List.flatten_append, List.flatten_cons, List.append_assoc]

theorem take_succ_flatten (rs : List (List Nat)) (k : Nat) (hk : k < rs.length) :
    (rs.take (k + 1)).flatten = (rs.take k).flatten ++ rs[k] := by
  have e : rs.take (k + 1) = rs.take k ++ [rs[k]] := by
    rw [List.take_succ, List.getElem?_eq_getElem hk]
    rfl
  rw [e, List.flatten_append]
  simp

theorem framed_buffer_length (tag dur tn : Nat) (rs : List (List Nat)) :
    (framed_buffer tag dur tn rs).length = 3 + rs.flatten.length := by
  simp only [framed_buffer, List.length_append, List.length_cons, List.length_nil]

theorem take_flatten_length_lt (rs : List (List Nat)) (k : Nat) (hk : k < rs.length)
    (h : rs[k] ≠ []) : (rs.take k).flatten.length < rs.flatten.length := by
  have e : rs = rs.take k ++ rs[k] :: rs.drop (k + 1) := by
    rw [← List.drop_eq_getElem_cons hk, List.take_append_drop]
  have hpos : 0 < (rs[k]).length := List.length_pos.mpr h
  have e2 : rs.flatten.length = (rs.take k).flatten.length
      + ((rs[k]).length + (rs.drop (k + 1)).flatten.length) := by
    conv_lhs => rw [e]
    rw [List.flatten_append, List.flatten_cons, List.length_append, List.length_append]
  omega

theorem framed_record_ne_nil (tn : Nat) (r : List Nat) (h : framed_record tn r) : r ≠ [] := by
  intro e
  rw [e] at h
  exact h

theorem framed_steps (alloc : Nat → Nat → Bool) (tag dur tn : Nat) (rs : List (List Nat))
    (c0 : nmf_container)
    (hs : tag_start tag = 0xFF) (hid : tag_id tag = NMF_HEADER) (hsz : tag_size tag = 2)
    (hrs : ∀ r ∈ rs, framed_record tn r) (ha : alloc 0 tn = true) :
    ∀ k, k ≤ rs.length → (∀ j, j < k → 3 + (rs.take j).flatten.length < 2 ^ 31) →
      ∃ c table, parse_steps alloc (k + 1) (framed_buffer tag dur tn rs)
          (framed_buffer tag dur tn rs).length 0 c0
          = .ok (3 + (rs.take k).flatten.length, c)
        ∧ c.tracks = some table ∧ table.length = tn := by
  intro k
  induction k with
  | zero =>
    intro _ _
    refine ⟨_, _, parse_steps_reach_succ alloc _ _ c0 0 0 c0 _ rfl
      (by rw [framed_buffer_length]; omega)
      (parse_iter_header alloc (framed_buffer tag dur tn rs) 0 c0 tag dur tn (by decide) rfl hs hid
        hsz (by simp [framed_buffer]) (by simp [framed_buffer]) ha), rfl, List.length_replicate _ _⟩
  | succ k ih =>
    intro hk hb
    obtain ⟨c, table, hreach, hc, hl⟩ := ih (by omega) (fun j hj => hb j (by omega))
    have hk2 : k < rs.length := by omega
    have hr := hrs rs[k] (List.getElem_mem _)
    have hlt := take_flatten_length_lt rs k hk2 (framed_record_ne_nil tn _ hr)
    obtain ⟨⟨c2, table2, hit, hc2, hl2⟩, _, _⟩ := framed_record_iter alloc
      ([tag, dur, tn] ++ (rs.take k).flatten) rs[k] (rs.drop (k + 1)).flatten c table tn hr hc hl
      (by simp only [List.length_append, List.length_cons, List.length_nil]
          have := hb k (by omega)
          omega)
    rw [← framed_buffer_split tag dur tn rs k hk2] at hit
    have e1 : ([tag, dur, tn] ++ (rs.take k).flatten).length = 3 + (rs.take k).flatten.length := by
      simp only [List.length_append, List.length_cons, List.length_nil]
    rw [e1] at hit
    refine ⟨c2, table2, ?_, hc2, hl2⟩
    rw [parse_steps_reach_succ alloc _ _ c0 (k + 1) _ c _ hreach
      (by rw [framed_buffer_length]; omega) hit, take_succ_flatten rs k hk2, List.length_append,
      Nat.add_assoc]

theorem take_flatten_length_le (rs : List (List Nat)) (k : Nat) :
    (rs.take k).flatten.length ≤ rs.flatten.length := by
  have e : rs.flatten = (rs.take k).flatten ++ (rs.drop k).flatten := by
    rw [← List.flatten_append, List.take_append_drop]
  rw [e, List.length_append]
  omega

theorem mem_parse_iter_reads (buffer : List Nat) (p : Nat) (c : nmf_container) (q : Int) :
    q ∈ parse_iter_reads buffer p c
      ↔ ∃ j ∈ parse_iter_offsets buffer p c, cursor_int p + (j : Int) = q := by
  unfold parse_iter_reads
  exact List.mem_map

theorem framed_header_access (tag dur tn : Nat) (rs : List (List Nat)) (c0 : nmf_container)
    (hs : tag_start tag = 0xFF) (hid : tag_id tag = NMF_HEADER) (hsz : tag_size tag = 2) :
    (∀ j ∈ parse_iter_offsets (framed_buffer tag dur tn rs) 0 c0, j < 3)
    ∧ parse_iter_slots (framed_buffer tag dur tn rs) 0 c0 = [] := by
  have htag : (framed_buffer tag dur tn rs)[0]? = some tag := rfl
  have e1 : NMF_HEADER ≠ NMF_TRACK := by decide
  constructor
  · intro j hj
    simp only [parse_iter_offsets, htag, hs, hid, hsz, ne_eq, not_true_eq_false, if_false,
      if_true, List.mem_cons, List.mem_singleton, List.mem_nil_iff, or_false] at hj
    omega
  · simp only [parse_iter_slots, htag, hs, hid, e1, ne_eq, not_true_eq_false, if_false]

theorem framed_access (alloc : Nat → Nat → Bool) (tag dur tn : Nat) (rs : List (List Nat))
    (c0 : nmf_container)
    (hs : tag_start tag = 0xFF) (hid : tag_id tag = NMF_HEADER) (hsz : tag_size tag = 2)
    (hrs : ∀ r ∈ rs, framed_record tn r) (ha : alloc 0 tn = true)
    (hW : (framed_buffer tag dur tn rs).length < 2 ^ 31) (n p : Nat) (c : nmf_container)
    (hreach : parse_steps alloc n (framed_buffer tag dur tn rs) (framed_buffer tag dur tn rs).length 0 c0
      = .ok (p, c))
    (hp : p < (framed_buffer tag dur tn rs).length) :
    (∀ q ∈ parse_iter_reads (framed_buffer tag dur tn rs) p c,
        0 ≤ q ∧ q < ((framed_buffer tag dur tn rs).length : Int))
    ∧ (∀ i ∈ parse_iter_slots (framed_buffer tag dur tn rs) p c,
        i < tn ∧ ∃ table, c.tracks = some table ∧ table.length = tn) := by
  have hlen := framed_buffer_length tag dur tn rs
  have hci : cursor_int p = (p : Int) := cursor_int_small p (by omega)
  have hbound : ∀ k j, j < k → 3 + (rs.take j).flatten.length < 2 ^ 31 := by
    intro k j _
    have := take_flatten_length_le rs j
    omega
  cases n with
  | zero =>
    simp only [parse_steps, Except.ok.injEq, Prod.mk.injEq] at hreach
    obtain ⟨rfl, rfl⟩ := hreach
    obtain ⟨ho, hsl⟩ := framed_header_access tag dur tn rs c0 hs hid hsz
    constructor
    · intro q hq
      obtain ⟨j, hj, rfl⟩ := (mem_parse_iter_reads _ _ _ _).mp hq
      have := ho j hj
      rw [hci]
      omega
    · intro i hi
      rw [hsl] at hi
      cases hi
  | succ m =>
    by_cases hm : m ≤ rs.length
    · obtain ⟨c1, table, hst, hc, hl⟩ := framed_steps alloc tag dur tn rs c0 hs hid hsz hrs ha m hm
        (hbound m)
      rw [hst] at hreach
      simp only [Except.ok.injEq, Prod.mk.injEq] at hreach
      obtain ⟨rfl, rfl⟩ := hreach
      have hm2 : m < rs.length := by
        rcases Nat.lt_or_ge m rs.length with h | h
        · exact h
        · rw [List.take_of_length_le h] at hp
          omega
      have hr := hrs rs[m] (List.getElem_mem _)
      obtain ⟨_, ho, hsl⟩ := framed_record_iter alloc
        ([tag, dur, tn] ++ (rs.take m).flatten) rs[m] (rs.drop (m + 1)).flatten c1 table tn hr hc
        hl (by simp only [List.length_append, List.length_cons, List.length_nil]; omega)
      rw [← framed_buffer_split tag dur tn rs m hm2] at ho hsl
      have e1 : ([tag, dur, tn] ++ (rs.take m).flatten).length
          = 3 + (rs.take m).flatten.length := by
        simp only [List.length_append, List.length_cons, List.length_nil]
      rw [e1] at ho hsl
      have htot : 3 + (rs.take m).flatten.length + (rs[m]).length
          ≤ (framed_buffer tag dur tn rs).length := by
        have := take_flatten_length_le rs (m + 1)
        rw [take_succ_flatten rs m hm2, List.length_append] at this
        omega
      constructor
      · intro q hq
        obtain ⟨j, hj, rfl⟩ := (mem_parse_iter_reads _ _ _ _).mp hq
        have := ho j hj
        rw [hci]
        omega
      · intro i hi
        exact ⟨hsl i hi, table, hc, hl⟩
    · exfalso
      obtain ⟨c1, table, hst, _, _⟩ := framed_steps alloc tag dur tn rs c0 hs hid hsz hrs ha rs.length
        (Nat.le_refl _) (hbound _)
      rw [List.take_length] at hst
      rw [show m + 1 = rs.length + 1 + (m - rs.length) by omega, parse_steps_add alloc, hst] at hreach
      simp only at hreach
      rw [parse_steps_done alloc _ _ _ _ _ (by rw [hlen]; omega)] at hreach
      simp only [Except.ok.injEq, Prod.mk.injEq] at hreach
      omega

theorem framed_steps_total (alloc : Nat → Nat → Bool) (tag dur tn : Nat) (rs : List (List Nat))
    (c0 : nmf_container)
    (hs : tag_start tag = 0xFF) (hid : tag_id tag = NMF_HEADER) (hsz : tag_size tag = 2)
    (hrs : ∀ r ∈ rs, framed_record tn r) (ha : alloc 0 tn = true)
    (hW : (framed_buffer tag dur tn rs).length < 2 ^ 31) (n : Nat) :
    ∃ p c, parse_steps alloc n (framed_buffer tag dur tn rs) (framed_buffer tag dur tn rs).length 0 c0
      = .ok (p, c) := by
  have hlen := framed_buffer_length tag dur tn rs
  have hbound : ∀ k j, j < k → 3 + (rs.take j).flatten.length < 2 ^ 31 := by
    intro k j _
    have := take_flatten_length_le rs j
    omega
  cases n with
  | zero => exact ⟨0, c0, rfl⟩
  | succ m =>
    by_cases hm : m ≤ rs.length
    · obtain ⟨c1, _, hst, _, _⟩ := framed_steps alloc tag dur tn rs c0 hs hid hsz hrs ha m hm (hbound m)
      exact ⟨_, c1, hst⟩
    · obtain ⟨c1, table, hst, _, _⟩ := framed_steps alloc tag dur tn rs c0 hs hid hsz hrs ha rs.length
        (Nat.le_refl _) (hbound _)
      rw [List.take_length] at hst
      refine ⟨3 + rs.flatten.length, c1, ?_⟩
      rw [show m + 1 = rs.length + 1 + (m - rs.length) by omega, parse_steps_add alloc, hst]
      simp only
      rw [parse_steps_done alloc _ _ _ _ _ (by rw [hlen]; omega)]

theorem framed_parse_ok (alloc : Nat → Nat → Bool) (tag dur tn : Nat) (rs : List (List Nat))
    (c0 : nmf_container)
    (hs : tag_start tag = 0xFF) (hid : tag_id tag = NMF_HEADER) (hsz : tag_size tag = 2)
    (hrs : ∀ r ∈ rs, framed_record tn r) (ha : alloc 0 tn = true)
    (hW : (framed_buffer tag dur tn rs).length < 2 ^ 31) :
    ∃ c table, parse_nmf alloc (framed_buffer tag dur tn rs) (framed_buffer tag dur tn rs).length c0
        = .ok c ∧ c.tracks = some table ∧ table.length = tn := by
  have hlen := framed_buffer_length tag dur tn rs
  obtain ⟨c1, table, hst, hc, hl⟩ := framed_steps alloc tag dur tn rs c0 hs hid hsz hrs ha rs.length
    (Nat.le_refl _) (by
      intro j _
      have := take_flatten_length_le rs j
      omega)
  rw [List.take_length] at hst
  refine ⟨c1, table, ?_, hc, hl⟩
  rw [parse_nmf_reach alloc _ _ c0 _ _ c1 hst, parse_from_done alloc _ _ _ _ (by rw [hlen])]

/-- C21 (amended): for every buffer of fewer than `2 ^ 31` words whose records tile it exactly
(a Header record with the marker and size 2 first, declaring `tn` tracks, then Track and Index
records, every tag with the marker and followed by as many words as its size field says, every
Track record of size at least 2 with a track index below `tn`, every Index record of size 3),
when the unchecked `malloc` for the table of `tn` tracks returns a table,
`parse_nmf` called with the number of words of the buffer returns a container, whose table has
`tn` slots; the loop state after any number of iterations exists, that is no iteration exits;
and in every iteration that runs, every buffer word read is at a position from 0 up to the last
word of the buffer and every table slot written is below `tn`, in a table of `tn` slots. -/
theorem framed_parse_in_bounds (alloc : Nat → Nat → Bool) (tag dur tn : Nat) (rs : List (List Nat))
    (c0 : nmf_container)
    (hs : tag_start tag = 0xFF) (hid : tag_id tag = NMF_HEADER) (hsz : tag_size tag = 2)
    (hrs : ∀ r ∈ rs, framed_record tn r) (ha : alloc 0 tn = true)
    (hW : (framed_buffer tag dur tn rs).length < 2 ^ 31) :
    (∃ c table, parse_nmf alloc (framed_buffer tag dur tn rs) (framed_buffer tag dur tn rs).length c0
        = .ok c ∧ c.tracks = some table ∧ table.length = tn)
    ∧ (∀ n, ∃ p c, parse_steps alloc n (framed_buffer tag dur tn rs)
        (framed_buffer tag dur tn rs).length 0 c0 = .ok (p, c))
    ∧ ∀ n p c, parse_steps alloc n (framed_buffer tag dur tn rs)
          (framed_buffer tag dur tn rs).length 0 c0 = .ok (p, c) →
        p < (framed_buffer tag dur tn rs).length →
        (∀ q ∈ parse_iter_reads (framed_buffer tag dur tn rs) p c,
            0 ≤ q ∧ q < ((framed_buffer tag dur tn rs).length : Int))
        ∧ (∀ i ∈ parse_iter_slots (framed_buffer tag dur tn rs) p c,
            i < tn ∧ ∃ table, c.tracks = some table ∧ table.length = tn) :=
  ⟨framed_parse_ok alloc tag dur tn rs c0 hs hid hsz hrs ha hW,
   framed_steps_total alloc tag dur tn rs c0 hs hid hsz hrs ha hW,
   framed_access alloc tag dur tn rs c0 hs hid hsz hrs ha hW⟩

/-- A Header record for two tracks, a Track record with one payload word for slot 1, a Track
record without payload for slot 0 and an Index record: the parse succeeds, and the iteration at
cursor 3 reads the positions 3 to 6 and writes slot 1. -/
theorem framed_parse_in_bounds_witness :
    (∃ c table, parse_nmf table_granted
        (framed_buffer 0x000201FF 0 2
          [[0x000302FF, 0x0201, 6, 9], [0x000202FF, 0x0100, 5], [0x000303FF, 0, 1000000, 0]])
        14 blank = .ok c ∧ c.tracks = some table ∧ table.length = 2)
    ∧ parse_iter_reads
        (framed_buffer 0x000201FF 0 2
          [[0x000302FF, 0x0201, 6, 9], [0x000202FF, 0x0100, 5], [0x000303FF, 0, 1000000, 0]])
        3 { header := { duration := 0, track_num := 2 }, tracks := some [none, none],
            index := { fp := 0, scale := 0, count := 0 } } = [3, 4, 5, 6]
    ∧ parse_iter_slots
        (framed_buffer 0x000201FF 0 2
          [[0x000302FF, 0x0201, 6, 9], [0x000202FF, 0x0100, 5], [0x000303FF, 0, 1000000, 0]])
        3 { header := { duration := 0, track_num := 2 }, tracks := some [none, none],
            index := { fp := 0, scale := 0, count := 0 } } = [1]
    ∧ (∀ q ∈ ([3, 4, 5, 6] : List Int), 0 ≤ q ∧ q < 14) ∧ (∀ i ∈ [1], i < 2) := by
  have h := framed_parse_in_bounds table_granted 0x000201FF 0 2
    [[0x000302FF, 0x0201, 6, 9], [0x000202FF, 0x0100, 5], [0x000303FF, 0, 1000000, 0]] blank
    (by decide) (by decide) (by decide) (by decide) rfl (by decide)
  have e1 : parse_iter_reads
        (framed_buffer 0x000201FF 0 2
          [[0x000302FF, 0x0201, 6, 9], [0x000202FF, 0x0100, 5], [0x000303FF, 0, 1000000, 0]])
        3 { header := { duration := 0, track_num := 2 }, tracks := some [none, none],
            index := { fp := 0, scale := 0, count := 0 } } = [3, 4, 5, 6] := by decide
  have e2 : parse_iter_slots
        (framed_buffer 0x000201FF 0 2
          [[0x000302FF, 0x0201, 6, 9], [0x000202FF, 0x0100, 5], [0x000303FF, 0, 1000000, 0]])
        3 { header := { duration := 0, track_num := 2 }, tracks := some [none, none],
            index := { fp := 0, scale := 0, count := 0 } } = [1] := by decide
  have h2 := h.2.2 1 3
    ({ header := { duration := 0, track_num := 2 }, tracks := some [none, none],
       index := { fp := 0, scale := 0, count := 0 } } : nmf_container) (by decide) (by decide)
  rw [e1, e2] at h2
  exact ⟨h.1, e1, e2, h2.1, fun i hi => (h2.2 i hi).1⟩

theorem zero_record_length (n : Nat) : (zero_record n).length = 3 + n := by
  simp only [zero_record, List.length_cons, List.length_replicate]
  omega

theorem zero_record_framed (n : Nat) (hn : n ≤ 65533) : framed_record 1 (zero_record n) := by
  have hsz : tag_size (make_tag NMF_TRACK (2 + n)) = 2 + n := by
    rw [tag_size_make_tag _ _ (by decide)]; omega
  refine ⟨tag_start_make_tag _ _, ?_, Or.inl ⟨tag_id_make_tag _ _ (by decide), ?_, ?_⟩⟩
  · rw [hsz]
    simp only [List.length_cons, List.length_replicate]
    omega
  · rw [hsz]; omega
  · simp only [List.getD_cons_zero, List.getD_cons_succ]
    decide

theorem zero_records_framed (m n : Nat) (hn : n ≤ 65533) :
    ∀ r ∈ zero_records m n, framed_record 1 r := by
  intro r hr
  simp only [zero_records, List.mem_append, List.mem_singleton] at hr
  rcases hr with h | rfl
  · rw [List.eq_of_mem_replicate h]
    exact zero_record_framed n hn
  · exact ⟨tag_start_make_tag _ _, by rw [tag_size_make_tag _ _ (by decide)]; rfl,
      Or.inr ⟨tag_id_make_tag _ _ (by decide), by rw [tag_size_make_tag _ _ (by decide)]⟩⟩

theorem replicate_flatten_length (j : Nat) (r : List Nat) :
    (List.replicate j r).flatten.length = j * r.length := by
  induction j with
  | zero => simp
  | succ j ih =>
    rw [List.replicate_succ, List.flatten_cons, List.length_append, ih]
    rw [Nat.add_mul, Nat.one_mul, Nat.add_comm]

theorem zero_records_take (m n j : Nat) (hj : j ≤ m) :
    ((zero_records m n).take j).flatten.length = j * (3 + n) := by
  rw [zero_records, List.take_append_of_le_length (by rw [List.length_replicate]; exact hj),
    List.take_replicate, Nat.min_eq_left hj, replicate_flatten_length, zero_record_length]

theorem zero_records_length (m n : Nat) :
    (framed_buffer (make_tag NMF_HEADER 2) 0 1 (zero_records m n)).length
      = 3 + (m * (3 + n) + 4) := by
  rw [framed_buffer_length, zero_records, List.flatten_append, List.length_append,
    replicate_flatten_length, zero_record_length]
  rfl

theorem parse_iter_int_cursor (alloc : Nat → Nat → Bool) (buffer : List Nat) (p : Nat)
    (c : nmf_container) (h : 2 ^ 31 ≤ p) : parse_iter alloc buffer p c = .error .fault := by
  simp only [parse_iter, h, if_true]

theorem cursor_mem_parse_iter_reads (buffer : List Nat) (p : Nat) (c : nmf_container) :
    cursor_int p ∈ parse_iter_reads buffer p c := by
  refine (mem_parse_iter_reads buffer p c _).mpr ⟨0, ?_, by simp⟩
  simp only [parse_iter_offsets]
  repeat' split
  all_goals simp

theorem zero_records_run (alloc : Nat → Nat → Bool) (m n : Nat) (hn : n ≤ 65533)
    (hb : ∀ j, j < m → 3 + j * (3 + n) < 2 ^ 31) (h31 : 2 ^ 31 ≤ 3 + m * (3 + n))
    (ha : alloc 0 1 = true) :
    (∃ c, parse_steps alloc (m + 1) (framed_buffer (make_tag NMF_HEADER 2) 0 1 (zero_records m n))
        (framed_buffer (make_tag NMF_HEADER 2) 0 1 (zero_records m n)).length 0 blank
        = .ok (3 + m * (3 + n), c)
      ∧ cursor_int (3 + m * (3 + n))
        ∈ parse_iter_reads (framed_buffer (make_tag NMF_HEADER 2) 0 1 (zero_records m n))
            (3 + m * (3 + n)) c)
    ∧ parse_nmf alloc (framed_buffer (make_tag NMF_HEADER 2) 0 1 (zero_records m n))
        (framed_buffer (make_tag NMF_HEADER 2) 0 1 (zero_records m n)).length blank
      = .error .fault := by
  obtain ⟨c, _, hst, _, _⟩ := framed_steps alloc (make_tag NMF_HEADER 2) 0 1 (zero_records m n)
    blank (tag_start_make_tag _ _) (tag_id_make_tag _ _ (by decide))
    (by rw [tag_size_make_tag _ _ (by decide)]) (zero_records_framed m n hn) ha m
    (by simp only [zero_records, List.length_append, List.length_replicate]; omega)
    (by intro j hj; rw [zero_records_take m n j (by omega)]; exact hb j hj)
  rw [zero_records_take m n m (Nat.le_refl _)] at hst
  refine ⟨⟨c, hst, cursor_mem_parse_iter_reads _ _ _⟩, ?_⟩
  rw [parse_nmf_reach alloc _ _ blank _ _ c hst]
  exact parse_from_error alloc _ _ _ _ _ (by rw [zero_records_length]; omega)
    (parse_iter_int_cursor alloc _ _ _ h31)

/-- C21 (as stated, refuted): the buffer of 2147483655 words made of a Header record declaring
one track, 32768 Track records for slot 0 of size 65535 and an Index record is tiled exactly by
its records, all of them as the claim wants them. After 32769 iterations the loop of `parse_nmf`
stands at the cursor 2147483651, below the number of words; the `int` that holds it has the
value -2147483645, the position at which the next iteration reads `buffer[process]`: a word
that is not in the buffer. And the buffer of 6 words made of a Header record declaring
4294967295 tracks and a Track record for slot 0 is tiled exactly as well; when `malloc` returns
`NULL` for a table of that many tracks, `parse_nmf` exits with "no track memory allocated". -/
theorem int_cursor_leaves_buffer :
    (∀ r ∈ zero_records 32768 65533, framed_record 1 r)
    ∧ (framed_buffer (make_tag NMF_HEADER 2) 0 1 (zero_records 32768 65533)).length = 2147483655
    ∧ (∃ c, parse_steps table_granted 32769
          (framed_buffer (make_tag NMF_HEADER 2) 0 1 (zero_records 32768 65533))
          (framed_buffer (make_tag NMF_HEADER 2) 0 1 (zero_records 32768 65533)).length 0 blank
          = .ok (2147483651, c)
        ∧ (-2147483645 : Int)
          ∈ parse_iter_reads (framed_buffer (make_tag NMF_HEADER 2) 0 1 (zero_records 32768 65533))
              2147483651 c)
    ∧ parse_nmf table_granted (framed_buffer (make_tag NMF_HEADER 2) 0 1 (zero_records 32768 65533))
        (framed_buffer (make_tag NMF_HEADER 2) 0 1 (zero_records 32768 65533)).length blank
      = .error .fault
    ∧ (∀ r ∈ [[0x000202FF, 0, 5]], framed_record 0xFFFFFFFF r)
    ∧ framed_buffer 0x000201FF 0 0xFFFFFFFF [[0x000202FF, 0, 5]]
      = [0x000201FF, 0, 0xFFFFFFFF, 0x000202FF, 0, 5]
    ∧ parse_nmf (table_below 0xFFFFFFFF) [0x000201FF, 0, 0xFFFFFFFF, 0x000202FF, 0, 5] 6 blank
      = .error .no_track_memory := by
  obtain ⟨⟨c, hst, hmem⟩, hres⟩ := zero_records_run table_granted 32768 65533 (by norm_num)
    (by intro j hj; omega) (by norm_num) rfl
  have e1 : 3 + 32768 * (3 + 65533) = 2147483651 := by norm_num
  have e2 : cursor_int 2147483651 = -2147483645 := by
    simp only [cursor_int]
    norm_num
  rw [e1] at hst hmem
  rw [e2] at hmem
  refine ⟨zero_records_framed 32768 65533 (by norm_num), ?_, ⟨c, hst, hmem⟩, hres,
    by decide, rfl, by decide⟩
  rw [zero_records_length]

/-! ## Claim C22: the five bytes of the PTS -/

theorem ldiff_mask (k m : Nat) : Nat.ldiff (2 ^ k - 1) m = 2 ^ k - 1 - m % 2 ^ k := by
  apply Nat.eq_of_testBit_eq
  intro i
  have hlt : m % 2 ^ k < 2 ^ k := Nat.mod_lt _ (Nat.pos_pow_of_pos _ (by decide))
  rw [Nat.testBit_ldiff, Nat.testBit_two_pow_sub_one,
    show 2 ^ k - 1 - m % 2 ^ k = 2 ^ k - (m % 2 ^ k + 1) by omega,
    Nat.testBit_two_pow_sub_succ hlt, Nat.testBit_mod_two_pow]
  cases decide (i < k) <;> simp

theorem int_land_mask (x : Int) (k : Nat) :
    Int.land x ((2 ^ k - 1 : Nat) : Int) = x % 2 ^ k := by
  have hpos : 0 < 2 ^ k := Nat.pos_pow_of_pos _ (by decide)
  cases x with
  | ofNat m =>
    show ((m &&& (2 ^ k - 1) : Nat) : Int) = _
    rw [Nat.and_pow_two_sub_one_eq_mod]
    norm_cast
  | negSucc m =>
    show ((Nat.ldiff (2 ^ k - 1) m : Nat) : Int) = _
    rw [ldiff_mask, Int.negSucc_emod m (by exact_mod_cast hpos)]
    have hlt : m % 2 ^ k < 2 ^ k := Nat.mod_lt _ hpos
    push_cast [Nat.cast_sub (show m % 2 ^ k ≤ 2 ^ k - 1 by omega), Nat.cast_sub hpos]
    ring

theorem int_land_7 (x : Int) : Int.land x 0x7 = x % 8 := int_land_mask x 3

theorem int_land_7fff (x : Int) : Int.land x 0x7FFF = x % 32768 := int_land_mask x 15

theorem int_shr_15 (x : Int) : x >>> (15 : Nat) = x / 32768 := Int.shiftRight_eq_div_pow x 15

theorem int_shr_30 (x : Int) : x >>> (30 : Nat) = x / 1073741824 :=
  Int.shiftRight_eq_div_pow x 30

theorem lor_one_even (b : Nat) (h : b < 256) (h2 : b % 2 = 0) : (b ||| 1) % 256 = b + 1 := by
  have e := Nat.mul_add_lt_is_or (show 1 < 2 ^ 1 by decide) (b / 2)
  rw [show 2 ^ 1 * (b / 2) = b by omega] at e
  rw [← e]
  omega

theorem first_byte : ∀ p, p < 8 →
    ((((0 ||| (1 <<< 5)) % 256 ||| (p <<< 1) % 2 ^ 32) % 256) ||| 1) % 256 = 0x20 + 2 * p + 1 := by
  decide

theorem SetPtsBits_eq (pts : Int) :
    SetPtsBits pts
      = [0x20 + 2 * (pts / 2 ^ 30 % 8).toNat + 1,
         (pts / 2 ^ 15 % 2 ^ 15).toNat / 128,
         2 * ((pts / 2 ^ 15 % 2 ^ 15).toNat % 128) + 1,
         (pts % 2 ^ 15).toNat / 128,
         2 * ((pts % 2 ^ 15).toNat % 128) + 1, 0, 0, 0] := by
  have h1 : (Int.land (pts >>> (30 : Nat)) 0x7 % 2 ^ 32).toNat = (pts / 2 ^ 30 % 8).toNat := by
    rw [int_land_7, int_shr_30]; congr 1; omega
  have h2 : (Int.land (pts >>> (15 : Nat)) 0x7FFF % 2 ^ 32).toNat = (pts / 2 ^ 15 % 2 ^ 15).toNat := by
    rw [int_land_7fff, int_shr_15]; congr 1; omega
  have h3 : (Int.land pts 0x7FFF % 2 ^ 32).toNat = (pts % 2 ^ 15).toNat := by
    rw [int_land_7fff]; congr 1; omega
  have b1 : (pts / 2 ^ 30 % 8).toNat < 8 := by omega
  have b2 : (pts / 2 ^ 15 % 2 ^ 15).toNat < 32768 := by omega
  have b3 : (pts % 2 ^ 15).toNat < 32768 := by omega
  have half : ∀ q : Nat, q < 32768 →
      (((0 ||| (q <<< 1) % 2 ^ 32) % 256) ||| 1) % 256 = 2 * (q % 128) + 1 := by
    intro q hq
    rw [Nat.zero_or, Nat.shiftLeft_eq, lor_one_even _ (Nat.mod_lt _ (by decide)) (by omega)]
    omega
  have top : ∀ q : Nat, q < 32768 → (0 ||| ((q >>> 7) &&& 0xff)) % 256 = q / 128 := by
    intro q hq
    rw [Nat.zero_or, land_ff, Nat.shiftRight_eq_div_pow]
    omega
  simp only [SetPtsBits, h1, h2, h3]
  rw [first_byte _ b1, half _ b2, half _ b3, top _ b2, top _ b3]

theorem SetPtsBits_sample :
    SetPtsBits 90000 = [0x21, 0x00, 0x05, 0xBF, 0x21, 0, 0, 0]
    ∧ SetPtsBits (-1) = [0x2F, 0xFF, 0xFF, 0xFF, 0xFF, 0, 0, 0] := by
  rw [SetPtsBits_eq, SetPtsBits_eq]
  decide

/-- C22: for every timestamp (every integer, so every value of `std::int64_t`), `SetPtsBits`
leaves in `pts.bits` five bytes `b0 .. b4` followed by three zero bytes, with: `b0` has `0010` in
its top four bits, then the bits 32 to 30 of the timestamp, then the marker bit 1; the 16 bits
of `b1`, `b2` are the bits 29 to 15 of the timestamp followed by the marker bit 1; the 16 bits of
`b3`, `b4` are the bits 14 to 0 followed by the marker bit 1. The three parts put together are
the timestamp modulo `2 ^ 33`, and two timestamps that agree modulo `2 ^ 33` give the same
bytes. -/
theorem pts_packing (pts : Int) :
    ∃ b0 b1 b2 b3 b4 : Nat,
      SetPtsBits pts = [b0, b1, b2, b3, b4, 0, 0, 0]
      ∧ b0 < 256 ∧ b1 < 256 ∧ b2 < 256 ∧ b3 < 256 ∧ b4 < 256
      ∧ b0 / 16 = 0b0010 ∧ ((b0 / 2 % 8 : Nat) : Int) = pts / 2 ^ 30 % 2 ^ 3 ∧ b0 % 2 = 1
      ∧ (((256 * b1 + b2) / 2 : Nat) : Int) = pts / 2 ^ 15 % 2 ^ 15 ∧ b2 % 2 = 1
      ∧ (((256 * b3 + b4) / 2 : Nat) : Int) = pts % 2 ^ 15 ∧ b4 % 2 = 1
      ∧ ((b0 / 2 % 8 : Nat) : Int) * 2 ^ 30 + (((256 * b1 + b2) / 2 : Nat) : Int) * 2 ^ 15
          + (((256 * b3 + b4) / 2 : Nat) : Int) = pts % 2 ^ 33
      ∧ ∀ pts2 : Int, pts2 % 2 ^ 33 = pts % 2 ^ 33 → SetPtsBits pts2 = SetPtsBits pts := by
  refine ⟨_, _, _, _, _, SetPtsBits_eq pts, ?_, ?_, ?_, ?_, ?_, ?_, ?_, ?_, ?_, ?_, ?_, ?_, ?_, ?_⟩
  · omega
  · omega
  · omega
  · omega
  · omega
  · omega
  · omega
  · omega
  · omega
  · omega
  · omega
  · omega
  · omega
  · intro pts2 h
    rw [SetPtsBits_eq, SetPtsBits_eq]
    have e1 : pts2 / 2 ^ 30 % 8 = pts / 2 ^ 30 % 8 := by omega
    have e2 : pts2 / 2 ^ 15 % 2 ^ 15 = pts / 2 ^ 15 % 2 ^ 15 := by omega
    have e3 : pts2 % 2 ^ 15 = pts % 2 ^ 15 := by omega
    rw [e1, e2, e3]

end NMF
